import Mathlib

set_option linter.unusedSectionVars false
set_option linter.unnecessarySeqFocus false

/-!
Verification of the sparse multivariate polynomial core of the repository
(`src/poly/polynomial.rs`) and parts of its numeric tower
(`src/domains/float.rs`).

Shallow embedding conventions:
* a monomial exponent row (`&[E]` of length `nvars`) is a `List Nat`;
* the flat row-major exponent matrix is embedded as the list of its rows,
  so `exponents.len() == nterms * nvars` becomes
  `exponents.length = nterms` together with "every row has length nvars";
* `nterms` is maintained by the Rust code to be exactly
  `coefficients.len()` at every observable point, so it is derived;
* the coefficient ring (`F: Ring`) is a commutative ring `α` with decidable
  equality; `F::is_zero c` is `c = 0`, `add_assign` is `+`, and so on;
* the Euclidean-domain method `quot_rem` on coefficients is a parameter
  (`EuclOps`) carrying the interface contract `q * b + r = a` for `b ≠ 0`;
* `panic!`/`unimplemented!`/out-of-bounds indexing are `Option.none`
  (functions that can abort return `Option`);
* the `BinaryHeap` plus exponent-keyed `HashMap` pair used by `heap_mul`
  and `heap_division` is always kept key-synchronised by the source, and is
  embedded as one association list sorted by key (ascending for the
  min-heap of multiplication, descending for the max-heap of division)
  whose pop-min/pop-max is the head;
* the `while` loops of the heap algorithms get an explicit fuel parameter;
  exhausted fuel is `none`, so every `some` result is a completed run.
-/

namespace Symbolica

/-- Exponent rows: the slice `&self.exponents[i*nvars..(i+1)*nvars]`. -/
abbrev Row : Type := List Nat

/-- Mirror of `cmp_exponents` (polynomial.rs:280): Rust's lexicographic
slice comparison `a.cmp(b)` on exponent slices. -/
def cmp_exponents : Row → Row → Ordering
  | [], [] => .eq
  | [], _ :: _ => .lt
  | _ :: _, [] => .gt
  | a :: as, b :: bs =>
    if a < b then .lt else if b < a then .gt else cmp_exponents as bs

/-- Componentwise sum of two exponent rows, as in the
`zip(..).map(|(e1, e2)| *e1 + *e2)` idiom of the heap algorithms. -/
def add_exponents (a b : Row) : Row := List.zipWith (· + ·) a b

/-- Componentwise difference `*me - *ge` of exponent rows (used by the
division routines after a dominance check). -/
def sub_exponents (a b : Row) : Row := List.zipWith (· - ·) a b

/-- Componentwise dominance `iter().zip(..).all(|(ge, me)| me >= ge)`. -/
def dominates (m g : Row) : Bool := (List.zipWith (fun x y => decide (y ≤ x)) m g).all id

/-- Strict ordering of rows, `cmp_exponents a b = Ordering.lt`. -/
def rowLt (a b : Row) : Prop := cmp_exponents a b = .lt

instance : DecidableEq Ordering := fun a b => by
  cases a <;> cases b <;> first | exact isTrue rfl | exact isFalse (by simp)

instance (a b : Row) : Decidable (rowLt a b) := by unfold rowLt; infer_instance

variable {α : Type} [CommRing α] [DecidableEq α]

/-- Mirror of `MultivariatePolynomial` (polynomial.rs:19).  The `field`
handle becomes the type-class context on `α`; `var_map` is not involved in
any claim under scrutiny and all operations verified here treat the two
maps as already unified, so it is omitted from the state. -/
structure MultivariatePolynomial (α : Type) where
  coefficients : List α
  exponents : List Row
  nvars : Nat
  deriving Repr, DecidableEq

namespace MultivariatePolynomial

/-- `nterms` (polynomial.rs:26): kept equal to `coefficients.len()` by
every operation of the source, hence derived here. -/
def nterms (p : MultivariatePolynomial α) : Nat := p.coefficients.length

/-- Mirror of `new` (polynomial.rs:35) restricted to its observable state
(capacity hints have no semantic content). -/
def new (nvars : Nat) : MultivariatePolynomial α :=
  { coefficients := [], exponents := [], nvars := nvars }

/-- Mirror of `new_from` (polynomial.rs:54). -/
def new_from (p : MultivariatePolynomial α) : MultivariatePolynomial α :=
  new p.nvars

/-- Mirror of `is_zero` (polynomial.rs:120). -/
def is_zero (p : MultivariatePolynomial α) : Bool := p.nterms == 0

/-- Mirror of `is_one` (polynomial.rs:130). -/
def is_one (p : MultivariatePolynomial α) : Bool :=
  p.nterms == 1 && decide (p.coefficients.headD 0 = 1)
    && p.exponents.all (fun r => r.all (· == 0))

/-- Mirror of `is_constant` (polynomial.rs:150). -/
def is_constant (p : MultivariatePolynomial α) : Bool :=
  p.is_zero || (p.nterms == 1 && p.exponents.all (fun r => r.all (· == 0)))

/-- Mirror of `exponents(index)` (polynomial.rs:169), checked. -/
def exponentsAt (p : MultivariatePolynomial α) (i : Nat) : Option Row :=
  p.exponents[i]?

/-- Mirror of `last_exponents` (polynomial.rs:181), checked. -/
def last_exponents (p : MultivariatePolynomial α) : Option Row :=
  p.exponents.getLast?

/-- Mirror of `coefficient_back` (polynomial.rs:163), checked: the index
`nterms - index - 1` underflows `usize` when `index ≥ nterms`. -/
def coefficient_back (p : MultivariatePolynomial α) (i : Nat) : Option α :=
  if i < p.nterms then p.coefficients[p.nterms - i - 1]? else none

/-- Mirror of `exponents_back` (polynomial.rs:176), checked like
`coefficient_back`. -/
def exponents_back (p : MultivariatePolynomial α) (i : Nat) : Option Row :=
  if i < p.nterms then p.exponents[p.nterms - i - 1]? else none

/-- Mirror of `reverse` (polynomial.rs:260): reverse the monomial order
in place (row-level view of the flat-buffer swap). -/
def reverse (p : MultivariatePolynomial α) : MultivariatePolynomial α :=
  { p with coefficients := p.coefficients.reverse, exponents := p.exponents.reverse }

/-- Mirror of `mul_coeff` (polynomial.rs:688). -/
def mul_coeff (p : MultivariatePolynomial α) (c : α) : MultivariatePolynomial α :=
  { p with coefficients := p.coefficients.map (· * c) }

/-- Mirror of `ldegree_max` (polynomial.rs:740). -/
def ldegree_max (p : MultivariatePolynomial α) : Nat :=
  if p.is_zero then 0 else ((p.exponents.getLast?).getD []).foldr max 0

/-- Mirror of `lcoeff` (polynomial.rs:752). -/
def lcoeff (p : MultivariatePolynomial α) : α :=
  (p.coefficients.getLast?).getD 0

/-- Push one term at the very back (the
`coefficients.push / exponents.extend_from_slice / nterms += 1` idiom). -/
def pushTerm (p : MultivariatePolynomial α) (c : α) (e : Row) :
    MultivariatePolynomial α :=
  { p with coefficients := p.coefficients ++ [c], exponents := p.exponents ++ [e] }

/-- Mirror of `append_monomial_back` (polynomial.rs:324). -/
def append_monomial_back (p : MultivariatePolynomial α) (c : α) (e : Row) :
    MultivariatePolynomial α :=
  if c = 0 then p
  else if p.nterms ≠ 0 ∧ p.exponents.getLast? = some e then
    let s := (p.coefficients.getLast?).getD 0 + c
    if s = 0 then
      { p with coefficients := p.coefficients.dropLast,
               exponents := p.exponents.dropLast }
    else
      { p with coefficients := p.coefficients.dropLast ++ [s] }
  else pushTerm p c e

/-- One probe of the binary search of `append_monomial` (polynomial.rs:366).
The measure `r + 1 - l` strictly decreases, and the Rust loop always
returns before it reaches zero; the fuel is large enough for that. -/
def append_monomial_search (coefficient : α) (exponents : Row)
    (p : MultivariatePolynomial α) :
    Nat → Nat → Nat → MultivariatePolynomial α
  | 0, l, _ =>
    -- unreachable with the fuel used by `append_monomial`
    { p with coefficients := p.coefficients.insertIdx l coefficient,
             exponents := p.exponents.insertIdx l exponents }
  | fuel + 1, l, r =>
    if l ≤ r then
      let m := (l + r) / 2
      match cmp_exponents exponents ((p.exponents[m]?).getD []) with
      | .eq =>
        let s := (p.coefficients[m]?).getD 0 + coefficient
        if s = 0 then
          { p with coefficients := p.coefficients.eraseIdx m,
                   exponents := p.exponents.eraseIdx m }
        else
          { p with coefficients := p.coefficients.set m s }
      | .gt =>
        if m + 1 = p.nterms then pushTerm p coefficient exponents
        else append_monomial_search coefficient exponents p fuel (m + 1) r
      | .lt =>
        if m = 0 then
          { p with coefficients := coefficient :: p.coefficients,
                   exponents := exponents :: p.exponents }
        else append_monomial_search coefficient exponents p fuel l (m - 1)
    else
      { p with coefficients := p.coefficients.insertIdx l coefficient,
               exponents := p.exponents.insertIdx l exponents }

/-- Mirror of `append_monomial` (polynomial.rs:346).  `none` is the
`nvars mismatched` panic. -/
def append_monomial (p : MultivariatePolynomial α) (coefficient : α)
    (exponents : Row) : Option (MultivariatePolynomial α) :=
  if coefficient = 0 then some p
  else if p.nvars ≠ exponents.length then none
  else if p.nterms = 0 ∨ cmp_exponents ((p.exponents.getLast?).getD []) exponents = .lt then
    some (pushTerm p coefficient exponents)
  else
    some (append_monomial_search coefficient exponents p (p.nterms + 2) 0 p.nterms)

/-- Mirror of `Neg::neg` (polynomial.rs:623). -/
def neg (p : MultivariatePolynomial α) : MultivariatePolynomial α :=
  { p with coefficients := p.coefficients.map (fun c => -c) }

/-- The merge loop of `Add::add` (polynomial.rs:548), on parallel
coefficient/exponent lists. -/
def mergeTerms : List α → List Row → List α → List Row → List α × List Row
  | [], [], cs, es => (cs, es)
  | cs, es, [], [] => (cs, es)
  | c₁ :: cs₁, e₁ :: es₁, c₂ :: cs₂, e₂ :: es₂ =>
    match cmp_exponents e₁ e₂ with
    | .lt =>
      let t := mergeTerms cs₁ es₁ (c₂ :: cs₂) (e₂ :: es₂)
      (c₁ :: t.1, e₁ :: t.2)
    | .gt =>
      let t := mergeTerms (c₁ :: cs₁) (e₁ :: es₁) cs₂ es₂
      (c₂ :: t.1, e₂ :: t.2)
    | .eq =>
      let t := mergeTerms cs₁ es₁ cs₂ es₂
      if c₁ + c₂ = 0 then t else ((c₁ + c₂) :: t.1, e₁ :: t.2)
  | cs, es, _, _ => (cs, es)   -- ragged inputs never occur (length invariant)

/-- Mirror of `Add::add` (polynomial.rs:513).  `none` is the
`nvars mismatched` panic. -/
def add (p q : MultivariatePolynomial α) : Option (MultivariatePolynomial α) :=
  if p.is_zero then some q
  else if q.is_zero then some p
  else if p.nvars ≠ q.nvars then none
  else
    let t := mergeTerms p.coefficients p.exponents q.coefficients q.exponents
    some { coefficients := t.1, exponents := t.2, nvars := p.nvars }

/-- Mirror of `Sub::sub` (polynomial.rs:608): `self.add(other.neg())`. -/
def sub (p q : MultivariatePolynomial α) : Option (MultivariatePolynomial α) :=
  p.add q.neg

end MultivariatePolynomial

/-! ## Heap multiplication

The source keeps a `BinaryHeap` of candidate exponents and a `HashMap`
from exponents to the index pairs reaching that exponent; a key is pushed
to the heap exactly when its map entry is created, and the entry is
removed exactly when the key is popped, so heap keys and map keys always
coincide.  The pair is embedded as one association list sorted by key in
ascending `cmp_exponents` order (`heap_mul` uses a min-heap): head = pop. -/

/-- Heap-plus-cache state of `heap_mul`: keys ascending, each with its
pair list in insertion order. -/
abbrev MulState : Type := List (Row × List (Nat × Nat))

/-- The `cache.entry(monom).or_insert_with(|| { h.push(monom); smallvec![] }).push(pr)`
idiom: append to an existing entry, or create the entry at its sorted
position (= push on the heap). -/
def insertPair : MulState → Row → Nat × Nat → MulState
  | [], k, pr => [(k, [pr])]
  | (k₀, l₀) :: rest, k, pr =>
    match cmp_exponents k k₀ with
    | .lt => (k, [pr]) :: (k₀, l₀) :: rest
    | .eq => (k₀, l₀ ++ [pr]) :: rest
    | .gt => (k₀, l₀) :: insertPair rest k pr

namespace MultivariatePolynomial

/-- The `for (i, j) in cache.remove(&cur_mon.0).unwrap()` drain of
`heap_mul` (polynomial.rs:1098): accumulate `self[i] * other[j]` and push
the successors `(i, j+1)` (always) and `(i+1, 0)` (only when `j == 0`).
Checked indexing: `none` is an out-of-bounds panic. -/
def heap_mul_drain (a b : MultivariatePolynomial α) :
    List (Nat × Nat) → MulState → α → Option (α × MulState)
  | [], st, coeff => some (coeff, st)
  | (i, j) :: prs, st, coeff => do
    let ci ← a.coefficients[i]?
    let cj ← b.coefficients[j]?
    let coeff := coeff + ci * cj
    let st ←
      if j + 1 < b.nterms then do
        let ei ← a.exponents[i]?
        let ej ← b.exponents[j + 1]?
        pure (insertPair st (add_exponents ei ej) (i, j + 1))
      else pure st
    let st ←
      if j = 0 ∧ i + 1 < a.nterms then do
        let ei ← a.exponents[i + 1]?
        let ej ← b.exponents[j]?
        pure (insertPair st (add_exponents ei ej) (i + 1, 0))
      else pure st
    heap_mul_drain a b prs st coeff

/-- The `while h.len() > 0` loop of `heap_mul` (polynomial.rs:1093): pop
the smallest exponent, drain its pairs, and emit the accumulated
coefficient unless it is zero.  Exhausted fuel with a non-empty heap is
`none`; `heap_mul` supplies enough fuel for every complete run. -/
def heap_mul_loop (a b : MultivariatePolynomial α) :
    Nat → MulState → MultivariatePolynomial α → Option (MultivariatePolynomial α)
  | _, [], res => some res
  | 0, _ :: _, _ => none
  | fuel + 1, (m, prs) :: rest, res => do
    let t ← heap_mul_drain a b prs rest 0
    heap_mul_loop a b fuel t.2 (if t.1 = 0 then res else res.pushTerm t.1 m)

/-- Mirror of `heap_mul` (polynomial.rs:1074).  The seed reads
`self.exponents(0)` and `other.exponents(0)`; on a zero operand the run
aborts with an out-of-bounds access (`none`). -/
def heap_mul (a b : MultivariatePolynomial α) : Option (MultivariatePolynomial α) :=
  if a.nterms = 0 ∨ b.nterms = 0 then none
  else do
    let e₀ ← a.exponents[0]?
    let e₁ ← b.exponents[0]?
    heap_mul_loop a b (a.nterms * b.nterms)
      (insertPair [] (add_exponents e₀ e₁) (0, 0)) (new a.nvars)

/-- Mirror of `Mul::mul` (polynomial.rs:639): delegates to `heap_mul`. -/
def mul (a b : MultivariatePolynomial α) : Option (MultivariatePolynomial α) :=
  heap_mul a b

end MultivariatePolynomial

/-! ## Division -/

/-- The `EuclideanDomain` coefficient interface of §4.4 that the
polynomial division code consumes (`rings.rs` is not part of the sources
under audit; this carries exactly the contract `quot * b + rem = a` that
`quot_rem` on ring elements provides for a non-zero divisor). -/
structure EuclOps (α : Type) [CommRing α] where
  quotRem : α → α → α × α
  quot_mul_add : ∀ a b : α, b ≠ 0 → (quotRem a b).1 * b + (quotRem a b).2 = a

/-- Heap-plus-cache state of `heap_division`: keys in descending
`cmp_exponents` order (the division loop uses a max-heap): head = pop. -/
abbrev DivCache : Type := List (Row × List (Nat × Nat × Bool))

/-- Entry insertion for the division cache, descending key order. -/
def insertDivPair : DivCache → Row → Nat × Nat × Bool → DivCache
  | [], k, pr => [(k, [pr])]
  | (k₀, l₀) :: rest, k, pr =>
    match cmp_exponents k k₀ with
    | .gt => (k, [pr]) :: (k₀, l₀) :: rest
    | .eq => (k₀, l₀ ++ [pr]) :: rest
    | .lt => (k₀, l₀) :: insertDivPair rest k pr

namespace MultivariatePolynomial

/-- Mutable state of the `heap_division` loop (polynomial.rs:1371):
dividend read position `k`, the quotient and remainder being built
largest-monomial-first, `div_monomial_in_heap`,
`index_of_div_monomial_in_quotient`, and the heap/cache pair. -/
structure DivState (α : Type) where
  k : Nat
  q : MultivariatePolynomial α
  r : MultivariatePolynomial α
  dmh : List Bool
  iq : List Nat
  cache : DivCache

/-- The `for (qi, gi, next_in_divisor) in cache.remove(&m).unwrap()` drain
of `heap_division` (polynomial.rs:1408): subtract
`q[qi] * div.coefficient_back(gi)` and schedule successors —
`(qi, gi+1, true)` for a quotient-heap tuple, and for a divisor-heap tuple
advance the column to `(qi+1, gi, false)` (or mark the divisor monomial as
out of the heap) and possibly re-engage column `gi+1` at
`(qi, gi+1, false)`. -/
def heap_division_drain (div q : MultivariatePolynomial α) :
    List (Nat × Nat × Bool) → DivCache → List Bool → List Nat → α →
    Option (α × DivCache × List Bool × List Nat)
  | [], cache, dmh, iq, c => some (c, cache, dmh, iq)
  | (qi, gi, nid) :: rest, cache, dmh, iq, c => do
    let qc ← q.coefficients[qi]?
    let dc ← div.coefficient_back gi
    let c := c - qc * dc
    if nid then
      if gi + 1 < div.nterms then do
        let qe ← q.exponents[qi]?
        let ge ← div.exponents_back (gi + 1)
        heap_division_drain div q rest
          (insertDivPair cache (add_exponents qe ge) (qi, gi + 1, true)) dmh iq c
      else heap_division_drain div q rest cache dmh iq c
    else do
      let iq := iq.set gi (qi + 1)
      let step ←
        if qi + 1 < q.nterms then do
          let qe ← q.exponents[qi + 1]?
          let ge ← div.exponents_back gi
          pure (insertDivPair cache (add_exponents qe ge) (qi + 1, gi, false), dmh)
        else pure (cache, dmh.set gi false)
      let cache := step.1
      let dmh := step.2
      if gi + 1 < div.nterms then do
        let flag ← dmh[gi + 1]?
        if flag then heap_division_drain div q rest cache dmh iq c
        else do
          let t ← iq[gi + 1]?
          if t < q.nterms then do
            let qe ← q.exponents[qi]?
            let ge ← div.exponents_back (gi + 1)
            heap_division_drain div q rest
              (insertDivPair cache (add_exponents qe ge) (qi, gi + 1, false))
              (dmh.set (gi + 1) true) iq c
          else heap_division_drain div q rest cache dmh iq c
      else heap_division_drain div q rest cache dmh iq c

/-- The emission tail of one `heap_division` iteration
(polynomial.rs:1430): after the monomial `m` with net coefficient `c` has
been determined (and the cache/heap state drained to `cache`, `dmh`,
`iq`), either emit a quotient term (aborting the whole division with
`Sum.inr ()` when the coefficient `quot_rem` leaves a remainder — the
clean-division failure), emit a remainder term, or emit nothing. -/
def heap_division_emit (E : EuclOps α) (div : MultivariatePolynomial α)
    (s : DivState α) (m : Row) (c : α) (k' : Nat) (cache : DivCache)
    (dmh : List Bool) (iq : List Nat) : Option (DivState α ⊕ Unit) := do
  let ge ← div.last_exponents
  if c ≠ 0 then
    if dominates m ge then
      let qr := E.quotRem c div.lcoeff
      if qr.2 ≠ 0 then pure (.inr ())
      else
        let q' := s.q.pushTerm qr.1 (sub_exponents m ge)
        if div.nterms = 1 then
          pure (.inl { k := k', q := q', r := s.r, dmh := dmh, iq := iq, cache := cache })
        else do
          let qe ← q'.exponents.getLast?
          let g1 ← div.exponents_back 1
          let key := add_exponents qe g1
          if q'.nterms < div.nterms then
            pure (.inl { k := k', q := q', r := s.r, dmh := dmh, iq := iq,
                         cache := insertDivPair cache key (q'.nterms - 1, 1, true) })
          else if div.nterms < q'.nterms then do
            let flag ← dmh[1]?
            if flag then
              pure (.inl { k := k', q := q', r := s.r, dmh := dmh, iq := iq, cache := cache })
            else
              pure (.inl { k := k', q := q', r := s.r, dmh := dmh.set 1 true, iq := iq,
                           cache := insertDivPair cache key (q'.nterms - 1, 1, false) })
          else
            pure (.inl { k := k', q := q', r := s.r,
                         dmh := dmh.set 1 true,
                         iq := iq.map (fun _ => q'.nterms - 1),
                         cache := insertDivPair cache key (q'.nterms - 1, 1, false) })
    else
      pure (.inl { k := k', q := s.q, r := s.r.pushTerm c m, dmh := dmh, iq := iq, cache := cache })
  else
    pure (.inl { k := k', q := s.q, r := s.r, dmh := dmh, iq := iq, cache := cache })

/-- One iteration of the `while !h.is_empty() || k < self.nterms` loop of
`heap_division` (polynomial.rs:1393): choose the next monomial `m` from
the unread dividend tail and/or the heap top, drain the matching cache
entry, then hand over to `heap_division_emit`. -/
def heap_division_step (E : EuclOps α) (a div : MultivariatePolynomial α)
    (s : DivState α) : Option (DivState α ⊕ Unit) := do
  let mck ←
    match s.cache with
    | [] => do
      let e ← a.exponents_back s.k
      let c ← a.coefficient_back s.k
      pure (e, c, s.k + 1)
    | (top, _) :: _ =>
      if s.k < a.nterms then do
        let e ← a.exponents_back s.k
        if cmp_exponents e top ≠ .lt then do
          let c ← a.coefficient_back s.k
          pure (e, c, s.k + 1)
        else pure (top, (0 : α), s.k)
      else pure (top, (0 : α), s.k)
  let m := mck.1
  let k' := mck.2.2
  let drained ←
    match s.cache with
    | (top, prs) :: rest =>
      if m = top then heap_division_drain div s.q prs rest s.dmh s.iq mck.2.1
      else pure (mck.2.1, s.cache, s.dmh, s.iq)
    | [] => pure (mck.2.1, s.cache, s.dmh, s.iq)
  heap_division_emit E div s m drained.1 k' drained.2.1 drained.2.2.1 drained.2.2.2

/-- The full `heap_division` loop with fuel; at the end quotient and
remainder are reversed into canonical (increasing) order
(polynomial.rs:1556).  `Sum.inr ()` propagates a clean-division failure. -/
def heap_division_loop (E : EuclOps α) (a div : MultivariatePolynomial α) :
    Nat → DivState α → Option ((MultivariatePolynomial α × MultivariatePolynomial α) ⊕ Unit)
  | fuel, s =>
    if s.cache = [] ∧ a.nterms ≤ s.k then some (.inl (s.q.reverse, s.r.reverse))
    else
      match fuel with
      | 0 => none
      | fuel + 1 => do
        let t ← heap_division_step E a div s
        match t with
        | .inr () => some (.inr ())
        | .inl s' => heap_division_loop E a div fuel s'

/-- Mirror of `heap_division` (polynomial.rs:1371).  A clean-division
failure returns the sentinel `(empty quotient, original dividend)`
(polynomial.rs:1486). -/
def heap_division (E : EuclOps α) (a div : MultivariatePolynomial α)
    (fuel : Nat) : Option (MultivariatePolynomial α × MultivariatePolynomial α) :=
  match heap_division_loop E a div fuel
      { k := 0, q := a.new_from, r := a.new_from,
        dmh := List.replicate div.nterms false,
        iq := List.replicate div.nterms 0, cache := [] } with
  | none => none
  | some (.inr ()) => some (a.new_from, a)
  | some (.inl qr) => some qr

/-- The term loop of the single-monomial fast path of `quot_rem`
(polynomial.rs:1338): divide every coefficient by the divisor coefficient
and check exponent dominance; `none` here is the early `return` that
`quot_rem` turns into the sentinel pair. -/
def quot_rem_monomial_terms (E : EuclOps α) (dc : α) (de : Row) :
    List α → List Row → Option (List α × List Row)
  | [], _ => some ([], [])
  | _, [] => some ([], [])
  | c :: cs, e :: es =>
    let qr := E.quotRem c dc
    if qr.2 ≠ 0 ∨ ¬dominates e de then none
    else do
      let t ← quot_rem_monomial_terms E dc de cs es
      some (qr.1 :: t.1, sub_exponents e de :: t.2)

/-- Mirror of `quot_rem` (polynomial.rs:1318).  `none` is the
`Cannot divide by 0 polynomial` panic; fuel feeds `heap_division`. -/
def quot_rem (E : EuclOps α) (a div : MultivariatePolynomial α) (fuel : Nat) :
    Option (MultivariatePolynomial α × MultivariatePolynomial α) :=
  if div.is_zero then none
  else if a.is_zero then some (a, a)
  else if div.is_one then some (a, a.new_from)
  else if div.nterms = 1 then
    match div.coefficients[0]?, div.exponents[0]? with
    | some dc, some de =>
      match quot_rem_monomial_terms E dc de a.coefficients a.exponents with
      | some t => some ({ coefficients := t.1, exponents := t.2, nvars := a.nvars }, a.new_from)
      | none => some (a.new_from, a)
    | _, _ => none
  else heap_division E a div fuel

end MultivariatePolynomial

/-! ## Synthetic division and the finite-field fast path -/

/-- A fresh exponent row with a single entry set: the
`q.exponents.resize(..); q.exponents[.. + var] = v` idiom of
`synthetic_division`. -/
def mkRow (n var v : Nat) : Row := (List.replicate n 0).set var v

/-- The variable detection loop of `synthetic_division`
(polynomial.rs:1178): the first position with a non-zero exponent in the
dividend's leading monomial, `0` if there is none. -/
def findVar (l : Row) : Nat := (l.findIdx? (fun x => x != 0)).getD 0

namespace MultivariatePolynomial

/-- The dividend scan of `synthetic_division` (polynomial.rs:1191): walk
`dividendpos` towards the front until the power `pow` of the active
variable is found (returning its coefficient) or passed (returning 0);
`dividendpos` persists across outer iterations. -/
def synth_find (a : MultivariatePolynomial α) (var pow : Nat) :
    Nat → Option (α × Nat)
  | 0 => do
    let e ← a.exponents[0]?
    let ev ← e[var]?
    if ev = pow then do
      let c ← a.coefficients[0]?
      some (c, 0)
    else some (0, 0)
  | dp + 1 => do
    let e ← a.exponents[dp + 1]?
    let ev ← e[var]?
    if ev = pow then do
      let c ← a.coefficients[dp + 1]?
      some (c, dp + 1)
    else if ev < pow then some (0, dp + 1)
    else synth_find a var pow dp

/-- The inner `bindex` advance of `synthetic_division`
(polynomial.rs:1204): move `bindex` forward while
`div.exponents(bindex)[var] + q.exponents(qindex)[var] < pow`.  The fuel
`div.nterms` dominates the number of possible advances. -/
def synth_advance (div : MultivariatePolynomial α) (var pow qev : Nat) :
    Nat → Nat → Option Nat
  | 0, b => some b
  | fuel + 1, b =>
    if b + 1 < div.nterms then do
      let e ← div.exponents[b]?
      let ev ← e[var]?
      if ev + qev < pow then synth_advance div var pow qev fuel (b + 1) else some b
    else some b

/-- The quotient back-substitution loop of `synthetic_division`
(polynomial.rs:1203): for each quotient term whose product with a divisor
term lands on power `pow`, subtract the product from the coefficient.
`bindex` is threaded through, never reset.  Fuel counts the remaining
`qindex` steps. -/
def synth_sub (div q : MultivariatePolynomial α) (var pow : Nat) :
    Nat → Nat → Nat → α → Option α
  | 0, _, _, coeff => some coeff
  | fuel + 1, qindex, bindex, coeff =>
    if bindex < div.nterms ∧ qindex < q.nterms then do
      let qe ← q.exponents[qindex]?
      let qev ← qe[var]?
      let b ← synth_advance div var pow qev div.nterms bindex
      let e ← div.exponents[b]?
      let ev ← e[var]?
      if ev + qev = pow then do
        let dc ← div.coefficients[b]?
        let qc ← q.coefficients[qindex]?
        synth_sub div q var pow fuel (qindex + 1) b (coeff - dc * qc)
      else synth_sub div q var pow fuel (qindex + 1) b coeff
    else some coeff

/-- One body of the outer `loop` of `synthetic_division`: find the
dividend coefficient at power `pow`, back-substitute the quotient, then
append the result to the quotient (clean ring division at `pow ≥ m`) or
to the remainder.  Returns the new `dividendpos`, quotient, remainder. -/
def synth_step (E : EuclOps α) (a div : MultivariatePolynomial α)
    (var mdeg : Nat) (norm : α) (pow dp : Nat)
    (q r : MultivariatePolynomial α) :
    Option (Nat × MultivariatePolynomial α × MultivariatePolynomial α) := do
  let t ← synth_find a var pow dp
  let coeff ← synth_sub div q var pow q.nterms 0 0 t.1
  if coeff = 0 then some (t.2, q, r)
  else if mdeg ≤ pow then
    let qr := E.quotRem coeff norm
    if qr.2 = 0 then some (t.2, q.pushTerm qr.1 (mkRow q.nvars var (pow - mdeg)), r)
    else some (t.2, q, r.pushTerm coeff (mkRow r.nvars var pow))
  else some (t.2, q, r.pushTerm coeff (mkRow r.nvars var pow))

/-- The outer loop of `synthetic_division`: `pow` walks from
`ldegree_max` down to `0` inclusive; the final quotient and remainder are
reversed into canonical order. -/
def synthetic_division_loop (E : EuclOps α) (a div : MultivariatePolynomial α)
    (var mdeg : Nat) (norm : α) :
    Nat → Nat → MultivariatePolynomial α → MultivariatePolynomial α →
    Option (MultivariatePolynomial α × MultivariatePolynomial α)
  | 0, dp, q, r => do
    let t ← synth_step E a div var mdeg norm 0 dp q r
    some (t.2.1.reverse, t.2.2.reverse)
  | pow + 1, dp, q, r => do
    let t ← synth_step E a div var mdeg norm (pow + 1) dp q r
    synthetic_division_loop E a div var mdeg norm pow t.1 t.2.1 t.2.2

/-- Mirror of `synthetic_division` (polynomial.rs:1167).  `none` covers
the panics on empty divisor/dividend storage. -/
def synthetic_division (E : EuclOps α) (a div : MultivariatePolynomial α) :
    Option (MultivariatePolynomial α × MultivariatePolynomial α) := do
  let norm ← div.coefficients.getLast?
  if a.nterms = 0 then none
  else do
    let lastE ← a.last_exponents
    synthetic_division_loop E a div (findVar lastE) div.ldegree_max norm
      a.ldegree_max (a.nterms - 1) a.new_from a.new_from

/-- The term split of the non-constant single-monomial fast path of
`fast_divmod` (polynomial.rs:1599): dominated terms go to the quotient
(scaled by the cached inverse), the rest to the remainder. -/
def fast_divmod_split (iv : α) (de : Row) :
    List α → List Row → (List α × List Row) × (List α × List Row)
  | [], _ => (([], []), ([], []))
  | _, [] => (([], []), ([], []))
  | c :: cs, e :: es =>
    let t := fast_divmod_split iv de cs es
    if dominates e de then
      ((c * iv :: t.1.1, sub_exponents e de :: t.1.2), t.2)
    else
      (t.1, (c :: t.2.1, e :: t.2.2))

/-- Mirror of `fast_divmod` (polynomial.rs:1575), the optimized
univariate division over a finite field.  `inv` is the field inversion of
the `FiniteField` ring handle.  The Rust function takes the divisor by
`&mut` and normalises/restores it in place; the returned triple is
`(quotient, remainder, final state of the divisor)`. -/
def fast_divmod (E : EuclOps α) (inv : α → α)
    (a div : MultivariatePolynomial α) :
    Option (MultivariatePolynomial α × MultivariatePolynomial α ×
      MultivariatePolynomial α) :=
  if div.nterms = 1 then do
    let c₀ ← div.coefficients[0]?
    let iv := inv c₀
    if div.is_constant then
      some (a.mul_coeff iv, a.new_from, div)
    else do
      let de ← div.exponents[0]?
      let t := fast_divmod_split iv de a.coefficients a.exponents
      some ({ coefficients := t.1.1, exponents := t.1.2, nvars := a.nvars },
            { coefficients := t.2.1, exponents := t.2.2, nvars := a.nvars }, div)
  else if div.lcoeff = 1 then do
    let qr ← synthetic_division E a div
    some (qr.1, qr.2, div)
  else do
    let o := div.lcoeff
    let iv := inv div.lcoeff
    let div₁ := div.mul_coeff iv
    let qr ← synthetic_division E a div₁
    some (qr.1.mul_coeff o, qr.2, div₁.mul_coeff o)

/-- Mirror of `PartialEq::eq` (polynomial.rs:489).  `none` is the
`nvars mismatched` panic; the flat exponent buffers of the source compare
equal exactly when the row lists do (rows of equal width `nvars`). -/
def poly_eq (a b : MultivariatePolynomial α) : Option Bool :=
  if a.nvars ≠ b.nvars then
    if a.is_zero && b.is_zero then some true
    else if a.is_zero || b.is_zero then some false
    else none
  else if a.nterms ≠ b.nterms then some false
  else some (decide (a.exponents = b.exponents) && decide (a.coefficients = b.coefficients))

end MultivariatePolynomial

/-! ## Numeric tower fragments (`src/domains/float.rs`) -/

/-- Mirror of `Rational::sample_unit` (float.rs:678): order the two
signed 64-bit draws and build `Rational::Natural(numerator, denominator)`
from them (a plain enum construction — no reduction happens). -/
def sample_unit (rng1 rng2 : Int) : Int × Int :=
  if rng1 > rng2 then (rng2, rng1) else (rng1, rng2)

/-- A 2-lane SIMD double (`wide::f64x2`); the hyperbolic stubs never read
the lanes. -/
structure f64x2 where
  l0 : Float
  l1 : Float

/-- A 4-lane SIMD double (`wide::f64x4`). -/
structure f64x4 where
  l0 : Float
  l1 : Float
  l2 : Float
  l3 : Float

/-- The panic message of every hyperbolic stub of the `simd_impl!` `Real`
implementations (float.rs:583). -/
def simdHyperbolicMessage : String :=
  "Hyperbolic geometric functions are not supported with SIMD"

namespace f64x2

/-- Mirror of `sinh` for `f64x2` (float.rs:584): `unimplemented!`. -/
def sinh (_ : f64x2) : Except String f64x2 := .error simdHyperbolicMessage

/-- Mirror of `cosh` for `f64x2` (float.rs:589). -/
def cosh (_ : f64x2) : Except String f64x2 := .error simdHyperbolicMessage

/-- Mirror of `tanh` for `f64x2` (float.rs:594). -/
def tanh (_ : f64x2) : Except String f64x2 := .error simdHyperbolicMessage

/-- Mirror of `asinh` for `f64x2` (float.rs:599). -/
def asinh (_ : f64x2) : Except String f64x2 := .error simdHyperbolicMessage

/-- Mirror of `acosh` for `f64x2` (float.rs:604). -/
def acosh (_ : f64x2) : Except String f64x2 := .error simdHyperbolicMessage

/-- Mirror of `atanh` for `f64x2` (float.rs:609). -/
def atanh (_ : f64x2) : Except String f64x2 := .error simdHyperbolicMessage

end f64x2

namespace f64x4

/-- Mirror of `sinh` for `f64x4` (float.rs:584, second `simd_impl!`). -/
def sinh (_ : f64x4) : Except String f64x4 := .error simdHyperbolicMessage

/-- Mirror of `cosh` for `f64x4`. -/
def cosh (_ : f64x4) : Except String f64x4 := .error simdHyperbolicMessage

/-- Mirror of `tanh` for `f64x4`. -/
def tanh (_ : f64x4) : Except String f64x4 := .error simdHyperbolicMessage

/-- Mirror of `asinh` for `f64x4`. -/
def asinh (_ : f64x4) : Except String f64x4 := .error simdHyperbolicMessage

/-- Mirror of `acosh` for `f64x4`. -/
def acosh (_ : f64x4) : Except String f64x4 := .error simdHyperbolicMessage

/-- Mirror of `atanh` for `f64x4`. -/
def atanh (_ : f64x4) : Except String f64x4 := .error simdHyperbolicMessage

end f64x4

/-! ## Well-formedness and semantics -/

namespace MultivariatePolynomial

/-- The representation part of `check_consistency` (polynomial.rs:296):
`coefficients.len() == nterms`, `exponents.len() == nterms * nvars`. -/
def wf (p : MultivariatePolynomial α) : Prop :=
  p.coefficients.length = p.exponents.length ∧
    ∀ r ∈ p.exponents, r.length = p.nvars

/-- The full canonical-form invariant checked by `check_consistency`
(polynomial.rs:296): well-formed, no zero coefficient, and rows strictly
increasing under `cmp_exponents`. -/
def canonical (p : MultivariatePolynomial α) : Prop :=
  p.wf ∧ (∀ c ∈ p.coefficients, c ≠ 0) ∧
    p.exponents.Chain' (fun r s => cmp_exponents r s = .lt)

instance (p : MultivariatePolynomial α) : Decidable p.wf :=
  inferInstanceAs (Decidable (p.coefficients.length = p.exponents.length ∧
    ∀ r ∈ p.exponents, r.length = p.nvars))

/-- Executable check that consecutive exponent rows strictly increase
(the computable face of the `Chain'` conjunct of `canonical`). -/
def rowsSorted : List Row → Bool
  | [] => true
  | [_] => true
  | r :: s :: t => (cmp_exponents r s == Ordering.lt) && rowsSorted (s :: t)

instance (p : MultivariatePolynomial α) : Decidable p.canonical :=
  decidable_of_iff (p.wf ∧ (∀ c ∈ p.coefficients, c ≠ 0) ∧
      rowsSorted p.exponents = true) (by
    unfold canonical
    refine and_congr Iff.rfl (and_congr Iff.rfl ?_)
    induction p.exponents with
    | nil => simp [rowsSorted]
    | cons r t ih =>
      cases t with
      | nil => simp [rowsSorted]
      | cons s u =>
        rw [List.chain'_cons, ← ih]
        simp only [rowsSorted, Bool.and_eq_true]
        exact and_congr (by cases h : cmp_exponents r s <;> decide) Iff.rfl)

/-- The terms of a polynomial as coefficient/row pairs. -/
def terms (p : MultivariatePolynomial α) : List (α × Row) :=
  p.coefficients.zip p.exponents

end MultivariatePolynomial

/-- Sum of the coefficients of a term list at the exponent row `m`. -/
def tCoeff (l : List (α × Row)) (m : Row) : α :=
  l.foldr (fun t acc => if t.2 = m then t.1 + acc else acc) 0

namespace MultivariatePolynomial

/-- The coefficient of the monomial with exponent row `m`: the sum of the
stored coefficients at that row. -/
def coeffOf (p : MultivariatePolynomial α) (m : Row) : α :=
  tCoeff p.terms m

/-- The coefficient of `m` in the product `p * q`, as the convolution sum
over all pairs of stored terms whose exponent rows add to `m`. -/
def convCoeff (p q : MultivariatePolynomial α) (m : Row) : α :=
  p.terms.foldr (fun t acc =>
    acc + tCoeff (q.terms.map (fun s => (t.1 * s.1, add_exponents t.2 s.2))) m) 0

/-- Sorted-merge insertion of one term, used by the reference multiplier:
insert before the first larger row, merge on an equal row (dropping the
term on cancellation). -/
def insertTermAux : List α → List Row → α → Row → List α × List Row
  | [], _, c, e => ([c], [e])
  | _ :: _, [], c, e => ([c], [e])
  | c₀ :: cs, e₀ :: es, c, e =>
    match cmp_exponents e e₀ with
    | .lt => (c :: c₀ :: cs, e :: e₀ :: es)
    | .eq => if c + c₀ = 0 then (cs, es) else ((c + c₀) :: cs, e₀ :: es)
    | .gt =>
      let t := insertTermAux cs es c e
      (c₀ :: t.1, e₀ :: t.2)

/-- Insert one monomial into a canonically ordered polynomial. -/
def insertTerm (p : MultivariatePolynomial α) (c : α) (e : Row) :
    MultivariatePolynomial α :=
  let t := insertTermAux p.coefficients p.exponents c e
  { p with coefficients := t.1, exponents := t.2 }

/-- Insert a list of monomials one by one, skipping zero coefficients. -/
def insertAll (p : MultivariatePolynomial α) (L : List (α × Row)) :
    MultivariatePolynomial α :=
  L.foldl (fun res t => if t.1 = 0 then res else insertTerm res t.1 t.2) p

/-- Modelled from the spec: the quadratic reference multiplier of §8.3
(testable property "Multiplication equivalence"), which "forms all
nterms(a)·nterms(b) pairwise monomial products and merges equal
exponents".  Zero products are skipped so that the result stays in
canonical form. -/
def quad_mul (a b : MultivariatePolynomial α) : MultivariatePolynomial α :=
  insertAll (new a.nvars)
    (a.terms.flatMap (fun t =>
      b.terms.map (fun s => (t.1 * s.1, add_exponents t.2 s.2))))

end MultivariatePolynomial

/-- Non-strict ordering of rows. -/
def rowLe (x y : Row) : Prop := cmp_exponents x y ≠ .gt

instance (x y : Row) : Decidable (rowLe x y) := by unfold rowLe; infer_instance

namespace MultivariatePolynomial

/-- All products of one term with each term of a list. -/
def rowProdList (t : α × Row) (bts : List (α × Row)) : List (α × Row) :=
  bts.map (fun s => (t.1 * s.1, add_exponents t.2 s.2))

/-- All pairwise products of two term lists, row-major. -/
def tailProd (ats bts : List (α × Row)) : List (α × Row) :=
  ats.flatMap (fun t => rowProdList t bts)

/-- The total contribution at monomial `m` that the pair `(i, j)` and all
of its not-yet-scheduled successors will eventually add to the heap
product: row `i` times the tail of `b` from `j`, plus (for a `j = 0`
pair, which is responsible for introducing the later rows of `a`) the
whole product of the remaining rows of `a` with `b`. -/
def pairFuture (a b : MultivariatePolynomial α) (ij : Nat × Nat) (m : Row) : α :=
  tCoeff (rowProdList (a.terms.getD ij.1 (0, [])) (b.terms.drop ij.2)) m +
    (if ij.2 = 0 then tCoeff (tailProd (a.terms.drop (ij.1 + 1)) b.terms) m else 0)

/-- Total future contribution of all pairs pending in a heap state. -/
def stateFuture (a b : MultivariatePolynomial α) (st : MulState) (m : Row) : α :=
  st.foldr (fun entry acc =>
    acc + entry.2.foldr (fun ij acc₂ => acc₂ + pairFuture a b ij m) 0) 0

/-- The set of monomials reachable as a product of a row of `a` and a row
of `b`; the strictly increasing sequence of popped heap keys lives inside
it, which bounds the iteration count of `heap_mul`. -/
def mulKeySet (a b : MultivariatePolynomial α) : Finset Row :=
  ((Finset.range a.nterms) ×ˢ (Finset.range b.nterms)).image
    (fun ij => add_exponents (a.exponents.getD ij.1 []) (b.exponents.getD ij.2 []))

/-- Iterations left: reachable product monomials at or above the current
heap minimum. -/
def mulMeasure (a b : MultivariatePolynomial α) (st : MulState) : Nat :=
  match st with
  | [] => 0
  | (k, _) :: _ => ((mulKeySet a b).filter (fun key => rowLe k key)).card

/-- Well-formedness of one pending multiplication pair: indices in range
and the cache key is the sum of the two exponent rows. -/
def pairWf (a b : MultivariatePolynomial α) (key : Row) (ij : Nat × Nat) : Prop :=
  ij.1 < a.nterms ∧ ij.2 < b.nterms ∧
    add_exponents (a.exponents.getD ij.1 []) (b.exponents.getD ij.2 []) = key

/-- Invariant of the `heap_mul` heap/cache state: keys strictly ascending,
entries non-empty, and every pending pair well-formed under its key. -/
def mulStateWf (a b : MultivariatePolynomial α) (st : MulState) : Prop :=
  (st.map Prod.fst).Chain' (fun r s => cmp_exponents r s = .lt) ∧
    (∀ entry ∈ st, entry.2 ≠ []) ∧
    (∀ entry ∈ st, ∀ ij ∈ entry.2, pairWf a b entry.1 ij)

end MultivariatePolynomial

/-- The integer ring as a Euclidean domain: quotient and remainder of the
machine/big integers truncate towards zero. -/
def intEuclOps : EuclOps Int where
  quotRem a b := (a.tdiv b, a.tmod b)
  quot_mul_add a b _ := by rw [mul_comm]; exact Int.tdiv_add_tmod a b

/-- A prime finite field as a Euclidean domain: `quot_rem` divides by the
inverse and never leaves a remainder.  The inverse is computed as
`b ^ (p - 2)` (little Fermat), which agrees with `b⁻¹` on every element
including `0` and keeps the operation kernel-computable. -/
def zmodEuclOps (p : ℕ) [Fact (Nat.Prime p)] : EuclOps (ZMod p) where
  quotRem a b := (a * b ^ (p - 2), 0)
  quot_mul_add a b hb := by
    have h1 : b ^ (p - 2) * b = 1 := by
      rw [← pow_succ]
      have h2 : p - 2 + 1 = p - 1 :=
        have := (Fact.out : Nat.Prime p).two_le
        by omega
      rw [h2]
      exact ZMod.pow_card_sub_one_eq_one hb
    rw [mul_assoc, h1, mul_one, add_zero]

instance : Fact (Nat.Prime 5) := ⟨by norm_num⟩
instance : Fact (Nat.Prime 7) := ⟨by norm_num⟩

/-! ## Heap division: conservation quantities and invariants

The division loop is audited with the same future-sum technique as the
multiplication loop.  A quotient-heap (`next_in_divisor = true`) pair
`(qi, gi)` owes the products of quotient row `qi` with all divisor
back-rows `gi … dn-1`; once the quotient has at least `dn` terms the
divisor-heap columns owe, for each divisor back-row `gi ∈ [1, dn)`, the
products with all quotient rows from `index_of_div_monomial_in_quotient`
upward.  The master equation ties the dividend coefficients pulled so far
to the quotient/remainder terms emitted so far plus these pending sums. -/

namespace MultivariatePolynomial

/-- Total access to the exponent row `t` counted from the back. -/
def backRow (p : MultivariatePolynomial α) (t : Nat) : Row :=
  p.exponents.getD (p.nterms - 1 - t) []

/-- Total access to the coefficient `t` counted from the back. -/
def backCoeff (p : MultivariatePolynomial α) (t : Nat) : α :=
  p.coefficients.getD (p.nterms - 1 - t) 0

/-- The product of quotient row `qi` with divisor back-row `g`, collected
at the monomial `m`. -/
def qgProd (div q : MultivariatePolynomial α) (qi g : Nat) (m : Row) : α :=
  if add_exponents (q.exponents.getD qi []) (div.backRow g) = m
  then q.coefficients.getD qi 0 * div.backCoeff g else 0

/-- Pending future of a quotient-heap pair: row `qi` against divisor
back-rows `g, g+1, …, dn-1`. -/
def trueFut (div q : MultivariatePolynomial α) (qi g : Nat) (m : Row) : α :=
  (Finset.Ico g div.nterms).sum (fun g₂ => qgProd div q qi g₂ m)

/-- Future of one cache tuple: divisor-heap (`false`) tuples are
accounted by `colFut` instead. -/
def pairFut (div q : MultivariatePolynomial α) (pr : Nat × Nat × Bool) (m : Row) : α :=
  if pr.2.2 then trueFut div q pr.1 pr.2.1 m else 0

/-- All key/tuple pairs stored in the cache, flattened. -/
def allPairs (cache : DivCache) : List (Row × (Nat × Nat × Bool)) :=
  cache.flatMap (fun e => e.2.map (fun pr => (e.1, pr)))

/-- Total future owed by the cache tuples. -/
def cacheFut (div q : MultivariatePolynomial α) (cache : DivCache) (m : Row) : α :=
  ((allPairs cache).map (fun pr => pairFut div q pr.2 m)).sum

/-- Total future owed by the divisor-heap columns, active once the
quotient has reached the divisor length. -/
def colFut (div q : MultivariatePolynomial α) (iq : List Nat) (m : Row) : α :=
  if div.nterms ≤ q.nterms then
    (Finset.Ico 1 div.nterms).sum (fun g =>
      (Finset.Ico (iq.getD g 0) q.nterms).sum (fun qi => qgProd div q qi g m))
  else 0

/-- Emitted quotient terms times the divisor's leading (back-0) term. -/
def qLead (div q : MultivariatePolynomial α) (m : Row) : α :=
  (Finset.range q.nterms).sum (fun qi => qgProd div q qi 0 m)

/-- Emitted quotient terms times all non-leading divisor terms. -/
def qTail (div q : MultivariatePolynomial α) (m : Row) : α :=
  (Finset.range q.nterms).sum (fun qi =>
    (Finset.Ico 1 div.nterms).sum (fun g => qgProd div q qi g m))

/-- The dividend coefficients already pulled (read from the back). -/
def pulledA (a : MultivariatePolynomial α) (k : Nat) (m : Row) : α :=
  (Finset.range k).sum (fun t => if a.backRow t = m then a.backCoeff t else 0)

/-- Validity of a cache tuple under its key: indices in range, the key is
the recorded product monomial, and a divisor-heap tuple sits exactly at
the column read position (and only exists past the heap switch). -/
def divPairWf (div q : MultivariatePolynomial α) (iq : List Nat)
    (key : Row) (pr : Nat × Nat × Bool) : Prop :=
  pr.1 < q.nterms ∧ 1 ≤ pr.2.1 ∧ pr.2.1 < div.nterms ∧
    key = add_exponents (q.exponents.getD pr.1 []) (div.backRow pr.2.1) ∧
    (pr.2.2 = false → pr.1 = iq.getD pr.2.1 0 ∧ div.nterms ≤ q.nterms)

/-- Is this live tuple a divisor-heap tuple of column `g`? -/
def colP (g : Nat) (pr : Row × (Nat × Nat × Bool)) : Bool :=
  !pr.2.2.2 && pr.2.2.1 == g

/-- The structural invariant on the live tuples (a drained batch plus the
remaining cache), `div_monomial_in_heap` and
`index_of_div_monomial_in_quotient`. -/
structure HeapInv (div q : MultivariatePolynomial α)
    (live : List (Row × (Nat × Nat × Bool)))
    (dmh : List Bool) (iq : List Nat) : Prop where
  hdmh : dmh.length = div.nterms
  hiq : iq.length = div.nterms
  hiqle : ∀ g, iq.getD g 0 ≤ q.nterms
  hwf : ∀ pr ∈ live, divPairWf div q iq pr.1 pr.2
  hcount : ∀ g, 1 ≤ g →
    live.countP (colP g) = if dmh.getD g false then 1 else 0
  hstall : div.nterms ≤ q.nterms → ∀ g, 1 ≤ g → g < div.nterms →
    dmh.getD g false = false → iq.getD g 0 < q.nterms →
    2 ≤ g ∧ iq.getD g 0 = iq.getD (g - 1) 0
  hmono : div.nterms ≤ q.nterms → ∀ g, 2 ≤ g → g < div.nterms →
    iq.getD g 0 ≤ iq.getD (g - 1) 0
  hmode : q.nterms < div.nterms → ∀ g, iq.getD g 0 = 0 ∧ dmh.getD g false = false

/-- `B` bounds everything the loop can still process: all cache keys and
the next unread dividend monomial. -/
def frontBound (a : MultivariatePolynomial α) (s : DivState α) (B : Row) : Prop :=
  (∀ key ∈ s.cache.map Prod.fst, cmp_exponents key B = .lt) ∧
    (s.k < a.nterms → cmp_exponents (a.backRow s.k) B = .lt)

/-- The full loop invariant of `heap_division`. -/
structure DivLoopInv (a div : MultivariatePolynomial α) (s : DivState α) : Prop where
  hql : s.q.coefficients.length = s.q.exponents.length
  hqw : ∀ r ∈ s.q.exponents, r.length = a.nvars
  hqz : ∀ c ∈ s.q.coefficients, c ≠ 0
  hqdesc : s.q.exponents.Chain' (fun x y => cmp_exponents y x = .lt)
  hrl : s.r.coefficients.length = s.r.exponents.length
  hrw : ∀ x ∈ s.r.exponents, x.length = a.nvars
  hrz : ∀ c ∈ s.r.coefficients, c ≠ 0
  hrdesc : s.r.exponents.Chain' (fun x y => cmp_exponents y x = .lt)
  hqnv : s.q.nvars = a.nvars
  hrnv : s.r.nvars = a.nvars
  heap : HeapInv div s.q (allPairs s.cache) s.dmh s.iq
  hsort : (s.cache.map Prod.fst).Chain' (fun x y => cmp_exponents y x = .lt)
  hne : ∀ e ∈ s.cache, e.2 ≠ []
  hk : s.k ≤ a.nterms
  hmaster : ∀ m, pulledA a s.k m + cacheFut div s.q s.cache m +
    colFut div s.q s.iq m =
    qLead div s.q m + qTail div s.q m + s.r.coeffOf m
  hqfront : 0 < s.q.nterms → frontBound a s
    (add_exponents (s.q.exponents.getD (s.q.nterms - 1) []) (div.backRow 0))
  hrfront : 0 < s.r.nterms → frontBound a s
    (s.r.exponents.getD (s.r.nterms - 1) [])

end MultivariatePolynomial

/-! ## Order lemmas for exponent rows -/

theorem cmp_exponents_refl (a : Row) : cmp_exponents a a = .eq := by
  induction a with
  | nil => rfl
  | cons x xs ih => simp [cmp_exponents, ih]

theorem cmp_exponents_eq_iff : ∀ {a b : Row}, cmp_exponents a b = .eq ↔ a = b := by
  intro a
  induction a with
  | nil => intro b; cases b <;> simp [cmp_exponents]
  | cons x xs ih =>
    intro b
    cases b with
    | nil => simp [cmp_exponents]
    | cons y ys =>
      rcases lt_trichotomy x y with h | h | h
      · simp [cmp_exponents, h, h.ne]
      · subst h; simp [cmp_exponents, ih]
      · simp [cmp_exponents, h, Nat.lt_asymm h, h.ne']

theorem cmp_exponents_swap (a b : Row) :
    cmp_exponents b a = (cmp_exponents a b).swap := by
  induction a generalizing b with
  | nil => cases b <;> simp [cmp_exponents, Ordering.swap]
  | cons x xs ih =>
    cases b with
    | nil => simp [cmp_exponents, Ordering.swap]
    | cons y ys =>
      rcases lt_trichotomy x y with h | h | h
      · simp [cmp_exponents, h, Nat.lt_asymm h, Ordering.swap]
      · subst h; simp [cmp_exponents, ih]
      · simp [cmp_exponents, h, Nat.lt_asymm h, Ordering.swap]

theorem cmp_exponents_lt_trans :
    ∀ {a b c : Row}, cmp_exponents a b = .lt → cmp_exponents b c = .lt →
      cmp_exponents a c = .lt := by
  intro a
  induction a with
  | nil =>
    intro b c hab hbc
    cases b with
    | nil => exact hbc
    | cons y ys =>
      cases c with
      | nil => simp [cmp_exponents] at hbc
      | cons z zs => rfl
  | cons x xs ih =>
    intro b c hab hbc
    cases b with
    | nil => simp [cmp_exponents] at hab
    | cons y ys =>
      cases c with
      | nil => simp [cmp_exponents] at hbc
      | cons z zs =>
        simp only [cmp_exponents] at hab hbc ⊢
        rcases lt_trichotomy x y with h1 | h1 | h1
        · rcases lt_trichotomy y z with h2 | h2 | h2
          · simp [lt_trans h1 h2]
          · subst h2; simp [h1]
          · rw [if_neg (by omega), if_pos h2] at hbc
            exact absurd hbc (by decide)
        · subst h1
          rw [if_neg (by omega), if_neg (by omega)] at hab
          rcases lt_trichotomy x z with h2 | h2 | h2
          · simp [h2]
          · subst h2
            rw [if_neg (by omega), if_neg (by omega)] at hbc ⊢
            exact ih hab hbc
          · rw [if_neg (by omega), if_pos h2] at hbc
            exact absurd hbc (by decide)
        · rw [if_neg (by omega), if_pos h1] at hab
          exact absurd hab (by decide)

theorem cmp_exponents_trichotomy (a b : Row) :
    cmp_exponents a b = .lt ∨ a = b ∨ cmp_exponents b a = .lt := by
  rcases h : cmp_exponents a b with _ | _ | _
  · exact Or.inl rfl
  · exact Or.inr (Or.inl (cmp_exponents_eq_iff.mp h))
  · refine Or.inr (Or.inr ?_)
    rw [cmp_exponents_swap, h]
    rfl

theorem cmp_exponents_lt_irrefl (a : Row) : cmp_exponents a a ≠ .lt := by
  simp [cmp_exponents_refl]

theorem cmp_exponents_lt_ne {a b : Row} (h : cmp_exponents a b = .lt) : a ≠ b := by
  intro he; subst he; exact cmp_exponents_lt_irrefl a h

theorem add_exponents_length (a b : Row) :
    (add_exponents a b).length = min a.length b.length := by
  simp [add_exponents]

theorem add_exponents_comm (a b : Row) :
    add_exponents a b = add_exponents b a :=
  List.zipWith_comm_of_comm _ Nat.add_comm a b

theorem cmp_exponents_add_right :
    ∀ {u v w : Row}, u.length = v.length → w.length = u.length →
      cmp_exponents (add_exponents u w) (add_exponents v w) = cmp_exponents u v := by
  intro u
  induction u with
  | nil =>
    intro v w hv _
    have : v = [] := List.length_eq_zero.mp (by simpa using hv.symm)
    subst this
    simp [add_exponents, cmp_exponents]
  | cons x xs ih =>
    intro v w hv hw
    cases v with
    | nil => simp at hv
    | cons y ys =>
      cases w with
      | nil => simp at hw
      | cons z zs =>
        simp only [add_exponents, List.zipWith_cons_cons, cmp_exponents]
        by_cases hxy : x < y
        · simp [hxy, Nat.add_lt_add_right hxy z]
        · by_cases hyx : y < x
          · have h1 : ¬(x + z < y + z) := by omega
            have h2 : y + z < x + z := by omega
            simp [hxy, hyx, h1, h2]
          · have hxe : x = y := by omega
            subst hxe
            have h1 : ¬(x + z < x + z) := by omega
            simp only [h1, if_neg h1, lt_irrefl, if_neg (lt_irrefl x)]
            exact ih (by simpa using hv) (by simpa using hw)

theorem cmp_exponents_add_left {u v w : Row} (hv : u.length = v.length)
    (hw : w.length = u.length) :
    cmp_exponents (add_exponents w u) (add_exponents w v) = cmp_exponents u v := by
  rw [add_exponents_comm w u, add_exponents_comm w v]
  exact cmp_exponents_add_right hv hw

theorem dominates_cons {x y : Nat} {xs ys : Row} :
    dominates (x :: xs) (y :: ys) = (decide (y ≤ x) && dominates xs ys) := by
  simp [dominates]

theorem dominates_nil_left (g : Row) : dominates [] g = true := by
  simp [dominates]

theorem dominates_le {m g : Row} (h : dominates m g = true)
    {i : Nat} (him : i < m.length) (hig : i < g.length) :
    g[i]! ≤ m[i]! := by
  induction m generalizing g i with
  | nil => simp at him
  | cons x xs ih =>
    cases g with
    | nil => simp at hig
    | cons y ys =>
      rw [dominates_cons] at h
      simp only [Bool.and_eq_true, decide_eq_true_eq] at h
      cases i with
      | zero => simpa using h.1
      | succ j =>
        have := ih h.2 (by simpa using him) (by simpa using hig)
        simpa using this

theorem add_sub_of_dominates :
    ∀ {m g : Row}, dominates m g = true → g.length = m.length →
      add_exponents (sub_exponents m g) g = m := by
  intro m
  induction m with
  | nil =>
    intro g _ hl
    have : g = [] := List.length_eq_zero.mp (by simpa using hl)
    subst this; rfl
  | cons x xs ih =>
    intro g hd hl
    cases g with
    | nil => simp at hl
    | cons y ys =>
      rw [dominates_cons] at hd
      simp only [Bool.and_eq_true, decide_eq_true_eq] at hd
      simp only [sub_exponents, add_exponents, List.zipWith_cons_cons]
      refine List.cons_eq_cons.mpr ⟨by omega, ?_⟩
      exact ih hd.2 (by simpa using hl)

theorem sub_exponents_length (a b : Row) :
    (sub_exponents a b).length = min a.length b.length := by
  simp [sub_exponents]

theorem cmp_exponents_sub :
    ∀ {m₁ m₂ g : Row}, dominates m₁ g = true → dominates m₂ g = true →
      g.length = m₁.length → g.length = m₂.length →
      cmp_exponents (sub_exponents m₁ g) (sub_exponents m₂ g) = cmp_exponents m₁ m₂ := by
  intro m₁
  induction m₁ with
  | nil =>
    intro m₂ g _ _ h1 h2
    have hg : g = [] := List.length_eq_zero.mp (by simpa using h1)
    subst hg
    have : m₂ = [] := List.length_eq_zero.mp (by simpa using h2.symm)
    subst this; rfl
  | cons x xs ih =>
    intro m₂ g hd1 hd2 h1 h2
    cases g with
    | nil => simp at h1
    | cons z zs =>
      cases m₂ with
      | nil => simp at h2
      | cons y ys =>
        rw [dominates_cons] at hd1 hd2
        simp only [Bool.and_eq_true, decide_eq_true_eq] at hd1 hd2
        simp only [sub_exponents, List.zipWith_cons_cons, cmp_exponents]
        obtain ⟨hz1, hdt1⟩ := hd1
        obtain ⟨hz2, hdt2⟩ := hd2
        by_cases hxy : x < y
        · have : x - z < y - z := by omega
          simp [hxy, this]
        · by_cases hyx : y < x
          · have hn1 : ¬(x - z < y - z) := by omega
            have hp : y - z < x - z := by omega
            simp [hxy, hyx, hn1, hp]
          · have hxe : x = y := by omega
            subst hxe
            have hn : ¬(x - z < x - z) := by omega
            simp only [hn, if_neg hn, lt_irrefl, if_neg (lt_irrefl x)]
            exact ih hdt1 hdt2 (by simpa using h1) (by simpa using h2)

/-! ## Semantics: term sums and extensionality of canonical forms -/

theorem tCoeff_nil (m : Row) : tCoeff ([] : List (α × Row)) m = 0 := rfl

theorem tCoeff_cons (t : α × Row) (l : List (α × Row)) (m : Row) :
    tCoeff (t :: l) m = if t.2 = m then t.1 + tCoeff l m else tCoeff l m := rfl

theorem tCoeff_append (l₁ l₂ : List (α × Row)) (m : Row) :
    tCoeff (l₁ ++ l₂) m = tCoeff l₁ m + tCoeff l₂ m := by
  induction l₁ with
  | nil => simp [tCoeff_nil, tCoeff]
  | cons t l ih =>
    simp only [List.cons_append, tCoeff_cons, ih]
    by_cases h : t.2 = m <;> simp [h, add_assoc]

theorem tCoeff_reverse (l : List (α × Row)) (m : Row) :
    tCoeff l.reverse m = tCoeff l m := by
  induction l with
  | nil => rfl
  | cons t l ih =>
    rw [List.reverse_cons, tCoeff_append, tCoeff_cons, ih]
    by_cases h : t.2 = m <;> simp [h, tCoeff_cons, tCoeff_nil, add_comm]

theorem tCoeff_eq_zero {l : List (α × Row)} {m : Row}
    (h : ∀ t ∈ l, t.2 ≠ m) : tCoeff l m = 0 := by
  induction l with
  | nil => rfl
  | cons t l ih =>
    rw [tCoeff_cons, if_neg (h t (by simp))]
    exact ih (fun s hs => h s (by simp [hs]))

theorem mem_rows_of_tCoeff_ne_zero {l : List (α × Row)} {m : Row}
    (h : tCoeff l m ≠ 0) : m ∈ l.map Prod.snd := by
  by_contra hm
  exact h (tCoeff_eq_zero (fun t ht he => hm (by
    exact he ▸ List.mem_map_of_mem Prod.snd ht)))

theorem chain_lt_all {a : Row} :
    ∀ {l : List Row}, (a :: l).Chain' (fun r s => cmp_exponents r s = .lt) →
      ∀ b ∈ l, cmp_exponents a b = .lt := by
  intro l
  induction l generalizing a with
  | nil => intro _ b hb; simp at hb
  | cons c l' ih =>
    intro h b hb
    rw [List.chain'_cons] at h
    rcases List.mem_cons.mp hb with rfl | hb'
    · exact h.1
    · exact cmp_exponents_lt_trans h.1 (ih h.2 b hb')

theorem pairwise_of_chain_lt :
    ∀ {l : List Row}, l.Chain' (fun r s => cmp_exponents r s = .lt) →
      l.Pairwise (fun r s => cmp_exponents r s = .lt) := by
  intro l
  induction l with
  | nil => intro _; exact .nil
  | cons a l ih =>
    intro h
    exact List.Pairwise.cons (chain_lt_all h) (ih h.tail)

theorem head_tCoeff {c : α} {e : Row} {l : List (α × Row)}
    (hs : ((⟨c, e⟩ :: l).map Prod.snd).Pairwise (fun r s => cmp_exponents r s = .lt)) :
    tCoeff (⟨c, e⟩ :: l) e = c := by
  rw [List.map_cons] at hs
  have hz : tCoeff l e = 0 := by
    refine tCoeff_eq_zero (fun t ht he => ?_)
    have hlt := (List.pairwise_cons.mp hs).1 t.2 (List.mem_map_of_mem Prod.snd ht)
    exact (cmp_exponents_lt_ne hlt) he.symm
  rw [tCoeff_cons, if_pos rfl, hz, add_zero]

theorem terms_ext :
    ∀ {l₁ l₂ : List (α × Row)},
      (l₁.map Prod.snd).Pairwise (fun r s => cmp_exponents r s = .lt) →
      (l₂.map Prod.snd).Pairwise (fun r s => cmp_exponents r s = .lt) →
      (∀ t ∈ l₁, t.1 ≠ (0 : α)) → (∀ t ∈ l₂, t.1 ≠ (0 : α)) →
      (∀ m, tCoeff l₁ m = tCoeff l₂ m) → l₁ = l₂ := by
  intro l₁
  induction l₁ with
  | nil =>
    intro l₂ _ hs₂ _ hz₂ h
    cases l₂ with
    | nil => rfl
    | cons t r =>
      exfalso
      obtain ⟨c, e⟩ := t
      have := (h e).symm
      rw [head_tCoeff hs₂, tCoeff_nil] at this
      exact hz₂ ⟨c, e⟩ (by simp) this
  | cons t₁ r₁ ih =>
    intro l₂ hs₁ hs₂ hz₁ hz₂ h
    obtain ⟨c₁, e₁⟩ := t₁
    cases l₂ with
    | nil =>
      exfalso
      have := h e₁
      rw [head_tCoeff hs₁, tCoeff_nil] at this
      exact hz₁ ⟨c₁, e₁⟩ (by simp) this
    | cons t₂ r₂ =>
      obtain ⟨c₂, e₂⟩ := t₂
      have hp₁ := hs₁
      have hp₂ := hs₂
      rw [List.map_cons] at hp₁ hp₂
      -- the two head rows are each other's minima, hence equal
      have he : e₁ = e₂ := by
        have m₁ : e₁ ∈ (⟨c₂, e₂⟩ :: r₂).map Prod.snd := by
          refine mem_rows_of_tCoeff_ne_zero (l := ⟨c₂, e₂⟩ :: r₂) ?_
          rw [← h e₁, head_tCoeff hs₁]
          exact hz₁ ⟨c₁, e₁⟩ (by simp)
        have m₂ : e₂ ∈ (⟨c₁, e₁⟩ :: r₁).map Prod.snd := by
          refine mem_rows_of_tCoeff_ne_zero (l := ⟨c₁, e₁⟩ :: r₁) ?_
          rw [h e₂, head_tCoeff hs₂]
          exact hz₂ ⟨c₂, e₂⟩ (by simp)
        rw [List.map_cons] at m₁ m₂
        rcases List.mem_cons.mp m₁ with h1 | h1
        · exact h1
        · rcases List.mem_cons.mp m₂ with h2 | h2
          · exact h2.symm
          · exfalso
            have l₁₂ := (List.pairwise_cons.mp hp₂).1 e₁ h1
            have l₂₁ := (List.pairwise_cons.mp hp₁).1 e₂ h2
            exact cmp_exponents_lt_irrefl e₁ (cmp_exponents_lt_trans l₂₁ l₁₂)
      subst he
      have hc : c₁ = c₂ := by
        have := h e₁
        rwa [head_tCoeff hs₁, head_tCoeff hs₂] at this
      subst hc
      have hr : r₁ = r₂ := by
        refine ih (List.pairwise_cons.mp hp₁).2 (List.pairwise_cons.mp hp₂).2
          (fun t ht => hz₁ t (by simp [ht])) (fun t ht => hz₂ t (by simp [ht]))
          (fun m => ?_)
        by_cases hm : m = e₁
        · subst hm
          have z₁ : tCoeff r₁ m = 0 := by
            refine tCoeff_eq_zero (fun t ht he => ?_)
            have hlt := (List.pairwise_cons.mp hp₁).1 t.2 (List.mem_map_of_mem Prod.snd ht)
            exact (cmp_exponents_lt_ne hlt) he.symm
          have z₂ : tCoeff r₂ m = 0 := by
            refine tCoeff_eq_zero (fun t ht he => ?_)
            have hlt := (List.pairwise_cons.mp hp₂).1 t.2 (List.mem_map_of_mem Prod.snd ht)
            exact (cmp_exponents_lt_ne hlt) he.symm
          rw [z₁, z₂]
        · have := h m
          rw [tCoeff_cons, tCoeff_cons, if_neg (fun q => hm q.symm),
            if_neg (fun q => hm q.symm)] at this
          exact this
      rw [hr]

namespace MultivariatePolynomial

theorem terms_map_fst {p : MultivariatePolynomial α}
    (h : p.coefficients.length = p.exponents.length) :
    p.terms.map Prod.fst = p.coefficients :=
  List.map_fst_zip _ _ (le_of_eq h)

theorem terms_map_snd {p : MultivariatePolynomial α}
    (h : p.coefficients.length = p.exponents.length) :
    p.terms.map Prod.snd = p.exponents :=
  List.map_snd_zip _ _ (ge_of_eq h)

theorem canonical_ext {p q : MultivariatePolynomial α}
    (hp : p.canonical) (hq : q.canonical) (hn : p.nvars = q.nvars)
    (h : ∀ m, p.coeffOf m = q.coeffOf m) : p = q := by
  obtain ⟨⟨hpl, _⟩, hpz, hps⟩ := hp
  obtain ⟨⟨hql, _⟩, hqz, hqs⟩ := hq
  have ht : p.terms = q.terms := by
    refine terms_ext ?_ ?_ ?_ ?_ h
    · rw [terms_map_snd hpl]; exact pairwise_of_chain_lt hps
    · rw [terms_map_snd hql]; exact pairwise_of_chain_lt hqs
    · exact fun t htm => hpz t.1 (List.of_mem_zip htm).1
    · exact fun t htm => hqz t.1 (List.of_mem_zip htm).1
  have hc : p.coefficients = q.coefficients := by
    rw [← terms_map_fst hpl, ← terms_map_fst hql, ht]
  have he : p.exponents = q.exponents := by
    rw [← terms_map_snd hpl, ← terms_map_snd hql, ht]
  cases p; cases q
  simp_all

end MultivariatePolynomial

/-! ## Sorted insertion: canonicity and semantics -/

namespace MultivariatePolynomial

theorem insertTermAux_length :
    ∀ {cs : List α} {es : List Row} {c : α} {e : Row}, cs.length = es.length →
      (insertTermAux cs es c e).1.length = (insertTermAux cs es c e).2.length := by
  intro cs
  induction cs with
  | nil =>
    intro es c e h
    have : es = [] := List.length_eq_zero.mp (by simpa using h.symm)
    subst this; rfl
  | cons c₀ cs ih =>
    intro es c e h
    cases es with
    | nil => simp at h
    | cons e₀ es =>
      simp only [insertTermAux]
      rcases hc : cmp_exponents e e₀ with _ | _ | _
      · simpa using h
      · by_cases hz : c + c₀ = 0
        · simpa [hz] using (by simpa using h : cs.length = es.length)
        · simpa [hz] using (by simpa using h : cs.length = es.length)
      · have := ih (c := c) (e := e) (by simpa using h : cs.length = es.length)
        simpa using this

theorem insertTermAux_rows :
    ∀ {cs : List α} {es : List Row} {c : α} {e : Row},
      ∀ r ∈ (insertTermAux cs es c e).2, r ∈ es ∨ r = e := by
  intro cs
  induction cs with
  | nil => intro es c e r hr; cases es <;> simp_all [insertTermAux]
  | cons c₀ cs ih =>
    intro es c e r hr
    cases es with
    | nil => simp_all [insertTermAux]
    | cons e₀ es =>
      simp only [insertTermAux] at hr
      rcases hc : cmp_exponents e e₀ with _ | _ | _ <;> rw [hc] at hr
      · rcases List.mem_cons.mp hr with h | h
        · exact Or.inr h
        · exact Or.inl h
      · by_cases hz : c + c₀ = 0
        · simp only [if_pos hz] at hr
          exact Or.inl (List.mem_cons_of_mem e₀ hr)
        · simp only [if_neg hz] at hr
          exact Or.inl hr
      · simp only at hr
        rcases List.mem_cons.mp hr with h | h
        · exact Or.inl (by simp [h])
        · rcases ih (c := c) (e := e) r h with h' | h'
          · exact Or.inl (List.mem_cons_of_mem e₀ h')
          · exact Or.inr h'

theorem insertTermAux_coeffs :
    ∀ {cs : List α} {es : List Row} {c : α} {e : Row},
      (c ≠ 0) → (∀ x ∈ cs, x ≠ 0) →
      ∀ x ∈ (insertTermAux cs es c e).1, x ≠ 0 := by
  intro cs
  induction cs with
  | nil => intro es c e hc _ x hx; cases es <;> simp_all [insertTermAux]
  | cons c₀ cs ih =>
    intro es c e hc hz x hx
    cases es with
    | nil =>
      simp only [insertTermAux] at hx
      rcases List.mem_cons.mp hx with h | h
      · subst h; exact hc
      · simp at h
    | cons e₀ es =>
      simp only [insertTermAux] at hx
      rcases hcmp : cmp_exponents e e₀ with _ | _ | _ <;> rw [hcmp] at hx
      · rcases List.mem_cons.mp hx with h | h
        · subst h; exact hc
        · exact hz x h
      · by_cases hs : c + c₀ = 0
        · simp only [if_pos hs] at hx
          exact hz x (List.mem_cons_of_mem c₀ hx)
        · simp only [if_neg hs] at hx
          rcases List.mem_cons.mp hx with h | h
          · subst h; exact hs
          · exact hz x (List.mem_cons_of_mem c₀ h)
      · simp only at hx
        rcases List.mem_cons.mp hx with h | h
        · subst h; exact hz x (by simp)
        · exact ih hc (fun y hy => hz y (List.mem_cons_of_mem c₀ hy)) x h

theorem insertTermAux_chain :
    ∀ {cs : List α} {es : List Row} {c : α} {e : Row},
      es.Chain' (fun r s => cmp_exponents r s = .lt) →
      (insertTermAux cs es c e).2.Chain' (fun r s => cmp_exponents r s = .lt) := by
  intro cs
  induction cs with
  | nil => intro es c e _; cases es <;> simp [insertTermAux]
  | cons c₀ cs ih =>
    intro es c e hs
    cases es with
    | nil => simp [insertTermAux]
    | cons e₀ es =>
      simp only [insertTermAux]
      rcases hcmp : cmp_exponents e e₀ with _ | _ | _
      · exact List.Chain'.cons hcmp hs
      · by_cases hz : c + c₀ = 0
        · simpa [hz] using hs.tail
        · simpa [hz] using hs
      · simp only
        rw [List.chain'_cons']
        refine ⟨?_, ih (c := c) (e := e) hs.tail⟩
        intro b hb
        have hbmem := List.mem_of_mem_head? hb
        rcases @insertTermAux_rows α _ _ cs es c e b hbmem with h | h
        · exact chain_lt_all hs b h
        · subst h
          rw [cmp_exponents_swap, hcmp]
          rfl

theorem insertTermAux_tCoeff :
    ∀ {cs : List α} {es : List Row} {c : α} {e : Row} {m : Row},
      cs.length = es.length →
      tCoeff ((insertTermAux cs es c e).1.zip (insertTermAux cs es c e).2) m =
        tCoeff (cs.zip es) m + (if e = m then c else 0) := by
  intro cs
  induction cs with
  | nil =>
    intro es c e m h
    have : es = [] := List.length_eq_zero.mp (by simpa using h.symm)
    subst this
    simp only [insertTermAux, List.zip_cons_cons, List.zip_nil_left,
      tCoeff_cons, tCoeff_nil]
    by_cases hm : e = m <;> simp [hm]
  | cons c₀ cs ih =>
    intro es c e m h
    cases es with
    | nil => simp at h
    | cons e₀ es =>
      have hlen : cs.length = es.length := by simpa using h
      simp only [insertTermAux]
      rcases hcmp : cmp_exponents e e₀ with _ | _ | _
      · simp only [List.zip_cons_cons, tCoeff_cons]
        by_cases hm : e = m <;> by_cases hm₀ : e₀ = m <;>
          simp [hm, hm₀, add_comm, add_assoc, add_left_comm]
      · have he : e = e₀ := cmp_exponents_eq_iff.mp hcmp
        subst he
        by_cases hz : c + c₀ = 0
        · simp only [if_pos hz, List.zip_cons_cons, tCoeff_cons]
          by_cases hm : e = m
          · subst hm
            have : c = -c₀ := eq_neg_of_add_eq_zero_left hz
            simp [this]
          · simp [hm]
        · simp only [if_neg hz, List.zip_cons_cons, tCoeff_cons]
          by_cases hm : e = m
          · subst hm; simp [add_comm, add_assoc, add_left_comm]
          · simp [hm]
      · simp only [List.zip_cons_cons, tCoeff_cons]
        have := ih (c := c) (e := e) (m := m) hlen
        by_cases hm₀ : e₀ = m
        · simp only [if_pos hm₀, this]
          ring
        · simp only [if_neg hm₀, this]

/-- Canonicity and semantics of `insertTerm` in one statement. -/
theorem insertTerm_spec {p : MultivariatePolynomial α} {c : α} {e : Row}
    (hp : p.canonical) (hc : c ≠ 0) (he : e.length = p.nvars) :
    (insertTerm p c e).canonical ∧ (insertTerm p c e).nvars = p.nvars ∧
      (∀ m, (insertTerm p c e).coeffOf m = p.coeffOf m + (if e = m then c else 0)) := by
  obtain ⟨⟨hlen, hwidth⟩, hz, hs⟩ := hp
  refine ⟨⟨⟨insertTermAux_length hlen, ?_⟩, ?_, ?_⟩, rfl, ?_⟩
  · intro r hr
    rcases @insertTermAux_rows α _ _ p.coefficients p.exponents c e r hr with h | h
    · exact hwidth r h
    · subst h; exact he
  · exact insertTermAux_coeffs hc hz
  · exact insertTermAux_chain hs
  · intro m
    exact insertTermAux_tCoeff hlen

/-- Canonicity and semantics of `insertAll`. -/
theorem insertAll_spec {p : MultivariatePolynomial α} {L : List (α × Row)}
    (hp : p.canonical) (hw : ∀ t ∈ L, t.2.length = p.nvars) :
    (insertAll p L).canonical ∧ (insertAll p L).nvars = p.nvars ∧
      (∀ m, (insertAll p L).coeffOf m = p.coeffOf m + tCoeff L m) := by
  induction L generalizing p with
  | nil => exact ⟨hp, rfl, fun m => by simp [insertAll, tCoeff_nil]⟩
  | cons t L ih =>
    by_cases hz : t.1 = 0
    · have heq : insertAll p (t :: L) = insertAll p L := by simp [insertAll, hz]
      rw [heq]
      obtain ⟨h1, h2, h3⟩ := ih hp (fun s hsm => hw s (by simp [hsm]))
      refine ⟨h1, h2, fun m => ?_⟩
      rw [h3 m, tCoeff_cons]
      by_cases hm : t.2 = m <;> simp [hm, hz]
    · have heq : insertAll p (t :: L) = insertAll (insertTerm p t.1 t.2) L := by
        simp [insertAll, hz]
      rw [heq]
      obtain ⟨hq, hqn, hqc⟩ := insertTerm_spec hp hz (hw t (by simp))
      obtain ⟨h1, h2, h3⟩ := ih hq (fun s hsm => by rw [hqn]; exact hw s (by simp [hsm]))
      refine ⟨h1, by rw [h2, hqn], fun m => ?_⟩
      rw [h3 m, hqc m, tCoeff_cons]
      by_cases hm : t.2 = m <;> simp [hm] <;> ring

/-! ## The reference multiplier -/

theorem canonical_new (n : Nat) : (new n : MultivariatePolynomial α).canonical := by
  refine ⟨⟨rfl, ?_⟩, ?_, ?_⟩ <;> simp [new]

theorem coeffOf_new (n : Nat) (m : Row) :
    (new n : MultivariatePolynomial α).coeffOf m = 0 := rfl

/-- The flattened list of all pairwise term products of `a` and `b`. -/
theorem convCoeff_flat (a b : MultivariatePolynomial α) (m : Row) :
    convCoeff a b m =
      tCoeff (a.terms.flatMap (fun t =>
        b.terms.map (fun s => (t.1 * s.1, add_exponents t.2 s.2)))) m := by
  unfold convCoeff
  induction a.terms with
  | nil => simp [tCoeff_nil]
  | cons t l ih =>
    rw [List.foldr_cons, List.flatMap_cons, tCoeff_append, ih, add_comm]

theorem quad_mul_spec {a b : MultivariatePolynomial α}
    (ha : a.wf) (hb : b.wf) (hn : a.nvars = b.nvars) :
    (quad_mul a b).canonical ∧ (quad_mul a b).nvars = a.nvars ∧
      ∀ m, (quad_mul a b).coeffOf m = convCoeff a b m := by
  have hw : ∀ t ∈ a.terms.flatMap (fun t =>
      b.terms.map (fun s => (t.1 * s.1, add_exponents t.2 s.2))),
      t.2.length = (new a.nvars : MultivariatePolynomial α).nvars := by
    intro t ht
    rcases List.mem_flatMap.mp ht with ⟨u, hu, hmem⟩
    rcases List.mem_map.mp hmem with ⟨s, hsm, rfl⟩
    have h1 : u.2.length = a.nvars := ha.2 u.2 (List.of_mem_zip hu).2
    have h2 : s.2.length = b.nvars := hb.2 s.2 (List.of_mem_zip hsm).2
    simp only [add_exponents_length, new, h1, h2, ← hn]
    exact min_self a.nvars
  obtain ⟨h1, h2, h3⟩ := insertAll_spec (canonical_new a.nvars) hw
  refine ⟨h1, h2, fun m => ?_⟩
  show ((new a.nvars).insertAll _).coeffOf m = _
  rw [h3 m, coeffOf_new, zero_add, convCoeff_flat]

/-! ## Negation and addition -/

theorem neg_canonical {p : MultivariatePolynomial α} (hp : p.canonical) :
    p.neg.canonical := by
  obtain ⟨⟨hl, hwidth⟩, hz, hs⟩ := hp
  refine ⟨⟨by simpa [neg] using hl, by simpa [neg] using hwidth⟩, ?_, by simpa [neg] using hs⟩
  intro c hc
  rcases List.mem_map.mp hc with ⟨x, hx, rfl⟩
  simpa using hz x hx

theorem neg_nvars (p : MultivariatePolynomial α) : p.neg.nvars = p.nvars := rfl

theorem mergeTerms_spec :
    ∀ {cs₁ : List α} {es₁ : List Row} {cs₂ : List α} {es₂ : List Row},
      cs₁.length = es₁.length → cs₂.length = es₂.length →
      es₁.Chain' (fun r s => cmp_exponents r s = .lt) →
      es₂.Chain' (fun r s => cmp_exponents r s = .lt) →
      (∀ x ∈ cs₁, x ≠ (0 : α)) → (∀ x ∈ cs₂, x ≠ 0) →
      (mergeTerms cs₁ es₁ cs₂ es₂).1.length = (mergeTerms cs₁ es₁ cs₂ es₂).2.length ∧
      (∀ r ∈ (mergeTerms cs₁ es₁ cs₂ es₂).2, r ∈ es₁ ∨ r ∈ es₂) ∧
      (∀ x ∈ (mergeTerms cs₁ es₁ cs₂ es₂).1, x ≠ 0) ∧
      (mergeTerms cs₁ es₁ cs₂ es₂).2.Chain' (fun r s => cmp_exponents r s = .lt) := by
  intro cs₁ es₁ cs₂ es₂
  induction cs₁, es₁, cs₂, es₂ using mergeTerms.induct with
  | case1 cs es =>
    intro _ h2 _ hs2 _ hz2
    have hred : mergeTerms ([] : List α) [] cs es = (cs, es) := by
      simp [mergeTerms]
    rw [hred]
    exact ⟨h2, fun r hr => Or.inr hr, hz2, hs2⟩
  | case2 cs es h =>
    intro h1 _ hs1 _ hz1 _
    have hred : mergeTerms cs es ([] : List α) [] = (cs, es) := by
      cases cs <;> cases es <;> simp [mergeTerms]
    rw [hred]
    exact ⟨h1, fun r hr => Or.inl hr, hz1, hs1⟩
  | case3 c₁ cs₁ e₁ es₁ c₂ cs₂ e₂ es₂ hcmp ih =>
    -- cmp e₁ e₂ = lt
    intro h1 h2 hs1 hs2 hz1 hz2
    obtain ⟨g1, g2, g3, g4⟩ := ih (by simpa using h1) h2 hs1.tail hs2
      (fun x hx => hz1 x (by simp [hx])) hz2
    simp only [mergeTerms, hcmp]
    refine ⟨by simpa using g1, ?_, ?_, ?_⟩
    · intro r hr
      rcases List.mem_cons.mp hr with rfl | hr'
      · exact Or.inl (by simp)
      · rcases g2 r hr' with h | h
        · exact Or.inl (by simp [h])
        · exact Or.inr h
    · intro x hx
      rcases List.mem_cons.mp hx with rfl | hx'
      · exact hz1 x (by simp)
      · exact g3 x hx'
    · rw [List.chain'_cons']
      refine ⟨?_, g4⟩
      intro b hb
      rcases g2 b (List.mem_of_mem_head? hb) with h | h
      · exact chain_lt_all hs1 b h
      · rcases List.mem_cons.mp h with rfl | h'
        · exact hcmp
        · exact cmp_exponents_lt_trans hcmp (chain_lt_all hs2 b h')
  | case4 c₁ cs₁ e₁ es₁ c₂ cs₂ e₂ es₂ hcmp ih =>
    -- cmp e₁ e₂ = gt
    intro h1 h2 hs1 hs2 hz1 hz2
    obtain ⟨g1, g2, g3, g4⟩ := ih h1 (by simpa using h2) hs1 hs2.tail
      hz1 (fun x hx => hz2 x (by simp [hx]))
    simp only [mergeTerms, hcmp]
    have he₂₁ : cmp_exponents e₂ e₁ = .lt := by
      rw [cmp_exponents_swap, hcmp]; rfl
    refine ⟨by simpa using g1, ?_, ?_, ?_⟩
    · intro r hr
      rcases List.mem_cons.mp hr with rfl | hr'
      · exact Or.inr (by simp)
      · rcases g2 r hr' with h | h
        · exact Or.inl h
        · exact Or.inr (by simp [h])
    · intro x hx
      rcases List.mem_cons.mp hx with rfl | hx'
      · exact hz2 x (by simp)
      · exact g3 x hx'
    · rw [List.chain'_cons']
      refine ⟨?_, g4⟩
      intro b hb
      rcases g2 b (List.mem_of_mem_head? hb) with h | h
      · rcases List.mem_cons.mp h with rfl | h'
        · exact he₂₁
        · exact cmp_exponents_lt_trans he₂₁ (chain_lt_all hs1 b h')
      · exact chain_lt_all hs2 b h
  | case5 c₁ cs₁ e₁ es₁ c₂ cs₂ e₂ es₂ hcmp hz ih =>
    -- cmp e₁ e₂ = eq, cancellation
    intro h1 h2 hs1 hs2 hz1 hz2
    obtain ⟨g1, g2, g3, g4⟩ := ih (by simpa using h1) (by simpa using h2)
      hs1.tail hs2.tail
      (fun x hx => hz1 x (by simp [hx])) (fun x hx => hz2 x (by simp [hx]))
    simp only [mergeTerms, hcmp, if_pos hz]
    refine ⟨g1, fun r hr => ?_, g3, g4⟩
    rcases g2 r hr with h | h
    · exact Or.inl (by simp [h])
    · exact Or.inr (by simp [h])
  | case6 c₁ cs₁ e₁ es₁ c₂ cs₂ e₂ es₂ hcmp hz ih =>
    -- cmp e₁ e₂ = eq, merged coefficient non-zero
    intro h1 h2 hs1 hs2 hz1 hz2
    have he : e₁ = e₂ := cmp_exponents_eq_iff.mp hcmp
    obtain ⟨g1, g2, g3, g4⟩ := ih (by simpa using h1) (by simpa using h2)
      hs1.tail hs2.tail
      (fun x hx => hz1 x (by simp [hx])) (fun x hx => hz2 x (by simp [hx]))
    simp only [mergeTerms, hcmp, if_neg hz]
    refine ⟨by simpa using g1, ?_, ?_, ?_⟩
    · intro r hr
      rcases List.mem_cons.mp hr with rfl | hr'
      · exact Or.inl (by simp)
      · rcases g2 r hr' with h | h
        · exact Or.inl (by simp [h])
        · exact Or.inr (by simp [h])
    · intro x hx
      rcases List.mem_cons.mp hx with rfl | hx'
      · exact hz
      · exact g3 x hx'
    · rw [List.chain'_cons']
      refine ⟨?_, g4⟩
      intro b hb
      rcases g2 b (List.mem_of_mem_head? hb) with h | h
      · exact chain_lt_all hs1 b h
      · exact he ▸ chain_lt_all hs2 b h
  | case7 cs es x x₁ hne₁ hne₂ hnc =>
    intro h1 h2 _ _ _ _
    exfalso
    cases cs with
    | nil =>
      have : es = [] := List.length_eq_zero.mp (by simpa using h1.symm)
      exact hne₁ rfl this
    | cons c cs' =>
      cases es with
      | nil => simp at h1
      | cons e es' =>
        cases x with
        | nil =>
          have : x₁ = [] := List.length_eq_zero.mp (by simpa using h2.symm)
          exact hne₂ rfl this
        | cons c' xs' =>
          cases x₁ with
          | nil => simp at h2
          | cons e' es₂' => exact hnc c cs' e es' c' xs' e' es₂' rfl rfl rfl rfl

/-- Canonicity of `Add::add`. -/
theorem add_canonical {p q c : MultivariatePolynomial α}
    (hp : p.canonical) (hq : q.canonical) (h : p.add q = some c) :
    c.canonical := by
  unfold add at h
  by_cases hpz : p.is_zero = true
  · rw [if_pos hpz] at h
    exact (Option.some.injEq _ _ ▸ h :) ▸ hq
  · rw [if_neg (by simpa using hpz)] at h
    by_cases hqz : q.is_zero = true
    · rw [if_pos hqz] at h
      exact (Option.some.injEq _ _ ▸ h :) ▸ hp
    · rw [if_neg (by simpa using hqz)] at h
      by_cases hnv : p.nvars ≠ q.nvars
      · rw [if_pos hnv] at h; cases h
      · rw [if_neg hnv] at h
        obtain ⟨⟨hl₁, hw₁⟩, hz₁, hs₁⟩ := hp
        obtain ⟨⟨hl₂, hw₂⟩, hz₂, hs₂⟩ := hq
        obtain ⟨g1, g2, g3, g4⟩ := mergeTerms_spec hl₁ hl₂ hs₁ hs₂ hz₁ hz₂
        have := Option.some.injEq _ _ ▸ h
        subst this
        refine ⟨⟨g1, ?_⟩, g3, g4⟩
        intro r hr
        rcases g2 r hr with hm | hm
        · exact hw₁ r hm
        · rw [show p.nvars = q.nvars from by omega] at *
          exact hw₂ r hm

end MultivariatePolynomial

/-! ## The binary-search insertion `append_monomial` -/

theorem insertIdx_eq_take_cons_drop {β : Type} {l : List β} {n : Nat}
    (h : n ≤ l.length) (a : β) :
    l.insertIdx n a = l.take n ++ a :: l.drop n := by
  induction l generalizing n with
  | nil =>
    cases n with
    | zero => rfl
    | succ n => simp at h
  | cons x xs ih =>
    cases n with
    | zero => rfl
    | succ n => simp [ih (by simpa using h)]

theorem pairwise_middle_insert {es₁ es₂ : List Row} {e : Row}
    (hpw : (es₁ ++ es₂).Pairwise (fun r s => cmp_exponents r s = .lt))
    (hlt : ∀ r ∈ es₁, cmp_exponents r e = .lt)
    (hgt : ∀ r ∈ es₂, cmp_exponents e r = .lt) :
    (es₁ ++ e :: es₂).Pairwise (fun r s => cmp_exponents r s = .lt) := by
  rw [List.pairwise_append] at hpw
  rw [List.pairwise_append]
  refine ⟨hpw.1, List.Pairwise.cons hgt hpw.2.1, ?_⟩
  intro a ha b hb
  rcases List.mem_cons.mp hb with rfl | hb'
  · exact hlt a ha
  · exact hpw.2.2 a ha b hb'

theorem tCoeff_split {cs₁ cs₂ : List α} {es₁ es₂ : List Row}
    (h₁ : cs₁.length = es₁.length) (m : Row) :
    tCoeff ((cs₁ ++ cs₂).zip (es₁ ++ es₂)) m =
      tCoeff (cs₁.zip es₁) m + tCoeff (cs₂.zip es₂) m := by
  rw [List.zip_append h₁, tCoeff_append]

theorem tCoeff_middle {cs₁ cs₂ : List α} {es₁ es₂ : List Row} {c : α} {e : Row}
    (h₁ : cs₁.length = es₁.length) (m : Row) :
    tCoeff ((cs₁ ++ c :: cs₂).zip (es₁ ++ e :: es₂)) m =
      tCoeff (cs₁.zip es₁) m + (if e = m then c else 0) +
        tCoeff (cs₂.zip es₂) m := by
  rw [List.zip_append h₁, tCoeff_append, List.zip_cons_cons, tCoeff_cons]
  by_cases hm : e = m <;> simp [hm] <;> ring

theorem chain_all_lt_last :
    ∀ {l : List Row} {L : Row}, l.Chain' (fun r s => cmp_exponents r s = .lt) →
      l.getLast? = some L → ∀ r ∈ l, r = L ∨ cmp_exponents r L = .lt := by
  intro l
  induction l with
  | nil => intro L _ h; simp at h
  | cons a l ih =>
    intro L hc hL r hr
    cases l with
    | nil =>
      simp only [List.getLast?_singleton, Option.some.injEq] at hL
      rcases List.mem_singleton.mp hr with rfl
      exact Or.inl hL
    | cons b l' =>
      have hL' : (b :: l').getLast? = some L := by
        rw [← hL]; simp [List.getLast?_cons_cons]
      rcases List.mem_cons.mp hr with rfl | hr'
      · right
        have hmem : L ∈ b :: l' := by
          rcases List.mem_getLast?_eq_getLast (Option.mem_def.mpr hL') with ⟨hne, rfl⟩
          exact List.getLast_mem hne
        exact chain_lt_all hc L hmem
      · exact ih hc.tail hL' r hr'

namespace MultivariatePolynomial

theorem insert_at_spec {p : MultivariatePolynomial α} {c : α} {e : Row}
    (hp : p.canonical) (hc : c ≠ 0) (he : e.length = p.nvars) {k : Nat}
    (hk : k ≤ p.nterms)
    (hlo : ∀ i (hi : i < p.exponents.length), i < k →
      cmp_exponents (p.exponents.get ⟨i, hi⟩) e = .lt)
    (hhi : ∀ i (hi : i < p.exponents.length), k ≤ i →
      cmp_exponents e (p.exponents.get ⟨i, hi⟩) = .lt) :
    ({ p with coefficients := p.coefficients.insertIdx k c,
              exponents := p.exponents.insertIdx k e } :
        MultivariatePolynomial α).canonical ∧
    (∀ m, tCoeff ((p.coefficients.insertIdx k c).zip (p.exponents.insertIdx k e)) m =
      p.coeffOf m + (if e = m then c else 0)) := by
  obtain ⟨⟨hlen, hwidth⟩, hz, hs⟩ := hp
  have hke : k ≤ p.exponents.length := by unfold nterms at hk; omega
  have hkc : k ≤ p.coefficients.length := hk
  have hie : p.exponents.insertIdx k e =
      p.exponents.take k ++ e :: p.exponents.drop k :=
    insertIdx_eq_take_cons_drop hke e
  have hic : p.coefficients.insertIdx k c =
      p.coefficients.take k ++ c :: p.coefficients.drop k :=
    insertIdx_eq_take_cons_drop hkc c
  have htl : (p.coefficients.take k).length = (p.exponents.take k).length := by
    simp [hlen]
  have hlo' : ∀ r ∈ p.exponents.take k, cmp_exponents r e = .lt := by
    intro r hr
    rcases List.mem_iff_getElem.mp hr with ⟨i, hi, hri⟩
    have hik : i < k := by
      have := hi; simp only [List.length_take, lt_min_iff] at this; exact this.1
    have hil : i < p.exponents.length := by
      have := hi; simp only [List.length_take, lt_min_iff] at this; exact this.2
    have : (p.exponents.take k)[i] = p.exponents.get ⟨i, hil⟩ := by
      simp [List.getElem_take]
    rw [← hri, this]
    exact hlo i hil hik
  have hhi' : ∀ r ∈ p.exponents.drop k, cmp_exponents e r = .lt := by
    intro r hr
    rcases List.mem_iff_getElem.mp hr with ⟨j, hj, hrj⟩
    have hjl : k + j < p.exponents.length := by
      have := hj; simp only [List.length_drop] at this; omega
    have : (p.exponents.drop k)[j] = p.exponents.get ⟨k + j, hjl⟩ := by
      simp [List.getElem_drop]
    rw [← hrj, this]
    exact hhi (k + j) hjl (by omega)
  have hbase : p.exponents.Pairwise (fun r s => cmp_exponents r s = .lt) :=
    pairwise_of_chain_lt hs
  have hpw : (p.exponents.take k ++ e :: p.exponents.drop k).Pairwise
      (fun r s => cmp_exponents r s = .lt) := by
    refine pairwise_middle_insert ?_ hlo' hhi'
    rw [List.take_append_drop]
    exact hbase
  constructor
  · refine ⟨⟨?_, ?_⟩, ?_, ?_⟩
    · simp only [hie, hic]
      simp [hlen]
    · intro r hr
      rw [hie] at hr
      rcases List.mem_append.mp hr with h | h
      · exact hwidth r (List.take_subset _ _ h)
      · rcases List.mem_cons.mp h with rfl | h'
        · exact he
        · exact hwidth r (List.drop_subset _ _ h')
    · intro x hx
      rw [hic] at hx
      rcases List.mem_append.mp hx with h | h
      · exact hz x (List.take_subset _ _ h)
      · rcases List.mem_cons.mp h with rfl | h'
        · exact hc
        · exact hz x (List.drop_subset _ _ h')
    · show (p.exponents.insertIdx k e).Chain' _
      rw [hie]
      exact List.Pairwise.chain' hpw
  · intro m
    rw [hie, hic, tCoeff_middle htl]
    have hb : p.coeffOf m =
        tCoeff ((p.coefficients.take k).zip (p.exponents.take k)) m +
          tCoeff ((p.coefficients.drop k).zip (p.exponents.drop k)) m := by
      show tCoeff (p.coefficients.zip p.exponents) m = _
      conv_lhs => rw [← List.take_append_drop k p.coefficients,
        ← List.take_append_drop k p.exponents]
      exact tCoeff_split htl m
    rw [hb]
    ring

theorem merge_set_spec {p : MultivariatePolynomial α} {c : α} {e : Row}
    (hp : p.canonical) {m : Nat} (hme : m < p.exponents.length)
    (hmc : m < p.coefficients.length)
    (hrow : p.exponents.get ⟨m, hme⟩ = e)
    (hnz : p.coefficients.get ⟨m, hmc⟩ + c ≠ 0) :
    ({ p with coefficients :=
        p.coefficients.set m (p.coefficients.get ⟨m, hmc⟩ + c) } :
        MultivariatePolynomial α).canonical ∧
    (∀ mm, tCoeff ((p.coefficients.set m (p.coefficients.get ⟨m, hmc⟩ + c)).zip
        p.exponents) mm = p.coeffOf mm + (if e = mm then c else 0)) := by
  obtain ⟨⟨hlen, hwidth⟩, hz, hs⟩ := hp
  have hcsplit : p.coefficients.set m (p.coefficients.get ⟨m, hmc⟩ + c) =
      p.coefficients.take m ++ (p.coefficients.get ⟨m, hmc⟩ + c) ::
        p.coefficients.drop (m + 1) :=
    List.set_eq_take_cons_drop _ hmc
  have hrow' : p.exponents[m] = e := by simpa using hrow
  have hesplit : p.exponents =
      p.exponents.take m ++ e :: p.exponents.drop (m + 1) := by
    conv_lhs => rw [← List.take_append_drop m p.exponents,
      List.drop_eq_getElem_cons hme]
    rw [hrow']
  have hcownsplit : p.coefficients =
      p.coefficients.take m ++ p.coefficients.get ⟨m, hmc⟩ ::
        p.coefficients.drop (m + 1) := by
    conv_lhs => rw [← List.take_append_drop m p.coefficients,
      List.drop_eq_getElem_cons hmc]
    rfl
  have htl : (p.coefficients.take m).length = (p.exponents.take m).length := by
    simp [hlen]
  constructor
  · refine ⟨⟨?_, hwidth⟩, ?_, hs⟩
    · simp [hlen]
    · intro x hx
      rw [hcsplit] at hx
      rcases List.mem_append.mp hx with h | h
      · exact hz x (List.take_subset _ _ h)
      · rcases List.mem_cons.mp h with rfl | h'
        · exact hnz
        · exact hz x (List.drop_subset _ _ h')
  · intro mm
    conv_lhs => rw [hcsplit]
    conv_lhs => rw [hesplit]
    rw [tCoeff_middle htl]
    have hb : p.coeffOf mm =
        tCoeff ((p.coefficients.take m).zip (p.exponents.take m)) mm +
          (if e = mm then p.coefficients.get ⟨m, hmc⟩ else 0) +
          tCoeff ((p.coefficients.drop (m + 1)).zip (p.exponents.drop (m + 1))) mm := by
      show tCoeff (p.coefficients.zip p.exponents) mm = _
      conv_lhs => rw [hcownsplit, hesplit]
      exact tCoeff_middle htl mm
    rw [hb]
    by_cases hmm : e = mm <;> simp [hmm] <;> ring

theorem merge_erase_spec {p : MultivariatePolynomial α} {c : α} {e : Row}
    (hp : p.canonical) {m : Nat} (hme : m < p.exponents.length)
    (hmc : m < p.coefficients.length)
    (hrow : p.exponents.get ⟨m, hme⟩ = e)
    (hz0 : p.coefficients.get ⟨m, hmc⟩ + c = 0) :
    ({ p with coefficients := p.coefficients.eraseIdx m,
              exponents := p.exponents.eraseIdx m } :
        MultivariatePolynomial α).canonical ∧
    (∀ mm, tCoeff ((p.coefficients.eraseIdx m).zip (p.exponents.eraseIdx m)) mm =
      p.coeffOf mm + (if e = mm then c else 0)) := by
  obtain ⟨⟨hlen, hwidth⟩, hz, hs⟩ := hp
  have hrow' : p.exponents[m] = e := by simpa using hrow
  have hesplit : p.exponents =
      p.exponents.take m ++ e :: p.exponents.drop (m + 1) := by
    conv_lhs => rw [← List.take_append_drop m p.exponents,
      List.drop_eq_getElem_cons hme]
    rw [hrow']
  have hcownsplit : p.coefficients =
      p.coefficients.take m ++ p.coefficients.get ⟨m, hmc⟩ ::
        p.coefficients.drop (m + 1) := by
    conv_lhs => rw [← List.take_append_drop m p.coefficients,
      List.drop_eq_getElem_cons hmc]
    rfl
  have htl : (p.coefficients.take m).length = (p.exponents.take m).length := by
    simp [hlen]
  constructor
  · refine ⟨⟨?_, ?_⟩, ?_, ?_⟩
    · show (p.coefficients.eraseIdx m).length = (p.exponents.eraseIdx m).length
      rw [List.eraseIdx_eq_take_drop_succ, List.eraseIdx_eq_take_drop_succ]
      simp [hlen]
    · intro r hr
      exact hwidth r ((List.eraseIdx_sublist _ _).subset hr)
    · intro x hx
      exact hz x ((List.eraseIdx_sublist _ _).subset hx)
    · exact List.Pairwise.chain'
        ((pairwise_of_chain_lt hs).sublist (List.eraseIdx_sublist _ _))
  · intro mm
    rw [List.eraseIdx_eq_take_drop_succ, List.eraseIdx_eq_take_drop_succ,
      tCoeff_split htl]
    have hb : p.coeffOf mm =
        tCoeff ((p.coefficients.take m).zip (p.exponents.take m)) mm +
          (if e = mm then p.coefficients.get ⟨m, hmc⟩ else 0) +
          tCoeff ((p.coefficients.drop (m + 1)).zip (p.exponents.drop (m + 1))) mm := by
      show tCoeff (p.coefficients.zip p.exponents) mm = _
      conv_lhs => rw [hcownsplit, hesplit]
      exact tCoeff_middle htl mm
    rw [hb]
    have hce : p.coefficients[m] = -c := by
      simpa using eq_neg_of_add_eq_zero_left hz0
    by_cases hmm : e = mm <;> simp [hmm, hce] <;> ring

/-- Correctness of the binary-search loop of `append_monomial` under its
bracketing invariant: positions left of `l` hold smaller rows, positions
right of `r` hold larger rows. -/
theorem append_monomial_search_spec {p : MultivariatePolynomial α} {c : α} {e : Row}
    (hp : p.canonical) (hc : c ≠ 0) (he : e.length = p.nvars) :
    ∀ fuel l r, l ≤ p.nterms → r ≤ p.nterms →
      (r = p.nterms → l ≤ r → l < p.nterms) →
      r + 1 - l < fuel →
      (∀ i, ∀ hi : i < p.exponents.length, i < l →
        cmp_exponents (p.exponents.get ⟨i, hi⟩) e = .lt) →
      (∀ i, ∀ hi : i < p.exponents.length, r < i →
        cmp_exponents e (p.exponents.get ⟨i, hi⟩) = .lt) →
      (append_monomial_search c e p fuel l r).canonical ∧
      (append_monomial_search c e p fuel l r).nvars = p.nvars ∧
      (∀ m, (append_monomial_search c e p fuel l r).coeffOf m =
        p.coeffOf m + (if e = m then c else 0)) := by
  have hlen : p.coefficients.length = p.exponents.length := hp.1.1
  have hbase : p.exponents.Pairwise (fun r s => cmp_exponents r s = .lt) :=
    pairwise_of_chain_lt hp.2.2
  intro fuel
  induction fuel with
  | zero => intro l r _ _ _ hfuel _ _; omega
  | succ fuel ih =>
    intro l r hln hrn hrl hfuel hlo hhi
    by_cases hle : l ≤ r
    · have hm : (l + r) / 2 < p.exponents.length := by
        have h1 : p.exponents.length = p.nterms := by unfold nterms at *; omega
        rcases Nat.lt_or_ge r p.nterms with h | h
        · omega
        · have hr' : r = p.nterms := by omega
          have := hrl hr' hle
          omega
      have hmc : (l + r) / 2 < p.coefficients.length := by
        unfold nterms at *; omega
      have hml : l ≤ (l + r) / 2 := by omega
      have hmr : (l + r) / 2 ≤ r := by omega
      have hrow : p.exponents[(l + r) / 2]? =
          some (p.exponents.get ⟨(l + r) / 2, hm⟩) := by
        simp [List.getElem?_eq_getElem hm]
      have hcrow : p.coefficients[(l + r) / 2]? =
          some (p.coefficients.get ⟨(l + r) / 2, hmc⟩) := by
        simp [List.getElem?_eq_getElem hmc]
      have hunf : append_monomial_search c e p (fuel + 1) l r =
          (match cmp_exponents e (p.exponents.get ⟨(l + r) / 2, hm⟩) with
          | .eq =>
            let s := p.coefficients.get ⟨(l + r) / 2, hmc⟩ + c
            if s = 0 then
              { p with coefficients := p.coefficients.eraseIdx ((l + r) / 2),
                       exponents := p.exponents.eraseIdx ((l + r) / 2) }
            else
              { p with coefficients := p.coefficients.set ((l + r) / 2) s }
          | .gt =>
            if (l + r) / 2 + 1 = p.nterms then pushTerm p c e
            else append_monomial_search c e p fuel ((l + r) / 2 + 1) r
          | .lt =>
            if (l + r) / 2 = 0 then
              { p with coefficients := c :: p.coefficients,
                       exponents := e :: p.exponents }
            else append_monomial_search c e p fuel l ((l + r) / 2 - 1)) := by
        show (if l ≤ r then _ else _) = _
        rw [if_pos hle]
        simp only [hrow, Option.getD_some, hcrow]
      rw [hunf]
      rcases hcmp : cmp_exponents e (p.exponents.get ⟨(l + r) / 2, hm⟩) with _ | _ | _
      · -- less: insert at the front or recurse left
        simp only
        by_cases hm0 : (l + r) / 2 = 0
        · rw [if_pos hm0]
          have hins := insert_at_spec hp hc he (k := 0) (by omega)
            (fun i hi hik => by omega)
            (fun i hi _ => by
              rcases Nat.eq_zero_or_pos i with rfl | hipos
              · have : p.exponents.get ⟨0, hi⟩ = p.exponents.get ⟨(l + r) / 2, hm⟩ := by
                  congr 1
                  exact Fin.ext hm0.symm
                rw [this]; exact hcmp
              · refine cmp_exponents_lt_trans ?_
                  (List.pairwise_iff_get.mp hbase ⟨0, by omega⟩ ⟨i, hi⟩ hipos)
                have : p.exponents.get ⟨0, by omega⟩ = p.exponents.get ⟨(l + r) / 2, hm⟩ := by
                  congr 1
                  exact Fin.ext hm0.symm
                rw [this]; exact hcmp)
          refine ⟨?_, rfl, ?_⟩
          · have := hins.1
            simpa [List.insertIdx_zero] using this
          · intro mm
            have := hins.2 mm
            simpa [List.insertIdx_zero] using this
        · rw [if_neg hm0]
          refine ih l ((l + r) / 2 - 1) hln (by omega) (by omega) (by omega) hlo ?_
          intro i hi hir
          rcases Nat.lt_trichotomy i ((l + r) / 2) with h | h | h
          · omega
          · subst h; exact hcmp
          · exact cmp_exponents_lt_trans hcmp
              (List.pairwise_iff_get.mp hbase ⟨(l + r) / 2, hm⟩ ⟨i, hi⟩ h)
      · -- equal: merge into position m
        simp only
        have heq : e = p.exponents.get ⟨(l + r) / 2, hm⟩ := cmp_exponents_eq_iff.mp hcmp
        by_cases hz0 : p.coefficients.get ⟨(l + r) / 2, hmc⟩ + c = 0
        · rw [if_pos hz0]
          have hme := merge_erase_spec hp hm hmc heq.symm hz0
          exact ⟨hme.1, rfl, fun mm => hme.2 mm⟩
        · rw [if_neg hz0]
          have hms := merge_set_spec hp hm hmc heq.symm hz0
          exact ⟨hms.1, rfl, fun mm => hms.2 mm⟩
      · -- greater: push to the back or recurse right
        simp only
        have hgt : cmp_exponents (p.exponents.get ⟨(l + r) / 2, hm⟩) e = .lt := by
          rw [cmp_exponents_swap, hcmp]; rfl
        by_cases hmn : (l + r) / 2 + 1 = p.nterms
        · rw [if_pos hmn]
          have hins := insert_at_spec hp hc he (k := p.nterms) (le_refl _)
            (fun i hi _ => by
              rcases Nat.lt_trichotomy i ((l + r) / 2) with h | h | h
              · exact cmp_exponents_lt_trans
                  (List.pairwise_iff_get.mp hbase ⟨i, hi⟩ ⟨(l + r) / 2, hm⟩ h) hgt
              · subst h; exact hgt
              · have h1 : p.exponents.length = p.nterms := by unfold nterms at *; omega
                omega)
            (fun i hi hik => by
              have h1 : p.exponents.length = p.nterms := by unfold nterms at *; omega
              omega)
          have hpc : pushTerm p c e =
              { p with coefficients := p.coefficients.insertIdx p.nterms c,
                       exponents := p.exponents.insertIdx p.nterms e } := by
            show pushTerm p c e = _
            unfold pushTerm
            have h1 : p.coefficients.insertIdx p.nterms c = p.coefficients ++ [c] := by
              have : p.nterms = p.coefficients.length := rfl
              rw [this, List.insertIdx_length_self]
            have h2 : p.exponents.insertIdx p.nterms e = p.exponents ++ [e] := by
              have : p.nterms = p.exponents.length := by unfold nterms; omega
              rw [this, List.insertIdx_length_self]
            rw [h1, h2]
          rw [hpc]
          exact ⟨hins.1, rfl, fun mm => hins.2 mm⟩
        · rw [if_neg hmn]
          refine ih ((l + r) / 2 + 1) r (by
              have h1 : p.exponents.length = p.nterms := by unfold nterms at *; omega
              omega)
            hrn (by
              intro hr' _
              have h1 : p.exponents.length = p.nterms := by unfold nterms at *; omega
              omega)
            (by omega) ?_ hhi
          intro i hi hil
          rcases Nat.lt_trichotomy i ((l + r) / 2) with h | h | h
          · exact cmp_exponents_lt_trans
              (List.pairwise_iff_get.mp hbase ⟨i, hi⟩ ⟨(l + r) / 2, hm⟩ h) hgt
          · subst h; exact hgt
          · omega
    · -- l > r: insert at position l
      have hunf : append_monomial_search c e p (fuel + 1) l r =
          { p with coefficients := p.coefficients.insertIdx l c,
                   exponents := p.exponents.insertIdx l e } := by
        show (if l ≤ r then _ else _) = _
        rw [if_neg hle]
      rw [hunf]
      have hins := insert_at_spec hp hc he (k := l) hln hlo
        (fun i hi hik => hhi i hi (by omega))
      exact ⟨hins.1, rfl, fun mm => hins.2 mm⟩

/-- Canonicity and semantics of `append_monomial` (polynomial.rs:346). -/
theorem append_monomial_spec {p q : MultivariatePolynomial α} {c : α} {e : Row}
    (hp : p.canonical) (h : p.append_monomial c e = some q) :
    q.canonical ∧ q.nvars = p.nvars ∧
      (∀ m, q.coeffOf m = p.coeffOf m + (if e = m then c else 0)) := by
  unfold append_monomial at h
  by_cases hc : c = 0
  · rw [if_pos hc] at h
    obtain rfl : p = q := by simpa using h
    exact ⟨hp, rfl, fun m => by by_cases hm : e = m <;> simp [hm, hc]⟩
  · rw [if_neg hc] at h
    by_cases hnv : p.nvars ≠ e.length
    · rw [if_pos hnv] at h; cases h
    · rw [if_neg hnv] at h
      have he : e.length = p.nvars := by omega
      have hlen : p.coefficients.length = p.exponents.length := hp.1.1
      have hbase : p.exponents.Pairwise (fun r s => cmp_exponents r s = .lt) :=
        pairwise_of_chain_lt hp.2.2
      by_cases hback : p.nterms = 0 ∨
          cmp_exponents ((p.exponents.getLast?).getD []) e = .lt
      · rw [if_pos hback] at h
        obtain rfl : pushTerm p c e = q := by simpa using h
        have hlt : ∀ i, ∀ hi : i < p.exponents.length, i < p.nterms →
            cmp_exponents (p.exponents.get ⟨i, hi⟩) e = .lt := by
          intro i hi _
          rcases hback with h0 | hlast
          · exfalso
            have : p.exponents.length = 0 := by unfold nterms at h0; omega
            omega
          · have hne : p.exponents ≠ [] := by
              intro hnil
              rw [hnil] at hi; simp at hi
            have hsome : p.exponents.getLast? =
                some (p.exponents.getLast hne) :=
              List.getLast?_eq_getLast_of_ne_nil hne
            rw [hsome] at hlast
            simp only [Option.getD_some] at hlast
            rcases chain_all_lt_last hp.2.2 hsome (p.exponents.get ⟨i, hi⟩)
              (List.get_mem _ _ hi) with heq | hlt'
            · rw [heq]; exact hlast
            · exact cmp_exponents_lt_trans hlt' hlast
        have hins := insert_at_spec hp hc he (k := p.nterms) (le_refl _)
          (fun i hi _ => hlt i hi (by unfold nterms at *; omega))
          (fun i hi hik => by
            have : p.exponents.length = p.nterms := by unfold nterms at *; omega
            omega)
        have hpc : pushTerm p c e =
            { p with coefficients := p.coefficients.insertIdx p.nterms c,
                     exponents := p.exponents.insertIdx p.nterms e } := by
          unfold pushTerm
          have h1 : p.coefficients.insertIdx p.nterms c = p.coefficients ++ [c] := by
            have : p.nterms = p.coefficients.length := rfl
            rw [this, List.insertIdx_length_self]
          have h2 : p.exponents.insertIdx p.nterms e = p.exponents ++ [e] := by
            have : p.nterms = p.exponents.length := by unfold nterms; omega
            rw [this, List.insertIdx_length_self]
          rw [h1, h2]
        rw [hpc]
        exact ⟨hins.1, rfl, fun mm => hins.2 mm⟩
      · rw [if_neg hback] at h
        obtain rfl : append_monomial_search c e p (p.nterms + 2) 0 p.nterms = q := by
          simpa using h
        push_neg at hback
        exact append_monomial_search_spec hp hc he (p.nterms + 2) 0 p.nterms
          (by omega) (le_refl _) (fun _ _ => by omega) (by omega)
          (fun i hi hik => by omega)
          (fun i hi hik => by
            have : p.exponents.length = p.nterms := by unfold nterms at *; omega
            omega)

/-! ## Heap multiplication: state lemmas -/

theorem foldr_add_init {β : Type} (g : β → α) (l : List β) (z : α) :
    l.foldr (fun x acc => acc + g x) z = z + l.foldr (fun x acc => acc + g x) 0 := by
  induction l with
  | nil => simp
  | cons x l ih => simp only [List.foldr_cons, ih]; ring

theorem pushTerm_coeffOf {p : MultivariatePolynomial α}
    (hlen : p.coefficients.length = p.exponents.length) (c : α) (e m : Row) :
    (p.pushTerm c e).coeffOf m = p.coeffOf m + (if e = m then c else 0) := by
  show tCoeff ((p.coefficients ++ [c]).zip (p.exponents ++ [e])) m = _
  rw [List.zip_append hlen, tCoeff_append]
  show _ + tCoeff [(c, e)] m = _
  rw [tCoeff_cons, tCoeff_nil]
  by_cases hm : e = m <;> simp [hm] <;> rfl

theorem pushTerm_canonical {p : MultivariatePolynomial α} {c : α} {e : Row}
    (hp : p.canonical) (hc : c ≠ 0) (he : e.length = p.nvars)
    (hgt : ∀ r ∈ p.exponents, cmp_exponents r e = .lt) :
    (p.pushTerm c e).canonical := by
  obtain ⟨⟨hlen, hwidth⟩, hz, hs⟩ := hp
  refine ⟨⟨by simp [pushTerm, hlen], ?_⟩, ?_, ?_⟩
  · intro r hr
    rcases List.mem_append.mp hr with h | h
    · exact hwidth r h
    · rcases List.mem_singleton.mp h with rfl
      exact he
  · intro x hx
    rcases List.mem_append.mp hx with h | h
    · exact hz x h
    · rcases List.mem_singleton.mp h with rfl
      exact hc
  · show (p.exponents ++ e :: []).Chain' _
    refine List.Pairwise.chain' (pairwise_middle_insert ?_ hgt (by simp))
    rw [List.append_nil]
    exact pairwise_of_chain_lt hs

theorem insertPair_keys :
    ∀ (st : MulState) (k : Row) (pr : Nat × Nat),
      ∀ key ∈ (insertPair st k pr).map Prod.fst, key ∈ st.map Prod.fst ∨ key = k := by
  intro st k pr
  induction st with
  | nil =>
    intro key h
    simp only [insertPair, List.map_cons, List.map_nil] at h
    rcases List.mem_singleton.mp h with rfl
    exact Or.inr rfl
  | cons e rest ih =>
    intro key h
    obtain ⟨k₀, l₀⟩ := e
    simp only [insertPair] at h
    rcases hcmp : cmp_exponents k k₀ with _ | _ | _ <;> rw [hcmp] at h <;>
      simp only [List.map_cons] at h
    · rcases List.mem_cons.mp h with rfl | h'
      · exact Or.inr rfl
      · rw [List.map_cons]
        exact Or.inl h'
    · rw [List.map_cons]
      exact Or.inl h
    · rcases List.mem_cons.mp h with rfl | h'
      · rw [List.map_cons]
        exact Or.inl (List.mem_cons_self _ _)
      · rcases ih key h' with h'' | h''
        · rw [List.map_cons]
          exact Or.inl (List.mem_cons_of_mem _ h'')
        · exact Or.inr h''

theorem insertPair_sorted :
    ∀ {st : MulState} {k : Row} {pr : Nat × Nat},
      (st.map Prod.fst).Chain' (fun r s => cmp_exponents r s = .lt) →
      ((insertPair st k pr).map Prod.fst).Chain' (fun r s => cmp_exponents r s = .lt) := by
  intro st
  induction st with
  | nil => intro k pr _; simp [insertPair]
  | cons e rest ih =>
    intro k pr hs
    obtain ⟨k₀, l₀⟩ := e
    rw [List.map_cons] at hs
    simp only [insertPair]
    rcases hcmp : cmp_exponents k k₀ with _ | _ | _
    · simp only [List.map_cons]
      exact List.Chain'.cons hcmp hs
    · simp only [List.map_cons]
      exact hs
    · simp only [List.map_cons]
      rw [List.chain'_cons']
      refine ⟨?_, ih hs.tail⟩
      intro key hkey
      have hmem := List.mem_of_mem_head? hkey
      rcases insertPair_keys rest k pr key hmem with h | h
      · exact chain_lt_all hs key h
      · subst h
        rw [cmp_exponents_swap, hcmp]
        rfl

theorem insertPair_entries :
    ∀ {st : MulState} {k : Row} {pr : Nat × Nat},
      (∀ entry ∈ st, entry.2 ≠ []) →
      ∀ entry ∈ insertPair st k pr, entry.2 ≠ [] := by
  intro st
  induction st with
  | nil =>
    intro k pr _ entry h
    simp only [insertPair] at h
    rcases List.mem_singleton.mp h with rfl
    simp
  | cons e rest ih =>
    intro k pr hne entry h
    obtain ⟨k₀, l₀⟩ := e
    simp only [insertPair] at h
    rcases hcmp : cmp_exponents k k₀ with _ | _ | _ <;> rw [hcmp] at h
    · rcases List.mem_cons.mp h with rfl | h'
      · simp
      · exact hne entry h'
    · rcases List.mem_cons.mp h with rfl | h'
      · simp
      · exact hne entry (List.mem_cons_of_mem _ h')
    · rcases List.mem_cons.mp h with rfl | h'
      · exact hne _ (List.mem_cons_self _ _)
      · exact ih (fun x hx => hne x (List.mem_cons_of_mem _ hx)) entry h'

theorem insertPair_pairs :
    ∀ {st : MulState} {k : Row} {pr : Nat × Nat},
      ∀ entry ∈ insertPair st k pr, ∀ q ∈ entry.2,
        (∃ e₀ ∈ st, e₀.1 = entry.1 ∧ q ∈ e₀.2) ∨ (entry.1 = k ∧ q = pr) := by
  intro st
  induction st with
  | nil =>
    intro k pr entry h q hq
    simp only [insertPair] at h
    rcases List.mem_singleton.mp h with rfl
    exact Or.inr ⟨rfl, by simpa using hq⟩
  | cons e rest ih =>
    intro k pr entry h q hq
    obtain ⟨k₀, l₀⟩ := e
    simp only [insertPair] at h
    rcases hcmp : cmp_exponents k k₀ with _ | _ | _ <;> rw [hcmp] at h
    · rcases List.mem_cons.mp h with rfl | h'
      · exact Or.inr ⟨rfl, by simpa using hq⟩
      · exact Or.inl ⟨entry, h', rfl, hq⟩
    · rcases List.mem_cons.mp h with rfl | h'
      · rcases List.mem_append.mp hq with h'' | h''
        · exact Or.inl ⟨(k₀, l₀), List.mem_cons_self _ _, rfl, h''⟩
        · rcases List.mem_singleton.mp h'' with rfl
          exact Or.inr ⟨(cmp_exponents_eq_iff.mp hcmp).symm, rfl⟩
      · exact Or.inl ⟨entry, List.mem_cons_of_mem _ h', rfl, hq⟩
    · rcases List.mem_cons.mp h with rfl | h'
      · exact Or.inl ⟨(k₀, l₀), List.mem_cons_self _ _, rfl, hq⟩
      · rcases ih entry h' q hq with ⟨e₀, he₀, hke, hqe⟩ | h''
        · exact Or.inl ⟨e₀, List.mem_cons_of_mem _ he₀, hke, hqe⟩
        · exact Or.inr h''

theorem stateFuture_insertPair (a b : MultivariatePolynomial α)
    (st : MulState) (k : Row) (pr : Nat × Nat) (m : Row) :
    stateFuture a b (insertPair st k pr) m =
      stateFuture a b st m + pairFuture a b pr m := by
  induction st with
  | nil => simp [insertPair, stateFuture]
  | cons e rest ih =>
    obtain ⟨k₀, l₀⟩ := e
    simp only [insertPair]
    rcases hcmp : cmp_exponents k k₀ with _ | _ | _
    · simp only [stateFuture, List.foldr_cons, List.foldr_nil]
      ring
    · simp only [stateFuture, List.foldr_cons, List.foldr_append, List.foldr_nil]
      rw [foldr_add_init (fun ij => pairFuture a b ij m) l₀ (0 + pairFuture a b pr m)]
      ring
    · simp only [stateFuture, List.foldr_cons]
      have := ih
      simp only [stateFuture] at this
      rw [this]
      ring

theorem mulStateWf_insertPair {a b : MultivariatePolynomial α}
    {st : MulState} {k : Row} {pr : Nat × Nat}
    (h : mulStateWf a b st) (hpr : pairWf a b k pr) :
    mulStateWf a b (insertPair st k pr) := by
  refine ⟨insertPair_sorted h.1, insertPair_entries h.2.1, ?_⟩
  intro entry he ij hij
  rcases insertPair_pairs entry he ij hij with ⟨e₀, he₀, hke, hqe⟩ | ⟨hk, hq⟩
  · rw [← hke]
    exact h.2.2 e₀ he₀ ij hqe
  · rw [hk, hq]
    exact hpr

theorem terms_getD {p : MultivariatePolynomial α}
    (hlen : p.coefficients.length = p.exponents.length)
    {i : Nat} (hi : i < p.nterms) :
    p.terms.getD i (0, []) = (p.coefficients.getD i 0, p.exponents.getD i []) := by
  have hiz : i < p.terms.length := by
    unfold terms nterms at *
    simp only [List.length_zip]
    omega
  have h1 : i < p.coefficients.length := hi
  have h2 : i < p.exponents.length := by unfold nterms at hi; omega
  rw [List.getD_eq_getElem?_getD, List.getElem?_eq_getElem hiz,
    List.getD_eq_getElem?_getD, List.getElem?_eq_getElem h1,
    List.getD_eq_getElem?_getD, List.getElem?_eq_getElem h2]
  simp [terms]

theorem terms_length {p : MultivariatePolynomial α}
    (hlen : p.coefficients.length = p.exponents.length) :
    p.terms.length = p.nterms := by
  unfold terms nterms
  simp only [List.length_zip]
  omega

theorem tailProd_nil_left (bts : List (α × Row)) : tailProd ([] : List (α × Row)) bts = [] := rfl

theorem pairFuture_unfold {a b : MultivariatePolynomial α}
    (halen : a.coefficients.length = a.exponents.length)
    (hblen : b.coefficients.length = b.exponents.length)
    {i j : Nat} (hi : i < a.nterms) (hj : j < b.nterms) (m : Row) :
    pairFuture a b (i, j) m =
      (if add_exponents (a.exponents.getD i []) (b.exponents.getD j []) = m
        then a.coefficients.getD i 0 * b.coefficients.getD j 0 else 0) +
      (if j + 1 < b.nterms then pairFuture a b (i, j + 1) m else 0) +
      (if j = 0 ∧ i + 1 < a.nterms then pairFuture a b (i + 1, 0) m else 0) := by
  have hjt : j < b.terms.length := by rw [terms_length hblen]; exact hj
  have hdropj : b.terms.drop j = b.terms.getD j (0, []) :: b.terms.drop (j + 1) := by
    rw [List.drop_eq_getElem_cons hjt]
    congr 1
    rw [List.getD_eq_getElem?_getD, List.getElem?_eq_getElem hjt]
    rfl
  have hbj : b.terms.getD j (0, []) = (b.coefficients.getD j 0, b.exponents.getD j []) :=
    terms_getD hblen hj
  have hai : a.terms.getD i (0, []) = (a.coefficients.getD i 0, a.exponents.getD i []) :=
    terms_getD halen hi
  have hrow : tCoeff (rowProdList (a.terms.getD i (0, [])) (b.terms.drop j)) m =
      (if add_exponents (a.exponents.getD i []) (b.exponents.getD j []) = m
        then a.coefficients.getD i 0 * b.coefficients.getD j 0 else 0) +
      tCoeff (rowProdList (a.terms.getD i (0, [])) (b.terms.drop (j + 1))) m := by
    rw [hdropj, hai, hbj]
    by_cases hm : add_exponents (a.exponents.getD i []) (b.exponents.getD j []) = m
    · show (if add_exponents (a.exponents.getD i []) (b.exponents.getD j []) = m
          then a.coefficients.getD i 0 * b.coefficients.getD j 0 +
            tCoeff (rowProdList (a.coefficients.getD i 0, a.exponents.getD i [])
              (b.terms.drop (j + 1))) m
          else tCoeff (rowProdList (a.coefficients.getD i 0, a.exponents.getD i [])
            (b.terms.drop (j + 1))) m) = _
      rw [if_pos hm, if_pos hm]
    · show (if add_exponents (a.exponents.getD i []) (b.exponents.getD j []) = m
          then a.coefficients.getD i 0 * b.coefficients.getD j 0 +
            tCoeff (rowProdList (a.coefficients.getD i 0, a.exponents.getD i [])
              (b.terms.drop (j + 1))) m
          else tCoeff (rowProdList (a.coefficients.getD i 0, a.exponents.getD i [])
            (b.terms.drop (j + 1))) m) = _
      rw [if_neg hm, if_neg hm]
      exact (zero_add _).symm
  have hdropempty : ¬(j + 1 < b.nterms) → b.terms.drop (j + 1) = [] := by
    intro h
    apply List.drop_eq_nil_of_le
    rw [terms_length hblen]
    omega
  have hB : (if j + 1 < b.nterms then pairFuture a b (i, j + 1) m else 0) =
      tCoeff (rowProdList (a.terms.getD i (0, [])) (b.terms.drop (j + 1))) m := by
    by_cases hj1 : j + 1 < b.nterms
    · rw [if_pos hj1]
      unfold pairFuture
      simp only
      rw [if_neg (by omega)]
      ring
    · rw [if_neg hj1, hdropempty hj1]
      simp [rowProdList, tCoeff_nil]
  have hC : (if j = 0 ∧ i + 1 < a.nterms then pairFuture a b (i + 1, 0) m else 0) =
      (if j = 0 then tCoeff (tailProd (a.terms.drop (i + 1)) b.terms) m else 0) := by
    by_cases hj0 : j = 0
    · subst hj0
      rw [if_pos rfl]
      by_cases hi1 : i + 1 < a.nterms
      · rw [if_pos (by exact ⟨rfl, hi1⟩)]
        have hit : i + 1 < a.terms.length := by rw [terms_length halen]; exact hi1
        have hdropi : a.terms.drop (i + 1) =
            a.terms.getD (i + 1) (0, []) :: a.terms.drop (i + 2) := by
          rw [List.drop_eq_getElem_cons hit]
          congr 1
          rw [List.getD_eq_getElem?_getD, List.getElem?_eq_getElem hit]
          rfl
        rw [hdropi]
        show pairFuture a b (i + 1, 0) m = tCoeff (tailProd (_ :: _) b.terms) m
        unfold pairFuture tailProd
        simp only [List.flatMap_cons, tCoeff_append, List.drop_zero, if_pos rfl, if_true]
      · rw [if_neg (by tauto)]
        have : a.terms.drop (i + 1) = [] := by
          apply List.drop_eq_nil_of_le
          rw [terms_length halen]
          omega
        simp [this, tailProd, tCoeff_nil]
    · rw [if_neg (by tauto), if_neg hj0]
  rw [hB, hC]
  unfold pairFuture
  simp only
  rw [hrow]

end MultivariatePolynomial

theorem getElem?_eq_some_getD {β : Type} {l : List β} {n : Nat} (d : β)
    (h : n < l.length) : l[n]? = some (l.getD n d) := by
  rw [List.getElem?_eq_getElem h, List.getD_eq_getElem?_getD, List.getElem?_eq_getElem h]
  rfl

theorem getD_mem {β : Type} {l : List β} {n : Nat} (d : β) (h : n < l.length) :
    l.getD n d ∈ l := by
  rw [List.getD_eq_getElem?_getD, List.getElem?_eq_getElem h]
  exact List.getElem_mem h

theorem chain_getD_lt {l : List Row}
    (h : l.Chain' (fun r s => cmp_exponents r s = .lt))
    {i j : Nat} (hij : i < j) (hj : j < l.length) :
    cmp_exponents (l.getD i []) (l.getD j []) = .lt := by
  have hp := pairwise_of_chain_lt h
  rw [List.pairwise_iff_get] at hp
  have hi : i < l.length := lt_trans hij hj
  have hg := hp ⟨i, hi⟩ ⟨j, hj⟩ hij
  rw [List.getD_eq_getElem?_getD, List.getElem?_eq_getElem hi,
    List.getD_eq_getElem?_getD, List.getElem?_eq_getElem hj]
  simpa using hg

theorem rowLt_le_trans {x y z : Row} (hxy : cmp_exponents x y = .lt)
    (hyz : rowLe y z) : cmp_exponents x z = .lt := by
  unfold rowLe at hyz
  rcases h : cmp_exponents y z with _ | _ | _
  · exact cmp_exponents_lt_trans hxy h
  · rw [← cmp_exponents_eq_iff.mp h]
    exact hxy
  · exact absurd h hyz

namespace MultivariatePolynomial

theorem wf_keys_mem_mulKeySet {a b : MultivariatePolynomial α} {st : MulState}
    (h : mulStateWf a b st) :
    ∀ key ∈ st.map Prod.fst, key ∈ mulKeySet a b := by
  intro key hkey
  rcases List.mem_map.mp hkey with ⟨entry, hmem, rfl⟩
  obtain ⟨_, hne, hpw⟩ := h
  cases hl : entry.2 with
  | nil => exact absurd hl (hne entry hmem)
  | cons pr rest =>
    obtain ⟨hi, hj, hkeq⟩ := hpw entry hmem pr (by rw [hl]; exact List.mem_cons_self _ _)
    rw [← hkeq]
    unfold mulKeySet
    refine Finset.mem_image.mpr ⟨pr, ?_, rfl⟩
    rw [Finset.mem_product]
    exact ⟨Finset.mem_range.mpr hi, Finset.mem_range.mpr hj⟩

theorem heap_mul_drain_spec {a b : MultivariatePolynomial α}
    (halen : a.coefficients.length = a.exponents.length)
    (hblen : b.coefficients.length = b.exponents.length)
    (hachain : a.exponents.Chain' (fun r s => cmp_exponents r s = .lt))
    (hbchain : b.exponents.Chain' (fun r s => cmp_exponents r s = .lt))
    (hawidth : ∀ r ∈ a.exponents, r.length = a.nvars)
    (hbwidth : ∀ r ∈ b.exponents, r.length = b.nvars)
    (hnv : a.nvars = b.nvars) (m₀ : Row) :
    ∀ (prs : List (Nat × Nat)) (st : MulState) (coeff : α),
      (∀ pr ∈ prs, pairWf a b m₀ pr) →
      ∃ out, heap_mul_drain a b prs st coeff = some out ∧
        (∀ m, (if m₀ = m then out.1 else 0) + stateFuture a b out.2 m =
          (if m₀ = m then coeff else 0) + stateFuture a b st m +
            prs.foldr (fun ij acc => acc + pairFuture a b ij m) 0) ∧
        (mulStateWf a b st → mulStateWf a b out.2) ∧
        (∀ key ∈ out.2.map Prod.fst,
          key ∈ st.map Prod.fst ∨ cmp_exponents m₀ key = .lt) := by
  intro prs
  induction prs with
  | nil =>
    intro st coeff _
    exact ⟨(coeff, st), rfl, fun m => by simp, fun h => h, fun key hk => Or.inl hk⟩
  | cons pr prs ih =>
    intro st coeff hw
    obtain ⟨i, j⟩ := pr
    obtain ⟨hi, hj, hkey⟩ := hw (i, j) (List.mem_cons_self _ _)
    have hie : i < a.exponents.length := by rw [← halen]; exact hi
    have hje : j < b.exponents.length := by rw [← hblen]; exact hj
    have hgi : a.coefficients[i]? = some (a.coefficients.getD i 0) :=
      getElem?_eq_some_getD 0 hi
    have hgj : b.coefficients[j]? = some (b.coefficients.getD j 0) :=
      getElem?_eq_some_getD 0 hj
    have hwa_i : (a.exponents.getD i []).length = a.nvars :=
      hawidth _ (getD_mem [] hie)
    have hwb_j : (b.exponents.getD j []).length = b.nvars :=
      hbwidth _ (getD_mem [] hje)
    have hstate : ∃ st₂ : MulState,
        heap_mul_drain a b ((i, j) :: prs) st coeff =
          heap_mul_drain a b prs st₂
            (coeff + a.coefficients.getD i 0 * b.coefficients.getD j 0) ∧
        (∀ m, stateFuture a b st₂ m = stateFuture a b st m +
          ((if j + 1 < b.nterms then pairFuture a b (i, j + 1) m else 0) +
            (if j = 0 ∧ i + 1 < a.nterms then pairFuture a b (i + 1, 0) m else 0))) ∧
        (mulStateWf a b st → mulStateWf a b st₂) ∧
        (∀ key ∈ st₂.map Prod.fst,
          key ∈ st.map Prod.fst ∨ cmp_exponents m₀ key = .lt) := by
      by_cases h1 : j + 1 < b.nterms
      · have hje1 : j + 1 < b.exponents.length := by rw [← hblen]; exact h1
        have hgei : a.exponents[i]? = some (a.exponents.getD i []) :=
          getElem?_eq_some_getD [] hie
        have hgej1 : b.exponents[j + 1]? = some (b.exponents.getD (j + 1) []) :=
          getElem?_eq_some_getD [] hje1
        have hwb_j1 : (b.exponents.getD (j + 1) []).length = b.nvars :=
          hbwidth _ (getD_mem [] hje1)
        have hlt₁ : cmp_exponents m₀
            (add_exponents (a.exponents.getD i []) (b.exponents.getD (j + 1) [])) = .lt := by
          rw [← hkey,
            cmp_exponents_add_left (by rw [hwb_j, hwb_j1]) (by rw [hwa_i, hwb_j]; exact hnv)]
          exact chain_getD_lt hbchain (Nat.lt_succ_self j) hje1
        have hpw₁ : pairWf a b
            (add_exponents (a.exponents.getD i []) (b.exponents.getD (j + 1) []))
            (i, j + 1) := ⟨hi, h1, rfl⟩
        by_cases h2 : j = 0 ∧ i + 1 < a.nterms
        · obtain ⟨hj0, hi1⟩ := h2
          subst hj0
          have hie1 : i + 1 < a.exponents.length := by rw [← halen]; exact hi1
          have hgei1 : a.exponents[i + 1]? = some (a.exponents.getD (i + 1) []) :=
            getElem?_eq_some_getD [] hie1
          have hgej : b.exponents[0]? = some (b.exponents.getD 0 []) :=
            getElem?_eq_some_getD [] hje
          have hwa_i1 : (a.exponents.getD (i + 1) []).length = a.nvars :=
            hawidth _ (getD_mem [] hie1)
          have hlt₂ : cmp_exponents m₀
              (add_exponents (a.exponents.getD (i + 1) []) (b.exponents.getD 0 [])) = .lt := by
            rw [← hkey,
              cmp_exponents_add_right (by rw [hwa_i, hwa_i1]) (by rw [hwb_j, hwa_i]; exact hnv.symm)]
            exact chain_getD_lt hachain (Nat.lt_succ_self i) hie1
          have hpw₂ : pairWf a b
              (add_exponents (a.exponents.getD (i + 1) []) (b.exponents.getD 0 []))
              (i + 1, 0) := ⟨hi1, hj, rfl⟩
          refine ⟨insertPair
              (insertPair st
                (add_exponents (a.exponents.getD i []) (b.exponents.getD (0 + 1) []))
                (i, 0 + 1))
              (add_exponents (a.exponents.getD (i + 1) []) (b.exponents.getD 0 []))
              (i + 1, 0), ?_, ?_, ?_, ?_⟩
          · simp only [heap_mul_drain, hgi, hgj, hgei, hgej1, hgei1, hgej,
              Option.bind_eq_bind, Option.some_bind, Option.pure_def,
              if_pos h1, hi1, eq_self_iff_true, true_and, and_self, if_true]
          · intro m
            rw [stateFuture_insertPair, stateFuture_insertPair,
              if_pos h1, if_pos (⟨rfl, hi1⟩ : (0 : Nat) = 0 ∧ i + 1 < a.nterms)]
            ring
          · intro hwf
            exact mulStateWf_insertPair (mulStateWf_insertPair hwf hpw₁) hpw₂
          · intro key hk
            rcases insertPair_keys _ _ _ key hk with hk' | hk'
            · rcases insertPair_keys _ _ _ key hk' with hk'' | hk''
              · exact Or.inl hk''
              · subst hk''
                exact Or.inr hlt₁
            · subst hk'
              exact Or.inr hlt₂
        · refine ⟨insertPair st
              (add_exponents (a.exponents.getD i []) (b.exponents.getD (j + 1) []))
              (i, j + 1), ?_, ?_, ?_, ?_⟩
          · simp only [heap_mul_drain, hgi, hgj, hgei, hgej1,
              Option.bind_eq_bind, Option.some_bind, Option.pure_def,
              if_pos h1, if_neg h2]
          · intro m
            rw [stateFuture_insertPair, if_pos h1, if_neg h2]
            ring
          · intro hwf
            exact mulStateWf_insertPair hwf hpw₁
          · intro key hk
            rcases insertPair_keys _ _ _ key hk with hk' | hk'
            · exact Or.inl hk'
            · subst hk'
              exact Or.inr hlt₁
      · by_cases h2 : j = 0 ∧ i + 1 < a.nterms
        · obtain ⟨hj0, hi1⟩ := h2
          subst hj0
          have hie1 : i + 1 < a.exponents.length := by rw [← halen]; exact hi1
          have hgei1 : a.exponents[i + 1]? = some (a.exponents.getD (i + 1) []) :=
            getElem?_eq_some_getD [] hie1
          have hgej : b.exponents[0]? = some (b.exponents.getD 0 []) :=
            getElem?_eq_some_getD [] hje
          have hwa_i1 : (a.exponents.getD (i + 1) []).length = a.nvars :=
            hawidth _ (getD_mem [] hie1)
          have hlt₂ : cmp_exponents m₀
              (add_exponents (a.exponents.getD (i + 1) []) (b.exponents.getD 0 [])) = .lt := by
            rw [← hkey,
              cmp_exponents_add_right (by rw [hwa_i, hwa_i1]) (by rw [hwb_j, hwa_i]; exact hnv.symm)]
            exact chain_getD_lt hachain (Nat.lt_succ_self i) hie1
          have hpw₂ : pairWf a b
              (add_exponents (a.exponents.getD (i + 1) []) (b.exponents.getD 0 []))
              (i + 1, 0) := ⟨hi1, hj, rfl⟩
          refine ⟨insertPair st
              (add_exponents (a.exponents.getD (i + 1) []) (b.exponents.getD 0 []))
              (i + 1, 0), ?_, ?_, ?_, ?_⟩
          · simp only [heap_mul_drain, hgi, hgj, hgei1, hgej,
              Option.bind_eq_bind, Option.some_bind, Option.pure_def,
              if_neg h1, hi1, eq_self_iff_true, true_and, and_self, if_true]
          · intro m
            rw [stateFuture_insertPair, if_neg h1,
              if_pos (⟨rfl, hi1⟩ : (0 : Nat) = 0 ∧ i + 1 < a.nterms)]
            ring
          · intro hwf
            exact mulStateWf_insertPair hwf hpw₂
          · intro key hk
            rcases insertPair_keys _ _ _ key hk with hk' | hk'
            · exact Or.inl hk'
            · subst hk'
              exact Or.inr hlt₂
        · refine ⟨st, ?_, ?_, fun h => h, fun key hk => Or.inl hk⟩
          · simp only [heap_mul_drain, hgi, hgj,
              Option.bind_eq_bind, Option.some_bind, Option.pure_def,
              if_neg h1, if_neg h2]
          · intro m
            rw [if_neg h1, if_neg h2]
            ring
    obtain ⟨st₂, hstep, hfut, hwf₂, hkeys₂⟩ := hstate
    obtain ⟨out, hout, hsum, hwfp, hkeysp⟩ :=
      ih st₂ (coeff + a.coefficients.getD i 0 * b.coefficients.getD j 0)
        (fun pr hpr => hw pr (List.mem_cons_of_mem _ hpr))
    refine ⟨out, by rw [hstep]; exact hout, ?_, fun h => hwfp (hwf₂ h), ?_⟩
    · intro m
      rw [hsum m, List.foldr_cons, hfut m,
        pairFuture_unfold halen hblen hi hj m, hkey]
      by_cases hm : m₀ = m
      · rw [if_pos hm, if_pos hm, if_pos hm]
        ring
      · rw [if_neg hm, if_neg hm, if_neg hm]
        ring
    · intro key hk
      rcases hkeysp key hk with hmem | hlt
      · exact hkeys₂ key hmem
      · exact Or.inr hlt

theorem stateFuture_nil (a b : MultivariatePolynomial α) (m : Row) :
    stateFuture a b [] m = 0 := rfl

theorem stateFuture_cons (a b : MultivariatePolynomial α) (k₀ : Row)
    (prs : List (Nat × Nat)) (rest : MulState) (m : Row) :
    stateFuture a b ((k₀, prs) :: rest) m =
      stateFuture a b rest m +
        prs.foldr (fun ij acc => acc + pairFuture a b ij m) 0 := rfl

theorem heap_mul_loop_spec {a b : MultivariatePolynomial α}
    (hca : a.canonical) (hcb : b.canonical) (hnv : a.nvars = b.nvars) :
    ∀ (fuel : Nat) (st : MulState) (res : MultivariatePolynomial α),
      mulStateWf a b st →
      mulMeasure a b st ≤ fuel →
      res.canonical → res.nvars = a.nvars →
      (∀ r ∈ res.exponents, ∀ key ∈ st.map Prod.fst, cmp_exponents r key = .lt) →
      ∃ out, heap_mul_loop a b fuel st res = some out ∧
        out.canonical ∧ out.nvars = a.nvars ∧
        ∀ m, out.coeffOf m = res.coeffOf m + stateFuture a b st m := by
  obtain ⟨⟨halen, hawidth⟩, _, hachain⟩ := hca
  obtain ⟨⟨hblen, hbwidth⟩, _, hbchain⟩ := hcb
  intro fuel
  induction fuel with
  | zero =>
    intro st res hwf hfuel hres hresn _
    cases st with
    | nil =>
      exact ⟨res, rfl, hres, hresn, fun m => by simp [stateFuture_nil]⟩
    | cons e rest =>
      exfalso
      obtain ⟨k₀, prs⟩ := e
      have hk₀KS : k₀ ∈ mulKeySet a b :=
        wf_keys_mem_mulKeySet hwf k₀ (by rw [List.map_cons]; exact List.mem_cons_self _ _)
      have hmem : k₀ ∈ (mulKeySet a b).filter (fun key => rowLe k₀ key) := by
        refine Finset.mem_filter.mpr ⟨hk₀KS, ?_⟩
        show cmp_exponents k₀ k₀ ≠ .gt
        rw [cmp_exponents_refl]
        simp
      have hpos : 0 < mulMeasure a b ((k₀, prs) :: rest) := by
        unfold mulMeasure
        exact Finset.card_pos.mpr ⟨k₀, hmem⟩
      omega
  | succ fuel ih =>
    intro st res hwf hfuel hres hresn hreslt
    cases st with
    | nil => exact ⟨res, rfl, hres, hresn, fun m => by simp [stateFuture_nil]⟩
    | cons e rest =>
      obtain ⟨k₀, prs⟩ := e
      have hchain : (k₀ :: rest.map Prod.fst).Chain' (fun r s => cmp_exponents r s = .lt) := by
        have := hwf.1
        rwa [List.map_cons] at this
      have hprs_wf : ∀ pr ∈ prs, pairWf a b k₀ pr :=
        fun pr hpr => hwf.2.2 (k₀, prs) (List.mem_cons_self _ _) pr hpr
      have hwf_rest : mulStateWf a b rest :=
        ⟨hchain.tail, fun x hx => hwf.2.1 x (List.mem_cons_of_mem _ hx),
          fun x hx => hwf.2.2 x (List.mem_cons_of_mem _ hx)⟩
      obtain ⟨⟨c, st₂⟩, hdrain, hsum, hdwf, hdkeys⟩ :=
        heap_mul_drain_spec halen hblen hachain hbchain hawidth hbwidth hnv
          k₀ prs rest 0 hprs_wf
      have hsum' : ∀ m, (if k₀ = m then c else 0) + stateFuture a b st₂ m =
          (if k₀ = m then (0 : α) else 0) + stateFuture a b rest m +
            prs.foldr (fun ij acc => acc + pairFuture a b ij m) 0 := hsum
      have hwf₂ : mulStateWf a b st₂ := hdwf hwf_rest
      have hkeys₂ : ∀ key ∈ st₂.map Prod.fst, cmp_exponents k₀ key = .lt := by
        intro key hk
        rcases hdkeys key hk with hmem | hlt
        · exact chain_lt_all hchain key hmem
        · exact hlt
      have hk₀KS : k₀ ∈ mulKeySet a b :=
        wf_keys_mem_mulKeySet hwf k₀ (by rw [List.map_cons]; exact List.mem_cons_self _ _)
      have hk₀mem : k₀ ∈ (mulKeySet a b).filter (fun key => rowLe k₀ key) := by
        refine Finset.mem_filter.mpr ⟨hk₀KS, ?_⟩
        show cmp_exponents k₀ k₀ ≠ .gt
        rw [cmp_exponents_refl]
        simp
      have hmeas₂ : mulMeasure a b st₂ ≤ fuel := by
        cases st₂ with
        | nil => simp [mulMeasure]
        | cons e₂ rest₂ =>
          obtain ⟨k₁, prs₁⟩ := e₂
          have hk₁lt : cmp_exponents k₀ k₁ = .lt :=
            hkeys₂ k₁ (by rw [List.map_cons]; exact List.mem_cons_self _ _)
          have hss : (mulKeySet a b).filter (fun key => rowLe k₁ key) ⊆
              (mulKeySet a b).filter (fun key => rowLe k₀ key) := by
            intro key hkey
            obtain ⟨hks, hle⟩ := Finset.mem_filter.mp hkey
            refine Finset.mem_filter.mpr ⟨hks, ?_⟩
            show cmp_exponents k₀ key ≠ .gt
            rw [rowLt_le_trans hk₁lt hle]
            simp
          have hnot : k₀ ∉ (mulKeySet a b).filter (fun key => rowLe k₁ key) := by
            intro hmem
            have hle := (Finset.mem_filter.mp hmem).2
            have : cmp_exponents k₁ k₀ = .gt := by
              rw [cmp_exponents_swap, hk₁lt]
              rfl
            exact hle this
          have hlt : ((mulKeySet a b).filter (fun key => rowLe k₁ key)).card <
              ((mulKeySet a b).filter (fun key => rowLe k₀ key)).card :=
            Finset.card_lt_card
              ((Finset.ssubset_iff_of_subset hss).mpr ⟨k₀, hk₀mem, hnot⟩)
          have hm₀ : mulMeasure a b ((k₀, prs) :: rest) =
              ((mulKeySet a b).filter (fun key => rowLe k₀ key)).card := rfl
          have hm₁ : mulMeasure a b ((k₁, prs₁) :: rest₂) =
              ((mulKeySet a b).filter (fun key => rowLe k₁ key)).card := rfl
          rw [hm₀] at hfuel
          rw [hm₁]
          omega
      have hk₀len : k₀.length = a.nvars := by
        cases hps : prs with
        | nil => exact absurd hps (hwf.2.1 (k₀, prs) (List.mem_cons_self _ _))
        | cons p ps =>
          obtain ⟨hpi, hpj, hpkey⟩ := hwf.2.2 (k₀, prs) (List.mem_cons_self _ _) p
            (by rw [hps]; exact List.mem_cons_self _ _)
          have hpkey' : add_exponents (a.exponents.getD p.1 [])
              (b.exponents.getD p.2 []) = k₀ := hpkey
          rw [← hpkey', add_exponents_length,
            hawidth _ (getD_mem [] (by rw [← halen]; exact hpi)),
            hbwidth _ (getD_mem [] (by rw [← hblen]; exact hpj)), ← hnv]
          exact min_self a.nvars
      have hstep : heap_mul_loop a b (fuel + 1) ((k₀, prs) :: rest) res =
          heap_mul_loop a b fuel st₂ (if c = 0 then res else res.pushTerm c k₀) := by
        simp only [heap_mul_loop, hdrain, Option.bind_eq_bind, Option.some_bind]
      by_cases hc : c = 0
      · obtain ⟨out, hloop, houtcan, houtn, houtco⟩ :=
          ih st₂ res hwf₂ hmeas₂ hres hresn
            (fun r hr key hk => cmp_exponents_lt_trans
              (hreslt r hr k₀ (by rw [List.map_cons]; exact List.mem_cons_self _ _))
              (hkeys₂ key hk))
        refine ⟨out, ?_, houtcan, houtn, ?_⟩
        · rw [hstep, if_pos hc]
          exact hloop
        · intro m
          have h := hsum' m
          rw [hc, ite_self, zero_add, zero_add] at h
          rw [houtco m, stateFuture_cons, h]
      · obtain ⟨out, hloop, houtcan, houtn, houtco⟩ :=
          ih st₂ (res.pushTerm c k₀)
            hwf₂ hmeas₂
            (pushTerm_canonical hres hc (by rw [hk₀len, hresn])
              (fun r hr => hreslt r hr k₀
                (by rw [List.map_cons]; exact List.mem_cons_self _ _)))
            hresn
            (by
              intro r hr key hk
              have hkl := hkeys₂ key hk
              rcases List.mem_append.mp hr with hr' | hr'
              · exact cmp_exponents_lt_trans
                  (hreslt r hr' k₀ (by rw [List.map_cons]; exact List.mem_cons_self _ _)) hkl
              · rcases List.mem_singleton.mp hr' with rfl
                exact hkl)
        refine ⟨out, ?_, houtcan, houtn, ?_⟩
        · rw [hstep, if_neg hc]
          exact hloop
        · intro m
          have h := hsum' m
          rw [ite_self, zero_add] at h
          rw [houtco m, pushTerm_coeffOf hres.1.1 c k₀ m, stateFuture_cons,
            add_assoc, h]

theorem stateFuture_init {a b : MultivariatePolynomial α}
    (halen : a.coefficients.length = a.exponents.length)
    (ha : 0 < a.nterms) (k m : Row) :
    stateFuture a b [(k, [(0, 0)])] m = convCoeff a b m := by
  have h1 : stateFuture a b [(k, [(0, 0)])] m = pairFuture a b (0, 0) m := by
    rw [stateFuture_cons, stateFuture_nil, List.foldr_cons, List.foldr_nil,
      zero_add, zero_add]
  rw [h1]
  have hat : 0 < a.terms.length := by rw [terms_length halen]; exact ha
  have hsplit : a.terms = a.terms.getD 0 (0, []) :: a.terms.drop 1 := by
    conv_lhs => rw [← List.drop_zero a.terms]
    rw [List.drop_eq_getElem_cons hat]
    congr 1
    rw [List.getD_eq_getElem?_getD, List.getElem?_eq_getElem hat]
    rfl
  have h2 : pairFuture a b (0, 0) m =
      tCoeff (rowProdList (a.terms.getD 0 (0, [])) b.terms) m +
        tCoeff (tailProd (a.terms.drop 1) b.terms) m := by
    show tCoeff (rowProdList (a.terms.getD 0 (0, [])) (b.terms.drop 0)) m +
        (if (0 : Nat) = 0 then tCoeff (tailProd (a.terms.drop (0 + 1)) b.terms) m else 0) = _
    rw [if_pos rfl, List.drop_zero]
  rw [h2, convCoeff_flat]
  conv_rhs => rw [hsplit]
  rw [List.flatMap_cons, tCoeff_append]
  rfl

theorem heap_mul_eq_quad {a b : MultivariatePolynomial α}
    (hca : a.canonical) (hcb : b.canonical) (hnv : a.nvars = b.nvars)
    (ha : a.nterms ≠ 0) (hb : b.nterms ≠ 0) :
    heap_mul a b = some (quad_mul a b) := by
  have halen := hca.1.1
  have hblen := hcb.1.1
  have ha0 : 0 < a.nterms := Nat.pos_of_ne_zero ha
  have hb0 : 0 < b.nterms := Nat.pos_of_ne_zero hb
  have hae : 0 < a.exponents.length := by rw [← halen]; exact ha0
  have hbe : 0 < b.exponents.length := by rw [← hblen]; exact hb0
  have hga : a.exponents[0]? = some (a.exponents.getD 0 []) := getElem?_eq_some_getD [] hae
  have hgb : b.exponents[0]? = some (b.exponents.getD 0 []) := getElem?_eq_some_getD [] hbe
  set k0 : Row := add_exponents (a.exponents.getD 0 []) (b.exponents.getD 0 []) with hk0
  have hinit : insertPair [] k0 (0, 0) = [(k0, [(0, 0)])] := rfl
  have hwf : mulStateWf a b [(k0, [(0, 0)])] := by
    refine ⟨by simp, ?_, ?_⟩
    · intro e he
      rcases List.mem_singleton.mp he with rfl
      simp
    · intro e he ij hij
      rcases List.mem_singleton.mp he with rfl
      rcases List.mem_singleton.mp hij with rfl
      exact ⟨ha0, hb0, rfl⟩
  have hmeas : mulMeasure a b [(k0, [(0, 0)])] ≤ a.nterms * b.nterms := by
    have h1 : mulMeasure a b [(k0, [(0, 0)])] ≤ (mulKeySet a b).card :=
      Finset.card_filter_le _ _
    have h2 : (mulKeySet a b).card ≤ a.nterms * b.nterms := by
      unfold mulKeySet
      calc ((Finset.range a.nterms ×ˢ Finset.range b.nterms).image _).card
          ≤ ((Finset.range a.nterms) ×ˢ (Finset.range b.nterms)).card :=
            Finset.card_image_le
        _ = a.nterms * b.nterms := by
            rw [Finset.card_product, Finset.card_range, Finset.card_range]
    exact le_trans h1 h2
  obtain ⟨out, hloop, houtcan, houtn, houtco⟩ :=
    heap_mul_loop_spec hca hcb hnv (a.nterms * b.nterms) [(k0, [(0, 0)])]
      (new a.nvars) hwf hmeas (canonical_new _) rfl
      (by intro r hr; simp [new] at hr)
  have hcoeff : ∀ m, out.coeffOf m = convCoeff a b m := by
    intro m
    rw [houtco m, coeffOf_new, zero_add, stateFuture_init halen ha0]
  obtain ⟨hq1, hq2, hq3⟩ := quad_mul_spec hca.1 hcb.1 hnv
  have hout_eq : out = quad_mul a b :=
    canonical_ext houtcan hq1 (by rw [houtn, hq2]) (fun m => by rw [hcoeff m, hq3 m])
  unfold heap_mul
  rw [if_neg (by push_neg; exact ⟨ha, hb⟩)]
  simp only [hga, hgb, Option.bind_eq_bind, Option.some_bind]
  rw [← hk0, hinit, hloop, hout_eq]

end MultivariatePolynomial

/-! ## Heap division: cache structure lemmas -/

theorem chain_desc_all {a : Row} :
    ∀ {l : List Row}, (a :: l).Chain' (fun x y => cmp_exponents y x = .lt) →
      ∀ b ∈ l, cmp_exponents b a = .lt := by
  intro l
  induction l generalizing a with
  | nil => intro _ b hb; simp at hb
  | cons c l₂ ih =>
    intro h b hb
    rw [List.chain'_cons] at h
    rcases List.mem_cons.mp hb with rfl | hb₂
    · exact h.1
    · exact cmp_exponents_lt_trans (ih h.2 b hb₂) h.1

namespace MultivariatePolynomial

theorem allPairs_insertDivPair :
    ∀ (cache : DivCache) (k : Row) (pr : Nat × Nat × Bool),
      List.Perm (allPairs (insertDivPair cache k pr)) ((k, pr) :: allPairs cache) := by
  intro cache
  induction cache with
  | nil =>
    intro k pr
    simp [insertDivPair, allPairs]
  | cons e rest ih =>
    intro k pr
    obtain ⟨k₀, l₀⟩ := e
    simp only [insertDivPair]
    rcases hcmp : cmp_exponents k k₀ with _ | _ | _
    · show List.Perm (allPairs ((k₀, l₀) :: insertDivPair rest k pr)) _
      simp only [allPairs, List.flatMap_cons]
      refine List.Perm.trans (List.Perm.append_left _ (ih k pr)) ?_
      exact List.perm_middle
    · have hk : k = k₀ := cmp_exponents_eq_iff.mp hcmp
      subst hk
      show List.Perm (allPairs ((k, l₀ ++ [pr]) :: rest)) _
      simp only [allPairs, List.flatMap_cons, List.map_append, List.map_cons,
        List.map_nil]
      rw [List.append_assoc]
      exact List.perm_middle
    · show List.Perm (allPairs ((k, [pr]) :: (k₀, l₀) :: rest)) _
      simp [allPairs, List.flatMap_cons]

theorem insertDivPair_keys :
    ∀ (cache : DivCache) (k : Row) (pr : Nat × Nat × Bool),
      ∀ key ∈ (insertDivPair cache k pr).map Prod.fst,
        key ∈ cache.map Prod.fst ∨ key = k := by
  intro cache
  induction cache with
  | nil =>
    intro k pr key h
    simp only [insertDivPair, List.map_cons, List.map_nil] at h
    rcases List.mem_singleton.mp h with rfl
    exact Or.inr rfl
  | cons e rest ih =>
    intro k pr key h
    obtain ⟨k₀, l₀⟩ := e
    simp only [insertDivPair] at h
    rcases hcmp : cmp_exponents k k₀ with _ | _ | _ <;> rw [hcmp] at h <;>
      simp only [List.map_cons] at h
    · rcases List.mem_cons.mp h with rfl | h₂
      · rw [List.map_cons]
        exact Or.inl (List.mem_cons_self _ _)
      · rcases ih k pr key h₂ with h₃ | h₃
        · rw [List.map_cons]
          exact Or.inl (List.mem_cons_of_mem _ h₃)
        · exact Or.inr h₃
    · rw [List.map_cons]
      exact Or.inl h
    · rcases List.mem_cons.mp h with rfl | h₂
      · exact Or.inr rfl
      · rw [List.map_cons]
        exact Or.inl h₂

theorem insertDivPair_sorted :
    ∀ {cache : DivCache} {k : Row} {pr : Nat × Nat × Bool},
      (cache.map Prod.fst).Chain' (fun x y => cmp_exponents y x = .lt) →
      ((insertDivPair cache k pr).map Prod.fst).Chain'
        (fun x y => cmp_exponents y x = .lt) := by
  intro cache
  induction cache with
  | nil => intro k pr _; simp [insertDivPair]
  | cons e rest ih =>
    intro k pr hs
    obtain ⟨k₀, l₀⟩ := e
    rw [List.map_cons] at hs
    simp only [insertDivPair]
    rcases hcmp : cmp_exponents k k₀ with _ | _ | _
    · simp only [List.map_cons]
      rw [List.chain'_cons']
      refine ⟨?_, ih hs.tail⟩
      intro key hkey
      have hmem := List.mem_of_mem_head? hkey
      rcases insertDivPair_keys rest k pr key hmem with h | h
      · exact chain_desc_all hs key h
      · subst h
        exact hcmp
    · simp only [List.map_cons]
      exact hs
    · simp only [List.map_cons]
      refine List.Chain'.cons ?_ hs
      rw [cmp_exponents_swap, hcmp]
      rfl

theorem insertDivPair_entries :
    ∀ {cache : DivCache} {k : Row} {pr : Nat × Nat × Bool},
      (∀ e ∈ cache, e.2 ≠ []) →
      ∀ e ∈ insertDivPair cache k pr, e.2 ≠ [] := by
  intro cache
  induction cache with
  | nil =>
    intro k pr _ e h
    simp only [insertDivPair] at h
    rcases List.mem_singleton.mp h with rfl
    simp
  | cons e₀ rest ih =>
    intro k pr hne e h
    obtain ⟨k₀, l₀⟩ := e₀
    simp only [insertDivPair] at h
    rcases hcmp : cmp_exponents k k₀ with _ | _ | _ <;> rw [hcmp] at h
    · rcases List.mem_cons.mp h with rfl | h₂
      · exact hne _ (List.mem_cons_self _ _)
      · exact ih (fun x hx => hne x (List.mem_cons_of_mem _ hx)) e h₂
    · rcases List.mem_cons.mp h with rfl | h₂
      · simp
      · exact hne e (List.mem_cons_of_mem _ h₂)
    · rcases List.mem_cons.mp h with rfl | h₂
      · simp
      · exact hne e h₂

theorem cacheFut_insertDivPair (div q : MultivariatePolynomial α)
    (cache : DivCache) (k : Row) (pr : Nat × Nat × Bool) (m : Row) :
    cacheFut div q (insertDivPair cache k pr) m =
      pairFut div q pr m + cacheFut div q cache m := by
  unfold cacheFut
  rw [List.Perm.sum_eq (List.Perm.map _ (allPairs_insertDivPair cache k pr))]
  rfl

theorem countP_insertDivPair (cache : DivCache) (k : Row)
    (pr : Nat × Nat × Bool) (p : Row × (Nat × Nat × Bool) → Bool) :
    (allPairs (insertDivPair cache k pr)).countP p =
      (allPairs cache).countP p + (if p (k, pr) then 1 else 0) := by
  rw [List.Perm.countP_eq p (allPairs_insertDivPair cache k pr),
    List.countP_cons]

theorem countP_insertDivPair_pos {cache : DivCache} {k : Row}
    {pr : Nat × Nat × Bool} {p : Row × (Nat × Nat × Bool) → Bool}
    (h : p (k, pr) = true) :
    (allPairs (insertDivPair cache k pr)).countP p =
      (allPairs cache).countP p + 1 := by
  rw [countP_insertDivPair, if_pos h]

theorem countP_insertDivPair_neg {cache : DivCache} {k : Row}
    {pr : Nat × Nat × Bool} {p : Row × (Nat × Nat × Bool) → Bool}
    (h : ¬(p (k, pr) = true)) :
    (allPairs (insertDivPair cache k pr)).countP p =
      (allPairs cache).countP p := by
  rw [countP_insertDivPair, if_neg h, add_zero]

theorem countP_insertDivPair_colP (cache : DivCache) (k : Row) (x y : Nat)
    (b : Bool) (g : Nat) :
    (allPairs (insertDivPair cache k (x, y, b))).countP (colP g) =
      (allPairs cache).countP (colP g) + (if !b && y == g then 1 else 0) := by
  rw [countP_insertDivPair]
  rfl

theorem mem_allPairs_insertDivPair {cache : DivCache} {k : Row}
    {pr : Nat × Nat × Bool} {x : Row × (Nat × Nat × Bool)}
    (h : x ∈ allPairs (insertDivPair cache k pr)) :
    x ∈ allPairs cache ∨ x = (k, pr) := by
  have := (allPairs_insertDivPair cache k pr).mem_iff.mp h
  rcases List.mem_cons.mp this with h₂ | h₂
  · exact Or.inr h₂
  · exact Or.inl h₂

theorem getD_set_self {β : Type} :
    ∀ (l : List β) (i : Nat) (v d : β), i < l.length →
      (l.set i v).getD i d = v := by
  intro l
  induction l with
  | nil => intro i v d h; simp at h
  | cons x xs ih =>
    intro i v d h
    cases i with
    | zero => rfl
    | succ j => exact ih j v d (by simpa using h)

theorem getD_set_ne {β : Type} :
    ∀ (l : List β) (i j : Nat) (v d : β), i ≠ j →
      (l.set i v).getD j d = l.getD j d := by
  intro l
  induction l with
  | nil => intro i j v d _; simp [List.set]
  | cons x xs ih =>
    intro i j v d hij
    cases i with
    | zero =>
      cases j with
      | zero => exact absurd rfl hij
      | succ j₂ => rfl
    | succ i₂ =>
      cases j with
      | zero => rfl
      | succ j₂ => exact ih i₂ j₂ v d (fun h => hij (by rw [h]))

theorem getD_map_const {β γ : Type} (l : List β) (c : γ) (g : Nat) (d : γ) :
    (l.map (fun _ => c)).getD g d = if g < l.length then c else d := by
  by_cases h : g < l.length
  · rw [if_pos h]
    have h₂ : g < (l.map (fun _ => c)).length := by simpa using h
    rw [List.getD_eq_getElem?_getD, List.getElem?_eq_getElem h₂]
    simp
  · rw [if_neg h]
    rw [List.getD_eq_getElem?_getD, List.getElem?_eq_none (by simpa using Nat.le_of_not_lt h)]
    rfl

theorem getD_append_left {β : Type} {l l₂ : List β} {i : Nat} (d : β)
    (h : i < l.length) : (l ++ l₂).getD i d = l.getD i d := by
  rw [List.getD_eq_getElem?_getD, List.getD_eq_getElem?_getD,
    List.getElem?_append_left h]

theorem pairwise_of_chain_desc :
    ∀ {l : List Row}, l.Chain' (fun x y => cmp_exponents y x = .lt) →
      l.Pairwise (fun x y => cmp_exponents y x = .lt) := by
  intro l
  induction l with
  | nil => intro _; exact .nil
  | cons a l ih =>
    intro h
    exact List.Pairwise.cons (chain_desc_all h) (ih h.tail)

theorem trueFut_split {div q : MultivariatePolynomial α} {g : Nat}
    (h : g < div.nterms) (qi : Nat) (m : Row) :
    trueFut div q qi g m = qgProd div q qi g m + trueFut div q qi (g + 1) m := by
  unfold trueFut
  exact Finset.sum_eq_sum_Ico_succ_bot h _

theorem pulledA_succ (a : MultivariatePolynomial α) (k : Nat) (m : Row) :
    pulledA a (k + 1) m =
      pulledA a k m + (if a.backRow k = m then a.backCoeff k else 0) := by
  unfold pulledA
  exact Finset.sum_range_succ _ k

theorem colFut_set {div q : MultivariatePolynomial α} {iq : List Nat}
    {gi qi : Nat} (hgate : div.nterms ≤ q.nterms) (hg1 : 1 ≤ gi)
    (hgd : gi < div.nterms) (hiqlen : iq.length = div.nterms)
    (hpos : iq.getD gi 0 = qi) (hqi : qi < q.nterms) (m : Row) :
    colFut div q iq m =
      qgProd div q qi gi m + colFut div q (iq.set gi (qi + 1)) m := by
  unfold colFut
  rw [if_pos hgate, if_pos hgate]
  have hsplit : ∀ g ∈ Finset.Ico 1 div.nterms,
      (Finset.Ico (iq.getD g 0) q.nterms).sum (fun qi₂ => qgProd div q qi₂ g m) =
      (Finset.Ico ((iq.set gi (qi + 1)).getD g 0) q.nterms).sum
        (fun qi₂ => qgProd div q qi₂ g m) +
      (if g = gi then qgProd div q qi gi m else 0) := by
    intro g hg
    by_cases hggi : g = gi
    · subst hggi
      rw [if_pos rfl, hpos,
        getD_set_self iq g (qi + 1) 0 (by rw [hiqlen]; exact hgd),
        Finset.sum_eq_sum_Ico_succ_bot hqi]
      ring
    · rw [if_neg hggi, getD_set_ne iq gi g (qi + 1) 0 (fun h => hggi h.symm), add_zero]
  rw [Finset.sum_congr rfl hsplit, Finset.sum_add_distrib, Finset.sum_ite_eq' _ gi]
  rw [if_pos (Finset.mem_Ico.mpr ⟨hg1, hgd⟩)]
  ring

theorem qgProd_push {div q : MultivariatePolynomial α} {c : α} {e : Row}
    {qi : Nat} (hqi : qi < q.nterms)
    (hql : q.coefficients.length = q.exponents.length) (g : Nat) (m : Row) :
    qgProd div (q.pushTerm c e) qi g m = qgProd div q qi g m := by
  unfold qgProd
  show (if add_exponents ((q.exponents ++ [e]).getD qi []) (div.backRow g) = m
    then (q.coefficients ++ [c]).getD qi 0 * div.backCoeff g else 0) = _
  rw [getD_append_left [] (by rw [← hql]; exact hqi), getD_append_left 0 hqi]

theorem trueFut_push {div q : MultivariatePolynomial α} {c : α} {e : Row}
    {qi : Nat} (hqi : qi < q.nterms)
    (hql : q.coefficients.length = q.exponents.length) (g : Nat) (m : Row) :
    trueFut div (q.pushTerm c e) qi g m = trueFut div q qi g m := by
  unfold trueFut
  exact Finset.sum_congr rfl (fun g₂ _ => qgProd_push hqi hql g₂ m)

theorem pairFut_push {div q : MultivariatePolynomial α} {c : α} {e : Row}
    {pr : Nat × Nat × Bool} (hqi : pr.1 < q.nterms)
    (hql : q.coefficients.length = q.exponents.length) (m : Row) :
    pairFut div (q.pushTerm c e) pr m = pairFut div q pr m := by
  unfold pairFut
  by_cases h : pr.2.2
  · rw [if_pos h, if_pos h, trueFut_push hqi hql]
  · rw [if_neg h, if_neg h]

theorem pushTerm_nterms (q : MultivariatePolynomial α) (c : α) (e : Row) :
    (q.pushTerm c e).nterms = q.nterms + 1 := by
  show (q.coefficients ++ [c]).length = _
  simp [nterms]

theorem qLead_push {div q : MultivariatePolynomial α} {c : α} {e : Row}
    (hql : q.coefficients.length = q.exponents.length) (m : Row) :
    qLead div (q.pushTerm c e) m =
      qLead div q m + qgProd div (q.pushTerm c e) q.nterms 0 m := by
  unfold qLead
  rw [pushTerm_nterms, Finset.sum_range_succ]
  congr 1
  exact Finset.sum_congr rfl (fun qi hqi =>
    qgProd_push (Finset.mem_range.mp hqi) hql 0 m)

theorem qTail_push {div q : MultivariatePolynomial α} {c : α} {e : Row}
    (hql : q.coefficients.length = q.exponents.length) (m : Row) :
    qTail div (q.pushTerm c e) m =
      qTail div q m + (Finset.Ico 1 div.nterms).sum
        (fun g => qgProd div (q.pushTerm c e) q.nterms g m) := by
  unfold qTail
  rw [pushTerm_nterms, Finset.sum_range_succ]
  congr 1
  refine Finset.sum_congr rfl (fun qi hqi => ?_)
  exact Finset.sum_congr rfl (fun g _ =>
    qgProd_push (Finset.mem_range.mp hqi) hql g m)

theorem cacheFut_push {div q : MultivariatePolynomial α} {c : α} {e : Row}
    {cache : DivCache}
    (hwf : ∀ pr ∈ allPairs cache, pr.2.1 < q.nterms)
    (hql : q.coefficients.length = q.exponents.length) (m : Row) :
    cacheFut div (q.pushTerm c e) cache m = cacheFut div q cache m := by
  unfold cacheFut
  congr 1
  exact List.map_congr_left (fun pr hpr => pairFut_push (hwf pr hpr) hql m)

theorem colFut_push_on {div q : MultivariatePolynomial α} {c : α} {e : Row}
    {iq : List Nat} (hgate : div.nterms ≤ q.nterms)
    (hiqle : ∀ g, iq.getD g 0 ≤ q.nterms)
    (hql : q.coefficients.length = q.exponents.length) (m : Row) :
    colFut div (q.pushTerm c e) iq m =
      colFut div q iq m + (Finset.Ico 1 div.nterms).sum
        (fun g => qgProd div (q.pushTerm c e) q.nterms g m) := by
  unfold colFut
  rw [pushTerm_nterms, if_pos (le_trans hgate (Nat.le_succ _)), if_pos hgate,
    ← Finset.sum_add_distrib]
  refine Finset.sum_congr rfl (fun g _ => ?_)
  rw [Finset.sum_Ico_succ_top (hiqle g)]
  congr 1
  exact Finset.sum_congr rfl (fun qi hqi =>
    qgProd_push (Nat.lt_of_lt_of_le (Finset.mem_Ico.mp hqi).2 (le_refl _)) hql g m)

theorem colFut_off {div q : MultivariatePolynomial α} {iq : List Nat}
    (h : q.nterms < div.nterms) (m : Row) : colFut div q iq m = 0 := by
  unfold colFut
  rw [if_neg (by omega)]

theorem colFut_switch {div q : MultivariatePolynomial α} {c : α} {e : Row}
    {iq : List Nat} (hsw : q.nterms + 1 = div.nterms)
    (hiqlen : iq.length = div.nterms) (m : Row) :
    colFut div (q.pushTerm c e) (iq.map (fun _ => (q.pushTerm c e).nterms - 1)) m =
      (Finset.Ico 1 div.nterms).sum
        (fun g => qgProd div (q.pushTerm c e) q.nterms g m) := by
  unfold colFut
  rw [pushTerm_nterms, if_pos (by omega)]
  refine Finset.sum_congr rfl (fun g hg => ?_)
  have hglen : g < iq.length := by rw [hiqlen]; exact (Finset.mem_Ico.mp hg).2
  rw [getD_map_const, if_pos hglen]
  have : q.nterms + 1 - 1 = q.nterms := by omega
  rw [this, Finset.sum_eq_sum_Ico_succ_bot (Nat.lt_succ_self q.nterms)]
  have hempty : Finset.Ico (q.nterms + 1) (q.nterms + 1) = ∅ := Finset.Ico_self _
  rw [hempty, Finset.sum_empty, add_zero]

theorem chain_getD_desc {l : List Row}
    (h : l.Chain' (fun x y => cmp_exponents y x = .lt))
    {i j : Nat} (hij : i < j) (hj : j < l.length) :
    cmp_exponents (l.getD j []) (l.getD i []) = .lt := by
  have hp : l.Pairwise (fun x y => cmp_exponents y x = .lt) :=
    pairwise_of_chain_desc h
  rw [List.pairwise_iff_get] at hp
  have hi : i < l.length := lt_trans hij hj
  have hg := hp ⟨i, hi⟩ ⟨j, hj⟩ hij
  rw [List.getD_eq_getElem?_getD, List.getElem?_eq_getElem hj,
    List.getD_eq_getElem?_getD, List.getElem?_eq_getElem hi]
  simpa using hg

theorem backRow_lt {div : MultivariatePolynomial α}
    (hlen : div.coefficients.length = div.exponents.length)
    (hchain : div.exponents.Chain' (fun r s => cmp_exponents r s = .lt))
    {g g₂ : Nat} (hgg : g < g₂) (hg₂ : g₂ < div.nterms) :
    cmp_exponents (div.backRow g₂) (div.backRow g) = .lt := by
  unfold backRow
  have hg : g < div.nterms := lt_trans hgg hg₂
  have hlt : div.nterms - 1 - g₂ < div.nterms - 1 - g := by omega
  have hub : div.nterms - 1 - g < div.exponents.length := by
    unfold nterms at *
    omega
  exact chain_getD_lt hchain hlt hub

theorem add_lt_add_row {x₁ x₂ u₁ u₂ : Row}
    (hlx : x₁.length = x₂.length) (hlu : u₁.length = u₂.length)
    (hlxu : x₁.length = u₁.length)
    (hx : cmp_exponents x₁ x₂ ≠ .gt) (hu : cmp_exponents u₁ u₂ = .lt) :
    cmp_exponents (add_exponents x₁ u₁) (add_exponents x₂ u₂) = .lt := by
  have h1 : cmp_exponents (add_exponents x₁ u₁) (add_exponents x₁ u₂) =
      cmp_exponents u₁ u₂ :=
    cmp_exponents_add_left hlu hlxu
  have h2 : cmp_exponents (add_exponents x₁ u₂) (add_exponents x₂ u₂) =
      cmp_exponents x₁ x₂ :=
    cmp_exponents_add_right hlx (by rw [← hlu]; exact hlxu.symm)
  rcases hcx : cmp_exponents x₁ x₂ with _ | _ | _
  · rw [hcx] at h2
    rw [hu] at h1
    exact cmp_exponents_lt_trans h1 h2
  · have hx₂ : x₁ = x₂ := cmp_exponents_eq_iff.mp hcx
    subst hx₂
    rw [h1]
    exact hu
  · exact absurd hcx hx

theorem coefficient_back_eq {p : MultivariatePolynomial α} {i : Nat}
    (h : i < p.nterms) : p.coefficient_back i = some (p.backCoeff i) := by
  unfold coefficient_back backCoeff
  rw [if_pos h]
  have hidx : p.nterms - i - 1 = p.nterms - 1 - i := by omega
  rw [hidx]
  exact getElem?_eq_some_getD 0 (by unfold nterms at *; omega)

theorem exponents_back_eq {p : MultivariatePolynomial α} {i : Nat}
    (hlen : p.coefficients.length = p.exponents.length)
    (h : i < p.nterms) : p.exponents_back i = some (p.backRow i) := by
  unfold exponents_back backRow
  rw [if_pos h]
  have hidx : p.nterms - i - 1 = p.nterms - 1 - i := by omega
  rw [hidx]
  exact getElem?_eq_some_getD [] (by unfold nterms at *; omega)

theorem backRow_width {p : MultivariatePolynomial α} {n : Nat}
    (hlen : p.coefficients.length = p.exponents.length)
    (hw : ∀ r ∈ p.exponents, r.length = n) {i : Nat} (h : i < p.nterms) :
    (p.backRow i).length = n := by
  refine hw _ (getD_mem [] ?_)
  unfold nterms at *
  omega

theorem rowD_width {p : MultivariatePolynomial α} {n : Nat}
    (hlen : p.coefficients.length = p.exponents.length)
    (hw : ∀ r ∈ p.exponents, r.length = n) {i : Nat} (h : i < p.nterms) :
    (p.exponents.getD i []).length = n := by
  refine hw _ (getD_mem [] ?_)
  unfold nterms at *
  omega

theorem chainPos {div q : MultivariatePolynomial α}
    {live : List (Row × (Nat × Nat × Bool))} {dmh : List Bool} {iq : List Nat}
    (hinv : HeapInv div q live dmh iq)
    (hql : q.coefficients.length = q.exponents.length)
    (hqw : ∀ r ∈ q.exponents, r.length = nv)
    (hqdesc : q.exponents.Chain' (fun x y => cmp_exponents y x = .lt))
    (hdl : div.coefficients.length = div.exponents.length)
    (hdchain : div.exponents.Chain' (fun r s => cmp_exponents r s = .lt))
    (hdw : ∀ r ∈ div.exponents, r.length = nv)
    (hbound : ∀ pr ∈ live, cmp_exponents pr.1 m₀ ≠ .gt)
    (hgate : div.nterms ≤ q.nterms)
    {qi gi : Nat} (hqi : qi < q.nterms) (hgid : gi < div.nterms)
    (hkey : m₀ = add_exponents (q.exponents.getD qi []) (div.backRow gi)) :
    ∀ g, 1 ≤ g → g < gi → qi < iq.getD g 0 := by
  intro g
  induction g with
  | zero => intro h; exact absurd h (by omega)
  | succ g₂ ih =>
    intro _ hglt
    by_cases hdg : dmh.getD (g₂ + 1) false = true
    · have hcnt := hinv.hcount (g₂ + 1) (by omega)
      rw [if_pos hdg] at hcnt
      have hpos : 0 < live.countP (colP (g₂ + 1)) := by
        omega
      obtain ⟨pr, hmem, hp⟩ := List.countP_pos_iff.mp hpos
      have hpdec : pr.2.2.2 = false ∧ pr.2.2.1 = g₂ + 1 := by
        simp only [colP, Bool.and_eq_true, Bool.not_eq_true', beq_iff_eq] at hp
        exact hp
      obtain ⟨hw1, hw2, hw3, hw4, hw5⟩ := hinv.hwf pr hmem
      obtain ⟨hppos, _⟩ := hw5 hpdec.1
      by_contra hle
      push_neg at hle
      have hiqqi : iq.getD (g₂ + 1) 0 ≤ qi := hle
      have hqx : cmp_exponents (q.exponents.getD qi [])
          (q.exponents.getD pr.2.1 []) ≠ .gt := by
        rw [hppos, hpdec.2]
        rcases Nat.lt_or_ge (iq.getD (g₂ + 1) 0) qi with hlt | hge
        · have := chain_getD_desc hqdesc hlt (by unfold nterms at *; omega)
          rw [this]
          simp
        · have hequal : iq.getD (g₂ + 1) 0 = qi := by omega
          rw [hequal, cmp_exponents_refl]
          simp
      have hgu : cmp_exponents (div.backRow gi) (div.backRow pr.2.2.1) = .lt := by
        rw [hpdec.2]
        exact backRow_lt hdl hdchain hglt hgid
      have hxlen : (q.exponents.getD qi []).length =
          (q.exponents.getD pr.2.1 []).length := by
        rw [rowD_width hql hqw hqi, rowD_width hql hqw hw1]
      have hulen : (div.backRow gi).length = (div.backRow pr.2.2.1).length := by
        rw [backRow_width hdl hdw hgid, backRow_width hdl hdw hw3]
      have hxu : (q.exponents.getD qi []).length = (div.backRow gi).length := by
        rw [rowD_width hql hqw hqi, backRow_width hdl hdw hgid]
      have hlt₂ : cmp_exponents m₀ pr.1 = .lt := by
        rw [hkey, hw4]
        exact add_lt_add_row hxlen hulen hxu hqx hgu
      have hgt : cmp_exponents pr.1 m₀ = .gt := by
        rw [cmp_exponents_swap, hlt₂]
        rfl
      exact hbound pr hmem hgt
    · by_cases hlt : iq.getD (g₂ + 1) 0 < q.nterms
      · have hst := hinv.hstall hgate (g₂ + 1) (by omega)
          (lt_trans hglt hgid) (by simpa using hdg) hlt
        obtain ⟨hge2, heq⟩ := hst
        have hg₂1 : 1 ≤ g₂ := by omega
        have := ih hg₂1 (lt_trans (Nat.lt_succ_self g₂) hglt)
        have hidx : g₂ + 1 - 1 = g₂ := by omega
        rw [hidx] at heq
        omega
      · have := hinv.hiqle (g₂ + 1)
        omega

theorem trueFut_top {div q : MultivariatePolynomial α} {g : Nat}
    (h : div.nterms ≤ g) (qi : Nat) (m : Row) : trueFut div q qi g m = 0 := by
  unfold trueFut
  rw [Finset.Ico_eq_empty (by omega), Finset.sum_empty]

theorem mem_allPairs_fst {cache : DivCache} {x : Row × (Nat × Nat × Bool)}
    (h : x ∈ allPairs cache) : x.1 ∈ cache.map Prod.fst := by
  rcases List.mem_flatMap.mp h with ⟨e, he, hmem⟩
  rcases List.mem_map.mp hmem with ⟨pr, _, rfl⟩
  exact List.mem_map_of_mem Prod.fst he

theorem heap_division_drain_spec {a div q : MultivariatePolynomial α}
    (hdl : div.coefficients.length = div.exponents.length)
    (hdchain : div.exponents.Chain' (fun r s => cmp_exponents r s = .lt))
    (hdw : ∀ r ∈ div.exponents, r.length = a.nvars)
    (hql : q.coefficients.length = q.exponents.length)
    (hqw : ∀ r ∈ q.exponents, r.length = a.nvars)
    (hqdesc : q.exponents.Chain' (fun x y => cmp_exponents y x = .lt))
    (m₀ : Row) :
    ∀ (prs : List (Nat × Nat × Bool)) (cache : DivCache) (dmh : List Bool)
      (iq : List Nat) (c : α),
      HeapInv div q (prs.map (fun pr => (m₀, pr)) ++ allPairs cache) dmh iq →
      (∀ key ∈ cache.map Prod.fst, cmp_exponents key m₀ = .lt) →
      (cache.map Prod.fst).Chain' (fun x y => cmp_exponents y x = .lt) →
      (∀ e ∈ cache, e.2 ≠ []) →
      ∃ out, heap_division_drain div q prs cache dmh iq c = some out ∧
        HeapInv div q (allPairs out.2.1) out.2.2.1 out.2.2.2 ∧
        (∀ key ∈ out.2.1.map Prod.fst, cmp_exponents key m₀ = .lt) ∧
        (out.2.1.map Prod.fst).Chain' (fun x y => cmp_exponents y x = .lt) ∧
        (∀ e ∈ out.2.1, e.2 ≠ []) ∧
        (∀ m, (if m₀ = m then c else 0) + cacheFut div q out.2.1 m +
            colFut div q out.2.2.2 m =
          (if m₀ = m then out.1 else 0) + cacheFut div q cache m +
            (prs.map (fun pr => pairFut div q pr m)).sum +
            colFut div q iq m) := by
  intro prs
  induction prs with
  | nil =>
    intro cache dmh iq c hinv hbound hsort hne
    refine ⟨(c, cache, dmh, iq), rfl, ?_, hbound, hsort, hne, fun m => by simp⟩
    simpa using hinv
  | cons pr prs ih =>
    intro cache dmh iq c hinv hbound hsort hne
    obtain ⟨qi, gi, nid⟩ := pr
    have hheadmem : (m₀, (qi, gi, nid)) ∈
        ((qi, gi, nid) :: prs).map (fun x => (m₀, x)) ++ allPairs cache := by
      rw [List.map_cons]
      exact List.mem_append_left _ (List.mem_cons_self _ _)
    have hwf₀ := hinv.hwf _ hheadmem
    have hqi : qi < q.nterms := hwf₀.1
    have hg1 : 1 ≤ gi := hwf₀.2.1
    have hgd : gi < div.nterms := hwf₀.2.2.1
    have hkey : m₀ = add_exponents (q.exponents.getD qi []) (div.backRow gi) :=
      hwf₀.2.2.2.1
    have hfb : nid = false → qi = iq.getD gi 0 ∧ div.nterms ≤ q.nterms :=
      hwf₀.2.2.2.2
    have hqc : q.coefficients[qi]? = some (q.coefficients.getD qi 0) :=
      getElem?_eq_some_getD 0 hqi
    have hdc : div.coefficient_back gi = some (div.backCoeff gi) :=
      coefficient_back_eq hgd
    have hqe : q.exponents[qi]? = some (q.exponents.getD qi []) :=
      getElem?_eq_some_getD [] (by rw [← hql]; exact hqi)
    have hqg : ∀ m, qgProd div q qi gi m =
        (if m₀ = m then q.coefficients.getD qi 0 * div.backCoeff gi else 0) := by
      intro m
      unfold qgProd
      rw [← hkey]
    have htail : ∀ x ∈ prs.map (fun x => (m₀, x)) ++ allPairs cache,
        x ∈ ((qi, gi, nid) :: prs).map (fun x => (m₀, x)) ++ allPairs cache := by
      intro x hx
      rw [List.map_cons, List.cons_append]
      exact List.mem_cons_of_mem _ hx
    have hstate : ∃ cd : DivCache × List Bool × List Nat,
        heap_division_drain div q ((qi, gi, nid) :: prs) cache dmh iq c =
          heap_division_drain div q prs cd.1 cd.2.1 cd.2.2
            (c - q.coefficients.getD qi 0 * div.backCoeff gi) ∧
        HeapInv div q (prs.map (fun x => (m₀, x)) ++ allPairs cd.1) cd.2.1 cd.2.2 ∧
        (∀ key ∈ cd.1.map Prod.fst, cmp_exponents key m₀ = .lt) ∧
        (cd.1.map Prod.fst).Chain' (fun x y => cmp_exponents y x = .lt) ∧
        (∀ e ∈ cd.1, e.2 ≠ []) ∧
        (∀ m, cacheFut div q cd.1 m + colFut div q cd.2.2 m +
            (if m₀ = m then q.coefficients.getD qi 0 * div.backCoeff gi else 0) =
          pairFut div q (qi, gi, nid) m + cacheFut div q cache m +
            colFut div q iq m) := by
      cases nid with
      | true =>
        by_cases h2 : gi + 1 < div.nterms
        · have hqe : q.exponents[qi]? = some (q.exponents.getD qi []) :=
            getElem?_eq_some_getD [] (by rw [← hql]; exact hqi)
          have hge1 : div.exponents_back (gi + 1) = some (div.backRow (gi + 1)) :=
            exponents_back_eq hdl h2
          have hkeylt : cmp_exponents
              (add_exponents (q.exponents.getD qi []) (div.backRow (gi + 1))) m₀ = .lt := by
            rw [hkey,
              cmp_exponents_add_left
                (by rw [backRow_width hdl hdw h2, backRow_width hdl hdw hgd])
                (by rw [rowD_width hql hqw hqi, backRow_width hdl hdw h2])]
            exact backRow_lt hdl hdchain (Nat.lt_succ_self gi) h2
          refine ⟨(insertDivPair cache
              (add_exponents (q.exponents.getD qi []) (div.backRow (gi + 1)))
              (qi, gi + 1, true), dmh, iq), ?_, ?_, ?_, ?_, ?_, ?_⟩
          · simp only [heap_division_drain, hqc, hdc, hqe, hge1,
              Option.bind_eq_bind, Option.some_bind, if_true, h2, if_pos]
          · refine ⟨hinv.hdmh, hinv.hiq, hinv.hiqle, ?_, ?_,
              hinv.hstall, hinv.hmono, hinv.hmode⟩
            · intro x hx
              rcases List.mem_append.mp hx with hx₂ | hx₂
              · exact hinv.hwf x (htail x (List.mem_append_left _ hx₂))
              · rcases mem_allPairs_insertDivPair hx₂ with hx₃ | hx₃
                · exact hinv.hwf x (htail x (List.mem_append_right _ hx₃))
                · subst hx₃
                  exact ⟨hqi, show 1 ≤ gi + 1 by omega, h2, rfl,
                    fun h => Bool.noConfusion h⟩
            · intro g hg
              dsimp only
              have hold := hinv.hcount g hg
              have hhead : ¬(colP g (m₀, (qi, gi, true)) = true) := by simp [colP]
              simp only [List.map_cons, List.cons_append] at hold
              rw [List.countP_cons_of_neg _ _ hhead] at hold
              rw [List.countP_append] at hold ⊢
              rw [countP_insertDivPair_colP]
              simp only [Bool.not_true, Bool.false_and, Bool.false_eq_true,
                if_false, add_zero]
              omega
          · intro key hk
            rcases insertDivPair_keys cache _ _ key hk with hk₂ | hk₂
            · exact hbound key hk₂
            · subst hk₂
              exact hkeylt
          · exact insertDivPair_sorted hsort
          · exact insertDivPair_entries hne
          · intro m
            have hpf₁ : pairFut div q (qi, gi + 1, true) m = trueFut div q qi (gi + 1) m := by
              simp [pairFut]
            have hpf₀ : pairFut div q (qi, gi, true) m = trueFut div q qi gi m := by
              simp [pairFut]
            rw [cacheFut_insertDivPair, hpf₁, hpf₀, trueFut_split hgd, ← hqg m]
            ring
        · refine ⟨(cache, dmh, iq), ?_, ?_, hbound, hsort, hne, ?_⟩
          · simp only [heap_division_drain, hqc, hdc,
              Option.bind_eq_bind, Option.some_bind, if_true, h2, if_neg,
              if_false]
          · refine ⟨hinv.hdmh, hinv.hiq, hinv.hiqle, ?_, ?_,
              hinv.hstall, hinv.hmono, hinv.hmode⟩
            · intro x hx
              exact hinv.hwf x (htail x hx)
            · intro g hg
              dsimp only
              have hold := hinv.hcount g hg
              have hhead : ¬(colP g (m₀, (qi, gi, true)) = true) := by simp [colP]
              simp only [List.map_cons, List.cons_append] at hold
              rw [List.countP_cons_of_neg _ _ hhead] at hold
              rw [List.countP_append] at hold ⊢
              omega
          · intro m
            have hpf₀ : pairFut div q (qi, gi, true) m = trueFut div q qi gi m := by
              simp [pairFut]
            rw [hpf₀, trueFut_split hgd, trueFut_top (by omega), ← hqg m]
            ring
      | false =>
        obtain ⟨hpos, hgate⟩ := hfb rfl
        have hiqlen : iq.length = div.nterms := hinv.hiq
        have hdmhlen : dmh.length = div.nterms := hinv.hdmh
        have hdmhgi : dmh.getD gi false = true := by
          have hcnt := hinv.hcount gi hg1
          by_contra hdmg
          rw [if_neg hdmg] at hcnt
          have hz := List.countP_eq_zero.mp hcnt _ hheadmem
          simp [colP] at hz
        have hheadpos : colP gi (m₀, (qi, gi, false)) = true := by simp [colP]
        have hnone : ∀ x ∈ prs.map (fun x => (m₀, x)) ++ allPairs cache,
            ¬(colP gi x = true) := by
          have hcnt := hinv.hcount gi hg1
          rw [if_pos hdmhgi] at hcnt
          simp only [List.map_cons, List.cons_append] at hcnt
          rw [List.countP_cons_of_pos _ _ hheadpos] at hcnt
          exact List.countP_eq_zero.mp (by omega)
        have hchainp : ∀ g, 1 ≤ g → g < gi → qi < iq.getD g 0 := by
          refine chainPos hinv hql hqw hqdesc hdl hdchain hdw ?_ hgate hqi hgd hkey
          intro x hx
          rcases List.mem_append.mp hx with hx₂ | hx₂
          · rcases List.mem_map.mp hx₂ with ⟨y, _, rfl⟩
            rw [cmp_exponents_refl]
            simp
          · rw [hbound x.1 (mem_allPairs_fst hx₂)]
            simp
        have hgilen : gi < iq.length := by rw [hiqlen]; exact hgd
        have hiq₂gi : (iq.set gi (qi + 1)).getD gi 0 = qi + 1 :=
          getD_set_self iq gi (qi + 1) 0 hgilen
        have hiq₂ne : ∀ g, g ≠ gi → (iq.set gi (qi + 1)).getD g 0 = iq.getD g 0 :=
          fun g hgn => getD_set_ne iq gi g (qi + 1) 0 (fun h => hgn h.symm)
        have hiq₂len : (iq.set gi (qi + 1)).length = div.nterms := by
          rw [List.length_set]
          exact hiqlen
        have hiqle₂ : ∀ g, (iq.set gi (qi + 1)).getD g 0 ≤ q.nterms := by
          intro g
          by_cases hgn : g = gi
          · subst hgn
            rw [hiq₂gi]
            omega
          · rw [hiq₂ne g hgn]
            exact hinv.hiqle g
        have hmono₂ : div.nterms ≤ q.nterms → ∀ g, 2 ≤ g → g < div.nterms →
            (iq.set gi (qi + 1)).getD g 0 ≤ (iq.set gi (qi + 1)).getD (g - 1) 0 := by
          intro _ g h2g hgdn
          by_cases hggi : g = gi
          · subst hggi
            rw [hiq₂gi, hiq₂ne (g - 1) (by omega)]
            have := hchainp (g - 1) (by omega) (by omega)
            omega
          · by_cases hggi1 : g - 1 = gi
            · rw [hiq₂ne g hggi, hggi1, hiq₂gi]
              have hmn := hinv.hmono hgate g h2g hgdn
              rw [hggi1, ← hpos] at hmn
              omega
            · rw [hiq₂ne g hggi, hiq₂ne (g - 1) hggi1]
              exact hinv.hmono hgate g h2g hgdn
        have hmode₂ : ∀ dm : List Bool, q.nterms < div.nterms → ∀ g,
            (iq.set gi (qi + 1)).getD g 0 = 0 ∧ dm.getD g false = false :=
          fun dm h => absurd hgate (by omega)
        have hwfold : ∀ x ∈ prs.map (fun x => (m₀, x)) ++ allPairs cache,
            divPairWf div q (iq.set gi (qi + 1)) x.1 x.2 := by
          intro x hx
          obtain ⟨w1, w2, w3, w4, w5⟩ := hinv.hwf x (htail x hx)
          refine ⟨w1, w2, w3, w4, ?_⟩
          intro hf
          obtain ⟨wp, wg⟩ := w5 hf
          refine ⟨?_, wg⟩
          have hxgi : x.2.2.1 ≠ gi := by
            intro hcol
            exact hnone x hx (by simp [colP, hf, hcol])
          rw [hiq₂ne _ hxgi]
          exact wp
        have hcolset : ∀ m, colFut div q iq m =
            qgProd div q qi gi m + colFut div q (iq.set gi (qi + 1)) m :=
          fun m => colFut_set hgate hg1 hgd hiqlen hpos.symm hqi m
        have hpfhead : ∀ m, pairFut div q (qi, gi, false) m = 0 := by
          intro m
          simp [pairFut]
        by_cases hadv : qi + 1 < q.nterms
        · have hqe1 : q.exponents[qi + 1]? = some (q.exponents.getD (qi + 1) []) :=
            getElem?_eq_some_getD [] (by rw [← hql]; exact hadv)
          have hge : div.exponents_back gi = some (div.backRow gi) :=
            exponents_back_eq hdl hgd
          have hkey₂lt : cmp_exponents
              (add_exponents (q.exponents.getD (qi + 1) []) (div.backRow gi)) m₀ = .lt := by
            rw [hkey, cmp_exponents_add_right
              (by rw [rowD_width hql hqw hadv, rowD_width hql hqw hqi])
              (by rw [backRow_width hdl hdw hgd, rowD_width hql hqw hadv])]
            exact chain_getD_desc hqdesc (Nat.lt_succ_self qi) (by rw [← hql]; exact hadv)
          have hwfp₂ : divPairWf div q (iq.set gi (qi + 1))
              (add_exponents (q.exponents.getD (qi + 1) []) (div.backRow gi))
              (qi + 1, gi, false) :=
            ⟨hadv, hg1, hgd, rfl, fun _ => ⟨hiq₂gi.symm, hgate⟩⟩
          have hdelta₂ : ∀ m, cacheFut div q (insertDivPair cache (add_exponents (q.exponents.getD (qi + 1) []) (div.backRow gi)) (qi + 1, gi, false)) m +
              colFut div q (iq.set gi (qi + 1)) m +
              (if m₀ = m then q.coefficients.getD qi 0 * div.backCoeff gi else 0) =
            pairFut div q (qi, gi, false) m + cacheFut div q cache m +
              colFut div q iq m := by
            intro m
            rw [cacheFut_insertDivPair, hpfhead m, hcolset m, ← hqg m]
            have hz₂ : pairFut div q (qi + 1, gi, false) m = 0 := by
              simp [pairFut]
            rw [hz₂]
            ring
          have hwfmix : ∀ x ∈ prs.map (fun x => (m₀, x)) ++ allPairs (insertDivPair cache (add_exponents (q.exponents.getD (qi + 1) []) (div.backRow gi)) (qi + 1, gi, false)),
              divPairWf div q (iq.set gi (qi + 1)) x.1 x.2 := by
            intro x hx
            rcases List.mem_append.mp hx with hx₂ | hx₂
            · exact hwfold x (List.mem_append_left _ hx₂)
            · rcases mem_allPairs_insertDivPair hx₂ with hx₃ | hx₃
              · exact hwfold x (List.mem_append_right _ hx₃)
              · subst hx₃
                exact hwfp₂
          have hbound₂ : ∀ key ∈ (insertDivPair cache (add_exponents (q.exponents.getD (qi + 1) []) (div.backRow gi)) (qi + 1, gi, false)).map Prod.fst,
              cmp_exponents key m₀ = .lt := by
            intro key hk
            rcases insertDivPair_keys cache _ _ key hk with hk₂ | hk₂
            · exact hbound key hk₂
            · subst hk₂
              exact hkey₂lt
          by_cases hgd2 : gi + 1 < div.nterms
          · have hflagel : dmh[gi + 1]? = some (dmh.getD (gi + 1) false) :=
              getElem?_eq_some_getD false (by rw [hdmhlen]; exact hgd2)
            have htel : (iq.set gi (qi + 1))[gi + 1]? = some (iq.getD (gi + 1) 0) := by
              have h1 : (iq.set gi (qi + 1))[gi + 1]? =
                  some ((iq.set gi (qi + 1)).getD (gi + 1) 0) :=
                getElem?_eq_some_getD 0 (by rw [List.length_set, hiqlen]; exact hgd2)
              rw [h1, hiq₂ne (gi + 1) (by omega)]
            by_cases hflag : dmh.getD (gi + 1) false = true
            · refine ⟨(insertDivPair cache (add_exponents (q.exponents.getD (qi + 1) []) (div.backRow gi)) (qi + 1, gi, false), dmh, iq.set gi (qi + 1)), ?_, ?_, hbound₂,
                insertDivPair_sorted hsort, insertDivPair_entries hne, hdelta₂⟩
              · simp only [heap_division_drain, hqc, hdc, hqe1, hge, hflagel,
                  hflag, hadv, hgd2, Option.bind_eq_bind, Option.some_bind,
                  Option.pure_def, Bool.false_eq_true, if_false, if_true,
                  eq_self_iff_true]
              · refine ⟨hdmhlen, hiq₂len, hiqle₂, hwfmix, ?_, ?_, hmono₂, hmode₂ _⟩
                · intro g hg
                  dsimp only
                  have hold := hinv.hcount g hg
                  by_cases hggi : g = gi
                  · rw [hggi] at hold ⊢
                    simp only [List.map_cons, List.cons_append] at hold
                    rw [List.countP_cons_of_pos _ _ hheadpos, if_pos hdmhgi] at hold
                    rw [List.countP_append] at hold ⊢
                    rw [countP_insertDivPair_colP, if_pos hdmhgi]
                    simp only [Bool.not_false, Bool.true_and, beq_self_eq_true, if_true]
                    omega
                  · have hhead : ¬(colP g (m₀, (qi, gi, false)) = true) := by
                      simp [colP]
                      exact fun h => hggi h.symm
                    simp only [List.map_cons, List.cons_append] at hold
                    rw [List.countP_cons_of_neg _ _ hhead] at hold
                    rw [List.countP_append] at hold ⊢
                    rw [countP_insertDivPair_colP,
                      if_neg (show ¬((!false && gi == g) = true) from by
                        simp only [Bool.not_false, Bool.true_and, beq_iff_eq]
                        exact fun h => hggi h.symm), add_zero]
                    omega
                · intro hg2 g hg1g hgdn hdm hlt
                  by_cases hggi : g = gi
                  · subst hggi
                    rw [hdmhgi] at hdm
                    exact absurd hdm (by simp)
                  · rw [hiq₂ne g hggi] at hlt
                    obtain ⟨hα, hβ⟩ := hinv.hstall hg2 g hg1g hgdn hdm hlt
                    refine ⟨hα, ?_⟩
                    have hne1 : g - 1 ≠ gi := by
                      intro hgx
                      have hgeq : g = gi + 1 := by omega
                      rw [hgeq, hflag] at hdm
                      exact absurd hdm (by simp)
                    rw [hiq₂ne g hggi, hiq₂ne (g - 1) hne1]
                    exact hβ
            · by_cases ht : iq.getD (gi + 1) 0 < q.nterms
              · have hflagF : dmh.getD (gi + 1) false = false := by
                  simpa using hflag
                have ht_eq : iq.getD (gi + 1) 0 = qi := by
                  have h := (hinv.hstall hgate (gi + 1) (by omega) hgd2 hflagF ht).2
                  have hidx : gi + 1 - 1 = gi := by omega
                  rw [hidx] at h
                  rw [h]
                  exact hpos.symm
                have hge1c : div.exponents_back (gi + 1) = some (div.backRow (gi + 1)) :=
                  exponents_back_eq hdl hgd2
                have hkey₃lt : cmp_exponents
                    (add_exponents (q.exponents.getD qi []) (div.backRow (gi + 1))) m₀ = .lt := by
                  rw [hkey, cmp_exponents_add_left
                    (by rw [backRow_width hdl hdw hgd2, backRow_width hdl hdw hgd])
                    (by rw [rowD_width hql hqw hqi, backRow_width hdl hdw hgd2])]
                  exact backRow_lt hdl hdchain (Nat.lt_succ_self gi) hgd2
                have hwfp₃ : divPairWf div q (iq.set gi (qi + 1))
                    (add_exponents (q.exponents.getD qi []) (div.backRow (gi + 1)))
                    (qi, gi + 1, false) := by
                  refine ⟨hqi, show 1 ≤ gi + 1 by omega, hgd2, rfl,
                    fun _ => ⟨?_, hgate⟩⟩
                  rw [hiq₂ne (gi + 1) (by omega), ht_eq]
                refine ⟨(insertDivPair (insertDivPair cache (add_exponents (q.exponents.getD (qi + 1) []) (div.backRow gi)) (qi + 1, gi, false))
                    (add_exponents (q.exponents.getD qi []) (div.backRow (gi + 1)))
                    (qi, gi + 1, false), dmh.set (gi + 1) true,
                    iq.set gi (qi + 1)), ?_, ?_, ?_,
                  insertDivPair_sorted (insertDivPair_sorted hsort),
                  insertDivPair_entries (insertDivPair_entries hne), ?_⟩
                · simp only [heap_division_drain, hqc, hdc, hqe1, hge, hqe,
                    hge1c, hflagel, hflag, htel, ht, hadv, hgd2,
                    Option.bind_eq_bind, Option.some_bind, Option.pure_def,
                    Bool.false_eq_true, if_false, if_true, eq_self_iff_true]
                · refine ⟨by rw [List.length_set]; exact hdmhlen, hiq₂len, hiqle₂,
                    ?_, ?_, ?_, hmono₂, hmode₂ _⟩
                  · intro x hx
                    dsimp only at hx
                    rcases List.mem_append.mp hx with hx₂ | hx₂
                    · exact hwfold x (List.mem_append_left _ hx₂)
                    · rcases mem_allPairs_insertDivPair hx₂ with hx₃ | hx₃
                      · rcases mem_allPairs_insertDivPair hx₃ with hx₄ | hx₄
                        · exact hwfold x (List.mem_append_right _ hx₄)
                        · subst hx₄
                          exact hwfp₂
                      · subst hx₃
                        exact hwfp₃
                  · intro g hg
                    dsimp only
                    have hold := hinv.hcount g hg
                    by_cases hggi : g = gi
                    · rw [hggi] at hold ⊢
                      simp only [List.map_cons, List.cons_append] at hold
                      rw [List.countP_cons_of_pos _ _ hheadpos, if_pos hdmhgi] at hold
                      rw [List.countP_append] at hold ⊢
                      rw [countP_insertDivPair_colP, countP_insertDivPair_colP,
                        getD_set_ne dmh (gi + 1) gi true false (by omega),
                        if_pos hdmhgi]
                      rw [if_neg (show ¬((!false && gi + 1 == gi) = true) from by
                        simp only [Bool.not_false, Bool.true_and, beq_iff_eq]
                        omega), add_zero]
                      simp only [Bool.not_false, Bool.true_and, beq_self_eq_true,
                        if_true]
                      omega
                    · by_cases hggi1 : g = gi + 1
                      · subst hggi1
                        have hhead : ¬(colP (gi + 1) (m₀, (qi, gi, false)) = true) := by
                          simp [colP]
                        simp only [List.map_cons, List.cons_append] at hold
                        rw [List.countP_cons_of_neg _ _ hhead, hflagF] at hold
                        rw [List.countP_append] at hold ⊢
                        rw [countP_insertDivPair_colP, countP_insertDivPair_colP,
                          getD_set_self dmh (gi + 1) true false
                            (by rw [hdmhlen]; exact hgd2)]
                        rw [if_neg (show ¬((!false && gi == gi + 1) = true) from by
                          simp only [Bool.not_false, Bool.true_and, beq_iff_eq]
                          omega), add_zero]
                        simp only [Bool.not_false, Bool.true_and, beq_self_eq_true,
                          if_true, Bool.false_eq_true, if_false] at hold ⊢
                        omega
                      · have hhead : ¬(colP g (m₀, (qi, gi, false)) = true) := by
                          simp [colP]
                          exact fun h => hggi h.symm
                        simp only [List.map_cons, List.cons_append] at hold
                        rw [List.countP_cons_of_neg _ _ hhead] at hold
                        rw [List.countP_append] at hold ⊢
                        rw [countP_insertDivPair_colP, countP_insertDivPair_colP,
                          getD_set_ne dmh (gi + 1) g true false
                            (fun h => hggi1 h.symm)]
                        rw [if_neg (show ¬((!false && gi + 1 == g) = true) from by
                          simp only [Bool.not_false, Bool.true_and, beq_iff_eq]
                          exact fun h => hggi1 h.symm), add_zero]
                        rw [if_neg (show ¬((!false && gi == g) = true) from by
                          simp only [Bool.not_false, Bool.true_and, beq_iff_eq]
                          exact fun h => hggi h.symm), add_zero]
                        omega
                  · intro hg2 g hg1g hgdn hdm hlt
                    dsimp only at hdm hlt ⊢
                    by_cases hggi : g = gi
                    · subst hggi
                      rw [getD_set_ne dmh (g + 1) g true false (by omega),
                        hdmhgi] at hdm
                      exact absurd hdm (by simp)
                    · by_cases hggi1 : g = gi + 1
                      · subst hggi1
                        rw [getD_set_self dmh (gi + 1) true false
                          (by rw [hdmhlen]; exact hgd2)] at hdm
                        exact absurd hdm (by simp)
                      · rw [getD_set_ne dmh (gi + 1) g true false
                          (fun h => hggi1 h.symm)] at hdm
                        rw [hiq₂ne g hggi] at hlt
                        obtain ⟨hα, hβ⟩ := hinv.hstall hg2 g hg1g hgdn hdm hlt
                        refine ⟨hα, ?_⟩
                        have hne1 : g - 1 ≠ gi := by omega
                        rw [hiq₂ne g hggi, hiq₂ne (g - 1) hne1]
                        exact hβ
                · intro key hk
                  dsimp only at hk
                  rcases insertDivPair_keys _ _ _ key hk with hk₂ | hk₂
                  · exact hbound₂ key hk₂
                  · subst hk₂
                    exact hkey₃lt
                · intro m
                  dsimp only
                  rw [cacheFut_insertDivPair, cacheFut_insertDivPair, hpfhead m,
                    hcolset m, ← hqg m]
                  have hz₂ : pairFut div q (qi + 1, gi, false) m = 0 := by
                    simp [pairFut]
                  have hz₃ : pairFut div q (qi, gi + 1, false) m = 0 := by
                    simp [pairFut]
                  rw [hz₂, hz₃]
                  ring
              · refine ⟨(insertDivPair cache (add_exponents (q.exponents.getD (qi + 1) []) (div.backRow gi)) (qi + 1, gi, false), dmh, iq.set gi (qi + 1)), ?_, ?_, hbound₂,
                  insertDivPair_sorted hsort, insertDivPair_entries hne, hdelta₂⟩
                · simp only [heap_division_drain, hqc, hdc, hqe1, hge, hflagel,
                    hflag, htel, ht, hadv, hgd2, Option.bind_eq_bind,
                    Option.some_bind, Option.pure_def, Bool.false_eq_true,
                    if_false, if_true, eq_self_iff_true]
                · refine ⟨hdmhlen, hiq₂len, hiqle₂, hwfmix, ?_, ?_, hmono₂, hmode₂ _⟩
                  · intro g hg
                    dsimp only
                    have hold := hinv.hcount g hg
                    by_cases hggi : g = gi
                    · rw [hggi] at hold ⊢
                      simp only [List.map_cons, List.cons_append] at hold
                      rw [List.countP_cons_of_pos _ _ hheadpos, if_pos hdmhgi] at hold
                      rw [List.countP_append] at hold ⊢
                      rw [countP_insertDivPair_colP, if_pos hdmhgi]
                      simp only [Bool.not_false, Bool.true_and, beq_self_eq_true, if_true]
                      omega
                    · have hhead : ¬(colP g (m₀, (qi, gi, false)) = true) := by
                        simp [colP]
                        exact fun h => hggi h.symm
                      simp only [List.map_cons, List.cons_append] at hold
                      rw [List.countP_cons_of_neg _ _ hhead] at hold
                      rw [List.countP_append] at hold ⊢
                      rw [countP_insertDivPair_colP,
                        if_neg (show ¬((!false && gi == g) = true) from by
                          simp only [Bool.not_false, Bool.true_and, beq_iff_eq]
                          exact fun h => hggi h.symm), add_zero]
                      omega
                  · intro hg2 g hg1g hgdn hdm hlt
                    by_cases hggi : g = gi
                    · subst hggi
                      rw [hdmhgi] at hdm
                      exact absurd hdm (by simp)
                    · rw [hiq₂ne g hggi] at hlt
                      obtain ⟨hα, hβ⟩ := hinv.hstall hg2 g hg1g hgdn hdm hlt
                      refine ⟨hα, ?_⟩
                      have hne1 : g - 1 ≠ gi := by
                        intro hgx
                        have hgeq : g = gi + 1 := by omega
                        rw [hgeq] at hlt
                        omega
                      rw [hiq₂ne g hggi, hiq₂ne (g - 1) hne1]
                      exact hβ
          · refine ⟨(insertDivPair cache (add_exponents (q.exponents.getD (qi + 1) []) (div.backRow gi)) (qi + 1, gi, false), dmh, iq.set gi (qi + 1)), ?_, ?_, hbound₂,
              insertDivPair_sorted hsort, insertDivPair_entries hne, hdelta₂⟩
            · simp only [heap_division_drain, hqc, hdc, hqe1, hge, hgd2, hadv,
                Option.bind_eq_bind, Option.some_bind, Option.pure_def,
                Bool.false_eq_true, if_false, if_true, eq_self_iff_true]
            · refine ⟨hdmhlen, hiq₂len, hiqle₂, hwfmix, ?_, ?_, hmono₂, hmode₂ _⟩
              · intro g hg
                dsimp only
                have hold := hinv.hcount g hg
                by_cases hggi : g = gi
                · rw [hggi] at hold ⊢
                  simp only [List.map_cons, List.cons_append] at hold
                  rw [List.countP_cons_of_pos _ _ hheadpos, if_pos hdmhgi] at hold
                  rw [List.countP_append] at hold ⊢
                  rw [countP_insertDivPair_colP, if_pos hdmhgi]
                  simp only [Bool.not_false, Bool.true_and, beq_self_eq_true, if_true]
                  omega
                · have hhead : ¬(colP g (m₀, (qi, gi, false)) = true) := by
                    simp [colP]
                    exact fun h => hggi h.symm
                  simp only [List.map_cons, List.cons_append] at hold
                  rw [List.countP_cons_of_neg _ _ hhead] at hold
                  rw [List.countP_append] at hold ⊢
                  rw [countP_insertDivPair_colP,
                    if_neg (show ¬((!false && gi == g) = true) from by
                      simp only [Bool.not_false, Bool.true_and, beq_iff_eq]
                      exact fun h => hggi h.symm), add_zero]
                  omega
              · intro hg2 g hg1g hgdn hdm hlt
                by_cases hggi : g = gi
                · subst hggi
                  rw [hdmhgi] at hdm
                  exact absurd hdm (by simp)
                · rw [hiq₂ne g hggi] at hlt
                  obtain ⟨hα, hβ⟩ := hinv.hstall hg2 g hg1g hgdn hdm hlt
                  refine ⟨hα, ?_⟩
                  have hne1 : g - 1 ≠ gi := by
                    intro hgx
                    omega
                  rw [hiq₂ne g hggi, hiq₂ne (g - 1) hne1]
                  exact hβ
        · have hdelta₀ : ∀ m, cacheFut div q cache m +
              colFut div q (iq.set gi (qi + 1)) m +
              (if m₀ = m then q.coefficients.getD qi 0 * div.backCoeff gi else 0) =
            pairFut div q (qi, gi, false) m + cacheFut div q cache m +
              colFut div q iq m := by
            intro m
            rw [hpfhead m, hcolset m, ← hqg m]
            ring
          have hwfmix₀ : ∀ x ∈ prs.map (fun x => (m₀, x)) ++ allPairs cache,
              divPairWf div q (iq.set gi (qi + 1)) x.1 x.2 := by
            intro x hx
            rcases List.mem_append.mp hx with hx₂ | hx₂
            · exact hwfold x (List.mem_append_left _ hx₂)
            · exact hwfold x (List.mem_append_right _ hx₂)
          by_cases hgd2 : gi + 1 < div.nterms
          · have hflagel : (dmh.set gi false)[gi + 1]? =
                some (dmh.getD (gi + 1) false) := by
              have h1 : (dmh.set gi false)[gi + 1]? =
                  some ((dmh.set gi false).getD (gi + 1) false) :=
                getElem?_eq_some_getD false
                  (by rw [List.length_set, hdmhlen]; exact hgd2)
              rw [h1, getD_set_ne dmh gi (gi + 1) false false (by omega)]
            have htel : (iq.set gi (qi + 1))[gi + 1]? = some (iq.getD (gi + 1) 0) := by
              have h1 : (iq.set gi (qi + 1))[gi + 1]? =
                  some ((iq.set gi (qi + 1)).getD (gi + 1) 0) :=
                getElem?_eq_some_getD 0 (by rw [List.length_set, hiqlen]; exact hgd2)
              rw [h1, hiq₂ne (gi + 1) (by omega)]
            by_cases hflag : dmh.getD (gi + 1) false = true
            · refine ⟨(cache, dmh.set gi false, iq.set gi (qi + 1)), ?_, ?_,
                hbound, hsort, hne, hdelta₀⟩
              · simp only [heap_division_drain, hqc, hdc, hadv, hgd2, hflagel,
                  hflag, Option.bind_eq_bind, Option.some_bind, Option.pure_def,
                  Bool.false_eq_true, if_false, if_true, eq_self_iff_true]
              · refine ⟨by rw [List.length_set]; exact hdmhlen, hiq₂len, hiqle₂,
                  hwfmix₀, ?_, ?_, hmono₂, hmode₂ _⟩
                · intro g hg
                  dsimp only
                  have hold := hinv.hcount g hg
                  by_cases hggi : g = gi
                  · rw [hggi] at hold ⊢
                    simp only [List.map_cons, List.cons_append] at hold
                    rw [List.countP_cons_of_pos _ _ hheadpos, if_pos hdmhgi] at hold
                    rw [List.countP_append] at hold ⊢
                    rw [getD_set_self dmh gi false false (by rw [hdmhlen]; exact hgd)]
                    simp only [Bool.false_eq_true, if_false]
                    omega
                  · have hhead : ¬(colP g (m₀, (qi, gi, false)) = true) := by
                      simp [colP]
                      exact fun h => hggi h.symm
                    simp only [List.map_cons, List.cons_append] at hold
                    rw [List.countP_cons_of_neg _ _ hhead] at hold
                    rw [List.countP_append] at hold ⊢
                    rw [getD_set_ne dmh gi g false false (fun h => hggi h.symm)]
                    omega
                · intro hg2 g hg1g hgdn hdm hlt
                  dsimp only at hdm hlt ⊢
                  by_cases hggi : g = gi
                  · subst hggi
                    rw [hiq₂gi] at hlt
                    omega
                  · rw [getD_set_ne dmh gi g false false
                      (fun h => hggi h.symm)] at hdm
                    rw [hiq₂ne g hggi] at hlt
                    obtain ⟨hα, hβ⟩ := hinv.hstall hg2 g hg1g hgdn hdm hlt
                    refine ⟨hα, ?_⟩
                    have hne1 : g - 1 ≠ gi := by
                      intro hgx
                      have hgeq : g = gi + 1 := by omega
                      rw [hgeq, hflag] at hdm
                      exact absurd hdm (by simp)
                    rw [hiq₂ne g hggi, hiq₂ne (g - 1) hne1]
                    exact hβ
            · by_cases ht : iq.getD (gi + 1) 0 < q.nterms
              · have hflagF : dmh.getD (gi + 1) false = false := by
                  simpa using hflag
                have ht_eq : iq.getD (gi + 1) 0 = qi := by
                  have h := (hinv.hstall hgate (gi + 1) (by omega) hgd2 hflagF ht).2
                  have hidx : gi + 1 - 1 = gi := by omega
                  rw [hidx] at h
                  rw [h]
                  exact hpos.symm
                have hge1c : div.exponents_back (gi + 1) = some (div.backRow (gi + 1)) :=
                  exponents_back_eq hdl hgd2
                have hkey₃lt : cmp_exponents
                    (add_exponents (q.exponents.getD qi []) (div.backRow (gi + 1))) m₀ = .lt := by
                  rw [hkey, cmp_exponents_add_left
                    (by rw [backRow_width hdl hdw hgd2, backRow_width hdl hdw hgd])
                    (by rw [rowD_width hql hqw hqi, backRow_width hdl hdw hgd2])]
                  exact backRow_lt hdl hdchain (Nat.lt_succ_self gi) hgd2
                have hwfp₃ : divPairWf div q (iq.set gi (qi + 1))
                    (add_exponents (q.exponents.getD qi []) (div.backRow (gi + 1)))
                    (qi, gi + 1, false) := by
                  refine ⟨hqi, show 1 ≤ gi + 1 by omega, hgd2, rfl,
                    fun _ => ⟨?_, hgate⟩⟩
                  rw [hiq₂ne (gi + 1) (by omega), ht_eq]
                refine ⟨(insertDivPair cache
                    (add_exponents (q.exponents.getD qi []) (div.backRow (gi + 1)))
                    (qi, gi + 1, false), (dmh.set gi false).set (gi + 1) true,
                    iq.set gi (qi + 1)), ?_, ?_, ?_,
                  insertDivPair_sorted hsort, insertDivPair_entries hne, ?_⟩
                · simp only [heap_division_drain, hqc, hdc, hadv, hgd2, hqe,
                    hge1c, hflagel, hflag, htel, ht, Option.bind_eq_bind,
                    Option.some_bind, Option.pure_def, Bool.false_eq_true,
                    if_false, if_true, eq_self_iff_true]
                · refine ⟨by rw [List.length_set, List.length_set]; exact hdmhlen,
                    hiq₂len, hiqle₂, ?_, ?_, ?_, hmono₂, hmode₂ _⟩
                  · intro x hx
                    dsimp only at hx
                    rcases List.mem_append.mp hx with hx₂ | hx₂
                    · exact hwfold x (List.mem_append_left _ hx₂)
                    · rcases mem_allPairs_insertDivPair hx₂ with hx₃ | hx₃
                      · exact hwfold x (List.mem_append_right _ hx₃)
                      · subst hx₃
                        exact hwfp₃
                  · intro g hg
                    dsimp only
                    have hold := hinv.hcount g hg
                    by_cases hggi : g = gi
                    · rw [hggi] at hold ⊢
                      simp only [List.map_cons, List.cons_append] at hold
                      rw [List.countP_cons_of_pos _ _ hheadpos, if_pos hdmhgi] at hold
                      rw [List.countP_append] at hold ⊢
                      rw [countP_insertDivPair_colP,
                        getD_set_ne (dmh.set gi false) (gi + 1) gi true false (by omega),
                        getD_set_self dmh gi false false (by rw [hdmhlen]; exact hgd)]
                      rw [if_neg (show ¬((!false && gi + 1 == gi) = true) from by
                        simp only [Bool.not_false, Bool.true_and, beq_iff_eq]
                        omega), add_zero]
                      simp only [Bool.false_eq_true, if_false]
                      omega
                    · by_cases hggi1 : g = gi + 1
                      · subst hggi1
                        have hhead : ¬(colP (gi + 1) (m₀, (qi, gi, false)) = true) := by
                          simp [colP]
                        simp only [List.map_cons, List.cons_append] at hold
                        rw [List.countP_cons_of_neg _ _ hhead, hflagF] at hold
                        rw [List.countP_append] at hold ⊢
                        rw [countP_insertDivPair_colP,
                          getD_set_self (dmh.set gi false) (gi + 1) true false
                            (by rw [List.length_set, hdmhlen]; exact hgd2)]
                        simp only [Bool.not_false, Bool.true_and, beq_self_eq_true,
                          if_true, Bool.false_eq_true, if_false] at hold ⊢
                        omega
                      · have hhead : ¬(colP g (m₀, (qi, gi, false)) = true) := by
                          simp [colP]
                          exact fun h => hggi h.symm
                        simp only [List.map_cons, List.cons_append] at hold
                        rw [List.countP_cons_of_neg _ _ hhead] at hold
                        rw [List.countP_append] at hold ⊢
                        rw [countP_insertDivPair_colP,
                          getD_set_ne (dmh.set gi false) (gi + 1) g true false
                            (fun h => hggi1 h.symm),
                          getD_set_ne dmh gi g false false
                            (fun h => hggi h.symm)]
                        rw [if_neg (show ¬((!false && gi + 1 == g) = true) from by
                          simp only [Bool.not_false, Bool.true_and, beq_iff_eq]
                          exact fun h => hggi1 h.symm), add_zero]
                        omega
                  · intro hg2 g hg1g hgdn hdm hlt
                    dsimp only at hdm hlt ⊢
                    by_cases hggi : g = gi
                    · subst hggi
                      rw [hiq₂gi] at hlt
                      omega
                    · by_cases hggi1 : g = gi + 1
                      · subst hggi1
                        rw [getD_set_self (dmh.set gi false) (gi + 1) true false
                          (by rw [List.length_set, hdmhlen]; exact hgd2)] at hdm
                        exact absurd hdm (by simp)
                      · rw [getD_set_ne (dmh.set gi false) (gi + 1) g true false
                            (fun h => hggi1 h.symm),
                          getD_set_ne dmh gi g false false
                            (fun h => hggi h.symm)] at hdm
                        rw [hiq₂ne g hggi] at hlt
                        obtain ⟨hα, hβ⟩ := hinv.hstall hg2 g hg1g hgdn hdm hlt
                        refine ⟨hα, ?_⟩
                        have hne1 : g - 1 ≠ gi := by omega
                        rw [hiq₂ne g hggi, hiq₂ne (g - 1) hne1]
                        exact hβ
                · intro key hk
                  dsimp only at hk
                  rcases insertDivPair_keys cache _ _ key hk with hk₂ | hk₂
                  · exact hbound key hk₂
                  · subst hk₂
                    exact hkey₃lt
                · intro m
                  dsimp only
                  rw [cacheFut_insertDivPair, hpfhead m, hcolset m, ← hqg m]
                  have hz₃ : pairFut div q (qi, gi + 1, false) m = 0 := by
                    simp [pairFut]
                  rw [hz₃]
                  ring
              · refine ⟨(cache, dmh.set gi false, iq.set gi (qi + 1)), ?_, ?_,
                  hbound, hsort, hne, hdelta₀⟩
                · simp only [heap_division_drain, hqc, hdc, hadv, hgd2, hflagel,
                    hflag, htel, ht, Option.bind_eq_bind, Option.some_bind,
                    Option.pure_def, Bool.false_eq_true, if_false, if_true,
                    eq_self_iff_true]
                · refine ⟨by rw [List.length_set]; exact hdmhlen, hiq₂len, hiqle₂,
                    hwfmix₀, ?_, ?_, hmono₂, hmode₂ _⟩
                  · intro g hg
                    dsimp only
                    have hold := hinv.hcount g hg
                    by_cases hggi : g = gi
                    · rw [hggi] at hold ⊢
                      simp only [List.map_cons, List.cons_append] at hold
                      rw [List.countP_cons_of_pos _ _ hheadpos, if_pos hdmhgi] at hold
                      rw [List.countP_append] at hold ⊢
                      rw [getD_set_self dmh gi false false (by rw [hdmhlen]; exact hgd)]
                      simp only [Bool.false_eq_true, if_false]
                      omega
                    · have hhead : ¬(colP g (m₀, (qi, gi, false)) = true) := by
                        simp [colP]
                        exact fun h => hggi h.symm
                      simp only [List.map_cons, List.cons_append] at hold
                      rw [List.countP_cons_of_neg _ _ hhead] at hold
                      rw [List.countP_append] at hold ⊢
                      rw [getD_set_ne dmh gi g false false (fun h => hggi h.symm)]
                      omega
                  · intro hg2 g hg1g hgdn hdm hlt
                    dsimp only at hdm hlt ⊢
                    by_cases hggi : g = gi
                    · subst hggi
                      rw [hiq₂gi] at hlt
                      omega
                    · rw [getD_set_ne dmh gi g false false
                        (fun h => hggi h.symm)] at hdm
                      rw [hiq₂ne g hggi] at hlt
                      obtain ⟨hα, hβ⟩ := hinv.hstall hg2 g hg1g hgdn hdm hlt
                      refine ⟨hα, ?_⟩
                      have hne1 : g - 1 ≠ gi := by
                        intro hgx
                        have hgeq : g = gi + 1 := by omega
                        rw [hgeq] at hlt
                        omega
                      rw [hiq₂ne g hggi, hiq₂ne (g - 1) hne1]
                      exact hβ
          · refine ⟨(cache, dmh.set gi false, iq.set gi (qi + 1)), ?_, ?_,
              hbound, hsort, hne, hdelta₀⟩
            · simp only [heap_division_drain, hqc, hdc, hadv, hgd2,
                Option.bind_eq_bind, Option.some_bind, Option.pure_def,
                Bool.false_eq_true, if_false, if_true, eq_self_iff_true]
            · refine ⟨by rw [List.length_set]; exact hdmhlen, hiq₂len, hiqle₂,
                hwfmix₀, ?_, ?_, hmono₂, hmode₂ _⟩
              · intro g hg
                dsimp only
                have hold := hinv.hcount g hg
                by_cases hggi : g = gi
                · rw [hggi] at hold ⊢
                  simp only [List.map_cons, List.cons_append] at hold
                  rw [List.countP_cons_of_pos _ _ hheadpos, if_pos hdmhgi] at hold
                  rw [List.countP_append] at hold ⊢
                  rw [getD_set_self dmh gi false false (by rw [hdmhlen]; exact hgd)]
                  simp only [Bool.false_eq_true, if_false]
                  omega
                · have hhead : ¬(colP g (m₀, (qi, gi, false)) = true) := by
                    simp [colP]
                    exact fun h => hggi h.symm
                  simp only [List.map_cons, List.cons_append] at hold
                  rw [List.countP_cons_of_neg _ _ hhead] at hold
                  rw [List.countP_append] at hold ⊢
                  rw [getD_set_ne dmh gi g false false (fun h => hggi h.symm)]
                  omega
              · intro hg2 g hg1g hgdn hdm hlt
                dsimp only at hdm hlt ⊢
                by_cases hggi : g = gi
                · subst hggi
                  rw [hiq₂gi] at hlt
                  omega
                · rw [getD_set_ne dmh gi g false false
                    (fun h => hggi h.symm)] at hdm
                  rw [hiq₂ne g hggi] at hlt
                  obtain ⟨hα, hβ⟩ := hinv.hstall hg2 g hg1g hgdn hdm hlt
                  refine ⟨hα, ?_⟩
                  have hne1 : g - 1 ≠ gi := by omega
                  rw [hiq₂ne g hggi, hiq₂ne (g - 1) hne1]
                  exact hβ
    obtain ⟨cd, hstep, hinv₂, hbound₂, hsort₂, hne₂, hdelta⟩ := hstate
    obtain ⟨out, hout, hinv₃, hbound₃, hsort₃, hne₃, hsum⟩ :=
      ih cd.1 cd.2.1 cd.2.2 (c - q.coefficients.getD qi 0 * div.backCoeff gi)
        hinv₂ hbound₂ hsort₂ hne₂
    refine ⟨out, by rw [hstep]; exact hout, hinv₃, hbound₃, hsort₃, hne₃, ?_⟩
    intro m
    have h1 := hsum m
    have h2 := hdelta m
    rw [List.map_cons, List.sum_cons]
    by_cases hm : m₀ = m
    · rw [if_pos hm] at h1 h2 ⊢
      linear_combination h1 + h2
    · rw [if_neg hm] at h1 h2 ⊢
      linear_combination h1 + h2

theorem allPairs_cons (k : Row) (prs : List (Nat × Nat × Bool)) (rest : DivCache) :
    allPairs ((k, prs) :: rest) = prs.map (fun pr => (k, pr)) ++ allPairs rest := by
  simp [allPairs]

theorem cacheFut_cons (div q : MultivariatePolynomial α) (k : Row)
    (prs : List (Nat × Nat × Bool)) (rest : DivCache) (m : Row) :
    cacheFut div q ((k, prs) :: rest) m =
      (prs.map (fun pr => pairFut div q pr m)).sum + cacheFut div q rest m := by
  unfold cacheFut
  rw [allPairs_cons, List.map_append, List.sum_append, List.map_map]
  rfl

end MultivariatePolynomial

theorem getD_append_last {β : Type} (l : List β) (e d : β) :
    (l ++ [e]).getD l.length d = e := by
  rw [List.getD_eq_getElem?_getD, List.getElem?_append_right (le_refl _)]
  simp

namespace MultivariatePolynomial

theorem last_exponents_eq {p : MultivariatePolynomial α}
    (hlen : p.coefficients.length = p.exponents.length) (h : 0 < p.nterms) :
    p.last_exponents = some (p.backRow 0) := by
  unfold last_exponents backRow
  have hlp : 0 < p.exponents.length := by unfold nterms at h; omega
  rw [List.getLast?_eq_getElem?,
    getElem?_eq_some_getD [] (by omega)]
  congr 2
  unfold nterms
  omega

theorem lcoeff_eq {p : MultivariatePolynomial α} (h : 0 < p.nterms) :
    p.lcoeff = p.backCoeff 0 := by
  unfold lcoeff backCoeff
  have hlp : 0 < p.coefficients.length := h
  rw [List.getLast?_eq_getElem?, getElem?_eq_some_getD 0 (by omega)]
  unfold nterms
  simp

theorem exponents_back_some {p : MultivariatePolynomial α} {i : Nat} {e : Row}
    (hlen : p.coefficients.length = p.exponents.length)
    (h : p.exponents_back i = some e) : i < p.nterms ∧ e = p.backRow i := by
  by_cases hi : i < p.nterms
  · rw [exponents_back_eq hlen hi] at h
    exact ⟨hi, (Option.some.injEq _ _).mp h.symm⟩
  · unfold exponents_back at h
    rw [if_neg hi] at h
    exact absurd h (by simp)

theorem coefficient_back_some {p : MultivariatePolynomial α} {i : Nat} {c : α}
    (h : p.coefficient_back i = some c) : i < p.nterms ∧ c = p.backCoeff i := by
  by_cases hi : i < p.nterms
  · rw [coefficient_back_eq hi] at h
    exact ⟨hi, (Option.some.injEq _ _).mp h.symm⟩
  · unfold coefficient_back at h
    rw [if_neg hi] at h
    exact absurd h (by simp)

theorem dominates_add : ∀ {x g : Row}, x.length = g.length →
    dominates (add_exponents x g) g = true := by
  intro x
  induction x with
  | nil =>
    intro g hl
    have : g = [] := List.length_eq_zero.mp (by simpa using hl.symm)
    subst this
    rfl
  | cons a xs ih =>
    intro g hl
    cases g with
    | nil => simp at hl
    | cons b gs =>
      simp only [add_exponents, List.zipWith_cons_cons]
      rw [dominates_cons]
      simp only [Bool.and_eq_true, decide_eq_true_eq]
      exact ⟨by omega, ih (by simpa using hl)⟩

theorem chain_desc_push {q : MultivariatePolynomial α} {e : Row}
    (hql : q.coefficients.length = q.exponents.length)
    (hqdesc : q.exponents.Chain' (fun x y => cmp_exponents y x = .lt))
    (hlt : 0 < q.nterms →
      cmp_exponents e (q.exponents.getD (q.nterms - 1) []) = .lt) :
    (q.exponents ++ [e]).Chain' (fun x y => cmp_exponents y x = .lt) := by
  rw [List.chain'_append]
  refine ⟨hqdesc, List.chain'_singleton e, ?_⟩
  intro x hx y hy
  simp only [List.head?_cons, Option.mem_def, Option.some.injEq] at hy
  subst hy
  have hne : q.exponents ≠ [] := by
    intro hnil
    rw [hnil] at hx
    simp at hx
  have hpos : 0 < q.nterms := by
    unfold nterms
    rw [hql]
    exact List.length_pos.mpr hne
  have hlp : 0 < q.exponents.length := List.length_pos.mpr hne
  have hxe : x = q.exponents.getD (q.nterms - 1) [] := by
    rw [List.getLast?_eq_getElem?, getElem?_eq_some_getD [] (by omega)] at hx
    simp only [Option.mem_def, Option.some.injEq] at hx
    rw [← hx]
    congr 1
    unfold nterms
    omega
  rw [hxe]
  exact hlt hpos

theorem cache_key_width {a div q : MultivariatePolynomial α} {iq : List Nat}
    (hql : q.coefficients.length = q.exponents.length)
    (hqw : ∀ r ∈ q.exponents, r.length = a.nvars)
    (hdl : div.coefficients.length = div.exponents.length)
    (hdw : ∀ r ∈ div.exponents, r.length = a.nvars)
    {key : Row} {pr : Nat × Nat × Bool}
    (hwf : divPairWf div q iq key pr) : key.length = a.nvars := by
  obtain ⟨h1, _, h3, h4, _⟩ := hwf
  rw [h4, add_exponents_length, rowD_width hql hqw h1,
    backRow_width hdl hdw h3]
  simp

theorem exists_pair_of_mem_keys {cache : DivCache} {key : Row}
    (hne : ∀ e ∈ cache, e.2 ≠ [])
    (h : key ∈ cache.map Prod.fst) : ∃ pr, (key, pr) ∈ allPairs cache := by
  rcases List.mem_map.mp h with ⟨e, he, rfl⟩
  rcases e with ⟨k, prs⟩
  cases prs with
  | nil => exact absurd rfl (hne _ he)
  | cons pr rest =>
    refine ⟨pr, List.mem_flatMap.mpr ⟨(k, pr :: rest), he, ?_⟩⟩
    exact List.mem_map.mpr ⟨pr, List.mem_cons_self _ _, rfl⟩

theorem heap_division_emit_spec {a div : MultivariatePolynomial α} {E : EuclOps α}
    (hcd : div.canonical) (hnva : div.nvars = a.nvars) (hdn : 2 ≤ div.nterms)
    {s : DivState α} {m : Row} {c₁ : α} {k' : Nat}
    {cache₂ : DivCache} {dmh₂ : List Bool} {iq₂ : List Nat}
    (hql : s.q.coefficients.length = s.q.exponents.length)
    (hqw : ∀ r ∈ s.q.exponents, r.length = a.nvars)
    (hqz : ∀ c ∈ s.q.coefficients, c ≠ 0)
    (hqdesc : s.q.exponents.Chain' (fun x y => cmp_exponents y x = .lt))
    (hrl : s.r.coefficients.length = s.r.exponents.length)
    (hrw : ∀ x ∈ s.r.exponents, x.length = a.nvars)
    (hrz : ∀ c ∈ s.r.coefficients, c ≠ 0)
    (hrdesc : s.r.exponents.Chain' (fun x y => cmp_exponents y x = .lt))
    (hqnv : s.q.nvars = a.nvars)
    (hrnv : s.r.nvars = a.nvars)
    (hminv : HeapInv div s.q (allPairs cache₂) dmh₂ iq₂)
    (hbound : ∀ key ∈ cache₂.map Prod.fst, cmp_exponents key m = .lt)
    (hsort : (cache₂.map Prod.fst).Chain' (fun x y => cmp_exponents y x = .lt))
    (hcne : ∀ e ∈ cache₂, e.2 ≠ [])
    (hkle : k' ≤ a.nterms)
    (hunread : k' < a.nterms → cmp_exponents (a.backRow k') m = .lt)
    (hmw : m.length = a.nvars)
    (hqf : 0 < s.q.nterms → cmp_exponents m
      (add_exponents (s.q.exponents.getD (s.q.nterms - 1) []) (div.backRow 0)) = .lt)
    (hrf : 0 < s.r.nterms →
      cmp_exponents m (s.r.exponents.getD (s.r.nterms - 1) []) = .lt)
    (hsum : ∀ m₂, pulledA a k' m₂ +
      cacheFut div s.q cache₂ m₂ + colFut div s.q iq₂ m₂ =
      qLead div s.q m₂ + qTail div s.q m₂ + s.r.coeffOf m₂ +
      (if m = m₂ then c₁ else 0)) :
    ∃ t, heap_division_emit E div s m c₁ k' cache₂ dmh₂ iq₂ = some t ∧
      (t = Sum.inr () ∨ ∃ s₂, t = Sum.inl s₂ ∧ DivLoopInv a div s₂) := by
  obtain ⟨⟨hdl, hdw0⟩, hdz, hdchain⟩ := hcd
  have hdw : ∀ r ∈ div.exponents, r.length = a.nvars := by
    intro r hr
    rw [← hnva]
    exact hdw0 r hr
  have hdpos : 0 < div.nterms := by omega
  have hge : div.last_exponents = some (div.backRow 0) := last_exponents_eq hdl hdpos
  have hlcb : div.lcoeff = div.backCoeff 0 := lcoeff_eq hdpos
  have hge0w : (div.backRow 0).length = a.nvars := backRow_width hdl hdw hdpos
  have hlcz : div.lcoeff ≠ 0 := by
    rw [hlcb]
    unfold backCoeff
    exact hdz _ (getD_mem 0 (by unfold nterms at hdpos ⊢; omega))
  have h1len : (1 : Nat) < dmh₂.length := by rw [hminv.hdmh]; omega
  simp only [heap_division_emit, hge, Option.bind_eq_bind, Option.some_bind,
    Option.pure_def]
  by_cases hc : c₁ = 0
  · rw [if_neg (fun h => h hc)]
    refine ⟨_, rfl, Or.inr ⟨_, rfl, ?_⟩⟩
    refine ⟨hql, hqw, hqz, hqdesc, hrl, hrw, hrz, hrdesc, hqnv, hrnv,
      hminv, hsort, hcne, hkle, ?_, ?_, ?_⟩
    all_goals dsimp only
    · intro m₂
      have h := hsum m₂
      rw [hc, ite_self, add_zero] at h
      exact h
    · intro h0
      exact ⟨fun key hkey => cmp_exponents_lt_trans (hbound key hkey) (hqf h0),
        fun hk2 => cmp_exponents_lt_trans (hunread hk2) (hqf h0)⟩
    · intro h0
      exact ⟨fun key hkey => cmp_exponents_lt_trans (hbound key hkey) (hrf h0),
        fun hk2 => cmp_exponents_lt_trans (hunread hk2) (hrf h0)⟩
  · rw [if_pos hc]
    by_cases hdom : dominates m (div.backRow 0) = true
    swap
    · rw [if_neg hdom]
      refine ⟨_, rfl, Or.inr ⟨_, rfl, ?_⟩⟩
      refine ⟨hql, hqw, hqz, hqdesc, ?_, ?_, ?_, ?_, hqnv, hrnv,
        hminv, hsort, hcne, hkle, ?_, ?_, ?_⟩
      all_goals dsimp only
      · show (s.r.coefficients ++ [c₁]).length = (s.r.exponents ++ [m]).length
        simp [hrl]
      · intro x hx
        have hx₂ : x ∈ s.r.exponents ++ [m] := hx
        rcases List.mem_append.mp hx₂ with h | h
        · exact hrw x h
        · rcases List.mem_singleton.mp h with rfl
          exact hmw
      · intro x hx
        have hx₂ : x ∈ s.r.coefficients ++ [c₁] := hx
        rcases List.mem_append.mp hx₂ with h | h
        · exact hrz x h
        · rcases List.mem_singleton.mp h with rfl
          exact hc
      · exact chain_desc_push hrl hrdesc hrf
      · intro m₂
        have h := hsum m₂
        show pulledA a k' m₂ + cacheFut div s.q cache₂ m₂ + colFut div s.q iq₂ m₂ =
          qLead div s.q m₂ + qTail div s.q m₂ + (s.r.pushTerm c₁ m).coeffOf m₂
        rw [pushTerm_coeffOf hrl c₁ m m₂]
        linear_combination h
      · intro h0
        exact ⟨fun key hkey => cmp_exponents_lt_trans (hbound key hkey) (hqf h0),
          fun hk2 => cmp_exponents_lt_trans (hunread hk2) (hqf h0)⟩
      · intro h0
        have hfr : (s.r.exponents ++ [m]).getD
            ((s.r.pushTerm c₁ m).nterms - 1) [] = m := by
          rw [pushTerm_nterms]
          have hix : s.r.nterms + 1 - 1 = s.r.exponents.length := by
            unfold nterms at *
            omega
          rw [hix]
          exact getD_append_last _ _ _
        refine ⟨?_, ?_⟩
        · intro key hkey
          show cmp_exponents key ((s.r.exponents ++ [m]).getD
            ((s.r.pushTerm c₁ m).nterms - 1) []) = .lt
          rw [hfr]
          exact hbound key hkey
        · intro hk2
          show cmp_exponents (a.backRow k') ((s.r.exponents ++ [m]).getD
            ((s.r.pushTerm c₁ m).nterms - 1) []) = .lt
          rw [hfr]
          exact hunread hk2
    · rw [if_pos hdom]
      by_cases hqr2 : (E.quotRem c₁ div.lcoeff).2 ≠ 0
      · rw [if_pos hqr2]
        exact ⟨_, rfl, Or.inl rfl⟩
      · rw [if_neg hqr2, if_neg (show ¬(div.nterms = 1) by omega)]
        have hqr2z : (E.quotRem c₁ div.lcoeff).2 = 0 := by
          by_contra h
          exact hqr2 h
        set qv : α := (E.quotRem c₁ div.lcoeff).1 with hqvdef
        set qe₂ : Row := sub_exponents m (div.backRow 0) with hqe2def
        have hqlast : (s.q.pushTerm qv qe₂).exponents.getLast? = some qe₂ := by
          show (s.q.exponents ++ [qe₂]).getLast? = some qe₂
          simp
        rw [hqlast, exponents_back_eq hdl (show (1 : Nat) < div.nterms by omega)]
        simp only [Option.bind_eq_bind, Option.some_bind]
        set q₂ : MultivariatePolynomial α := s.q.pushTerm qv qe₂ with hq2def
        have hgml : (div.backRow 0).length = m.length := by rw [hge0w, hmw]
        have hqv : qv * div.backCoeff 0 = c₁ := by
          have h := E.quot_mul_add c₁ div.lcoeff hlcz
          rw [hqr2z, add_zero] at h
          rw [← hlcb]
          exact h
        have hqvz : qv ≠ 0 := by
          intro h
          rw [h, zero_mul] at hqv
          exact hc hqv.symm
        have hsubadd : add_exponents qe₂ (div.backRow 0) = m :=
          add_sub_of_dominates hdom hgml
        have hqe2w : qe₂.length = a.nvars := by
          rw [hqe2def, sub_exponents_length, hmw, hge0w]
          simp
        have hq2nt : q₂.nterms = s.q.nterms + 1 := pushTerm_nterms _ _ _
        have hq2l : q₂.coefficients.length = q₂.exponents.length := by
          show (s.q.coefficients ++ [qv]).length = (s.q.exponents ++ [qe₂]).length
          simp [hql]
        have hq2w : ∀ r ∈ q₂.exponents, r.length = a.nvars := by
          intro r hr
          have hr₂ : r ∈ s.q.exponents ++ [qe₂] := hr
          rcases List.mem_append.mp hr₂ with h | h
          · exact hqw r h
          · rcases List.mem_singleton.mp h with rfl
            exact hqe2w
        have hq2z : ∀ x ∈ q₂.coefficients, x ≠ 0 := by
          intro x hx
          have hx₂ : x ∈ s.q.coefficients ++ [qv] := hx
          rcases List.mem_append.mp hx₂ with h | h
          · exact hqz x h
          · rcases List.mem_singleton.mp h with rfl
            exact hqvz
        have hqe2lt : 0 < s.q.nterms →
            cmp_exponents qe₂ (s.q.exponents.getD (s.q.nterms - 1) []) = .lt := by
          intro h0
          have hqlw : (s.q.exponents.getD (s.q.nterms - 1) []).length = a.nvars :=
            rowD_width hql hqw (by omega)
          have hcadd := @cmp_exponents_add_right qe₂
            (s.q.exponents.getD (s.q.nterms - 1) []) (div.backRow 0)
            (by rw [hqe2w, hqlw]) (by rw [hge0w, hqe2w])
          rw [hsubadd] at hcadd
          rw [← hcadd]
          exact hqf h0
        have hq2desc : q₂.exponents.Chain' (fun x y => cmp_exponents y x = .lt) :=
          chain_desc_push hql hqdesc hqe2lt
        have hq2getD : q₂.exponents.getD s.q.nterms [] = qe₂ := by
          show (s.q.exponents ++ [qe₂]).getD s.q.nterms [] = qe₂
          have hix : s.q.nterms = s.q.exponents.length := hql
          rw [hix]
          exact getD_append_last _ _ _
        have hq2getDc : q₂.coefficients.getD s.q.nterms 0 = qv := by
          show (s.q.coefficients ++ [qv]).getD s.q.nterms 0 = qv
          exact getD_append_last _ _ _
        have hq2getDold : ∀ i, i < s.q.nterms →
            q₂.exponents.getD i [] = s.q.exponents.getD i [] := by
          intro i hi
          show (s.q.exponents ++ [qe₂]).getD i [] = _
          exact getD_append_left [] (by rw [← hql]; exact hi)
        have hqgP0 : ∀ m₂, qgProd div q₂ s.q.nterms 0 m₂ =
            (if m = m₂ then c₁ else 0) := by
          intro m₂
          unfold qgProd
          rw [hq2getD, hq2getDc, hsubadd, hqv]
        have hqlead : ∀ m₂, qLead div q₂ m₂ =
            qLead div s.q m₂ + (if m = m₂ then c₁ else 0) := by
          intro m₂
          rw [hq2def, qLead_push hql, ← hq2def, hqgP0]
        have hqtail : ∀ m₂, qTail div q₂ m₂ = qTail div s.q m₂ +
            (Finset.Ico 1 div.nterms).sum
              (fun g => qgProd div q₂ s.q.nterms g m₂) := by
          intro m₂
          rw [hq2def, qTail_push hql, ← hq2def]
        have hcwf : ∀ pr ∈ allPairs cache₂, pr.2.1 < s.q.nterms :=
          fun pr hpr => (hminv.hwf pr hpr).1
        have hcpush : ∀ m₂, cacheFut div q₂ cache₂ m₂ =
            cacheFut div s.q cache₂ m₂ := by
          intro m₂
          rw [hq2def]
          exact cacheFut_push hcwf hql m₂
        have hgb1w : (div.backRow 1).length = a.nvars :=
          backRow_width hdl hdw (by omega)
        have hkeylt : cmp_exponents (add_exponents qe₂ (div.backRow 1)) m = .lt := by
          have h1 : cmp_exponents (add_exponents qe₂ (div.backRow 1))
              (add_exponents qe₂ (div.backRow 0)) =
              cmp_exponents (div.backRow 1) (div.backRow 0) :=
            cmp_exponents_add_left (by rw [hgb1w, hge0w]) (by rw [hqe2w, hgb1w])
          rw [hsubadd] at h1
          rw [h1]
          exact backRow_lt hdl hdchain (by omega) (by omega)
        have hB2 : add_exponents (q₂.exponents.getD (q₂.nterms - 1) [])
            (div.backRow 0) = m := by
          rw [hq2nt]
          have hix : s.q.nterms + 1 - 1 = s.q.nterms := by omega
          rw [hix, hq2getD, hsubadd]
        have hwfup : ∀ x ∈ allPairs cache₂,
            x.2.1 < q₂.nterms ∧ 1 ≤ x.2.2.1 ∧ x.2.2.1 < div.nterms ∧
            x.1 = add_exponents (q₂.exponents.getD x.2.1 []) (div.backRow x.2.2.1) := by
          intro x hx
          obtain ⟨h1, h2, h3, h4, _⟩ := hminv.hwf x hx
          exact ⟨by rw [hq2nt]; omega, h2, h3, by rw [hq2getDold _ h1]; exact h4⟩
        rw [hq2nt]
        simp only [Nat.add_sub_cancel]
        by_cases hA : s.q.nterms + 1 < div.nterms
        · rw [if_pos hA]
          refine ⟨_, rfl, Or.inr ⟨_, rfl, ?_⟩⟩
          have hmodeA := hminv.hmode (by omega)
          refine ⟨hq2l, hq2w, hq2z, hq2desc, hrl, hrw, hrz, hrdesc, hqnv,
            hrnv, ?_,
            insertDivPair_sorted hsort, insertDivPair_entries hcne, hkle,
            ?_, ?_, ?_⟩
          all_goals dsimp only
          · refine ⟨hminv.hdmh, hminv.hiq, ?_, ?_, ?_, ?_, ?_, ?_⟩
            · intro g
              have := hminv.hiqle g
              rw [hq2nt]
              omega
            · intro x hx
              rcases mem_allPairs_insertDivPair hx with h | h
              · obtain ⟨h1, h2, h3, h4⟩ := hwfup x h
                refine ⟨h1, h2, h3, h4, ?_⟩
                intro hf
                obtain ⟨hb1, hb2⟩ := (hminv.hwf x h).2.2.2.2 hf
                exact ⟨hb1, by rw [hq2nt]; omega⟩
              · rw [h]
                dsimp only [divPairWf]
                refine ⟨by rw [hq2nt]; omega, le_refl 1, by omega,
                  by rw [hq2getD], ?_⟩
                intro hf
                exact absurd hf (by simp)
            · intro g hg
              rw [countP_insertDivPair_colP]
              simp only [Bool.not_true, Bool.false_and, Bool.false_eq_true,
                if_false, add_zero]
              exact hminv.hcount g hg
            · intro hgate
              rw [hq2nt] at hgate
              exact absurd hgate (by omega)
            · intro hgate
              rw [hq2nt] at hgate
              exact absurd hgate (by omega)
            · intro _ g
              exact hmodeA g
          · intro m₂
            have h := hsum m₂
            rw [colFut_off (show s.q.nterms < div.nterms by omega) m₂] at h
            show pulledA a k' m₂ + cacheFut div q₂
                (insertDivPair cache₂ (add_exponents qe₂ (div.backRow 1))
                  (s.q.nterms, 1, true)) m₂ + colFut div q₂ iq₂ m₂ =
              qLead div q₂ m₂ + qTail div q₂ m₂ + s.r.coeffOf m₂
            rw [cacheFut_insertDivPair]
            have hpf : pairFut div q₂ (s.q.nterms, 1, true) m₂ =
                (Finset.Ico 1 div.nterms).sum
                  (fun g => qgProd div q₂ s.q.nterms g m₂) := by
              unfold pairFut trueFut
              rw [if_pos rfl]
            rw [hpf, hcpush m₂,
              colFut_off (show q₂.nterms < div.nterms by rw [hq2nt]; omega) m₂,
              hqlead m₂, hqtail m₂]
            linear_combination h
          · intro h0
            refine ⟨?_, ?_⟩
            · intro key hkey
              show cmp_exponents key (add_exponents
                (q₂.exponents.getD (q₂.nterms - 1) []) (div.backRow 0)) = .lt
              rw [hB2]
              rcases insertDivPair_keys cache₂ _ _ key hkey with h | h
              · exact hbound key h
              · rw [h]
                exact hkeylt
            · intro hk2
              show cmp_exponents (a.backRow k') (add_exponents
                (q₂.exponents.getD (q₂.nterms - 1) []) (div.backRow 0)) = .lt
              rw [hB2]
              exact hunread hk2
          · intro h0
            refine ⟨?_, ?_⟩
            · intro key hkey
              rcases insertDivPair_keys cache₂ _ _ key hkey with h | h
              · exact cmp_exponents_lt_trans (hbound key h) (hrf h0)
              · rw [h]
                exact cmp_exponents_lt_trans hkeylt (hrf h0)
            · intro hk2
              exact cmp_exponents_lt_trans (hunread hk2) (hrf h0)
        · rw [if_neg hA]
          by_cases hB : div.nterms < s.q.nterms + 1
          · rw [if_pos hB]
            have hgate : div.nterms ≤ s.q.nterms := by omega
            have hdmh1 : dmh₂[1]? = some (dmh₂.getD 1 false) :=
              getElem?_eq_some_getD false h1len
            rw [hdmh1]
            simp only [Option.bind_eq_bind, Option.some_bind]
            by_cases hflag : dmh₂.getD 1 false = true
            · rw [if_pos hflag]
              refine ⟨_, rfl, Or.inr ⟨_, rfl, ?_⟩⟩
              refine ⟨hq2l, hq2w, hq2z, hq2desc, hrl, hrw, hrz, hrdesc,
                hqnv, hrnv, ?_,
                hsort, hcne, hkle, ?_, ?_, ?_⟩
              all_goals dsimp only
              · refine ⟨hminv.hdmh, hminv.hiq, ?_, ?_,
                  (fun g hg => hminv.hcount g hg), ?_, ?_, ?_⟩
                · intro g
                  have := hminv.hiqle g
                  rw [hq2nt]
                  omega
                · intro x hx
                  obtain ⟨h1, h2, h3, h4⟩ := hwfup x hx
                  refine ⟨h1, h2, h3, h4, ?_⟩
                  intro hf
                  obtain ⟨hb1, hb2⟩ := (hminv.hwf x hx).2.2.2.2 hf
                  exact ⟨hb1, by rw [hq2nt]; omega⟩
                · intro _ g hg1 hgd hdm hlt2
                  rw [hq2nt] at hlt2
                  by_cases hio : iq₂.getD g 0 < s.q.nterms
                  · exact hminv.hstall hgate g hg1 hgd hdm hio
                  · have hgeq : iq₂.getD g 0 = s.q.nterms := by
                      have := hminv.hiqle g
                      omega
                    have hg2 : 2 ≤ g := by
                      by_contra hgg
                      have hg1e : g = 1 := by omega
                      rw [hg1e] at hdm
                      rw [hdm] at hflag
                      exact Bool.noConfusion hflag
                    refine ⟨hg2, ?_⟩
                    have hmo := hminv.hmono hgate g hg2 hgd
                    have hle := hminv.hiqle (g - 1)
                    omega
                · intro _ g hg2 hgd
                  exact hminv.hmono hgate g hg2 hgd
                · intro hmode2
                  rw [hq2nt] at hmode2
                  exact absurd hmode2 (by omega)
              · intro m₂
                have h := hsum m₂
                show pulledA a k' m₂ + cacheFut div q₂ cache₂ m₂ +
                    colFut div q₂ iq₂ m₂ =
                  qLead div q₂ m₂ + qTail div q₂ m₂ + s.r.coeffOf m₂
                have hcol : colFut div q₂ iq₂ m₂ = colFut div s.q iq₂ m₂ +
                    (Finset.Ico 1 div.nterms).sum
                      (fun g => qgProd div q₂ s.q.nterms g m₂) := by
                  rw [hq2def]
                  exact colFut_push_on hgate hminv.hiqle hql m₂
                rw [hcol, hcpush m₂, hqlead m₂, hqtail m₂]
                linear_combination h
              · intro h0
                refine ⟨?_, ?_⟩
                · intro key hkey
                  show cmp_exponents key (add_exponents
                    (q₂.exponents.getD (q₂.nterms - 1) []) (div.backRow 0)) = .lt
                  rw [hB2]
                  exact hbound key hkey
                · intro hk2
                  show cmp_exponents (a.backRow k') (add_exponents
                    (q₂.exponents.getD (q₂.nterms - 1) []) (div.backRow 0)) = .lt
                  rw [hB2]
                  exact hunread hk2
              · intro h0
                exact ⟨fun key hkey =>
                    cmp_exponents_lt_trans (hbound key hkey) (hrf h0),
                  fun hk2 => cmp_exponents_lt_trans (hunread hk2) (hrf h0)⟩
            · rw [if_neg hflag]
              have hflagf : dmh₂.getD 1 false = false := by
                revert hflag
                cases dmh₂.getD 1 false <;> simp
              have hiq1 : iq₂.getD 1 0 = s.q.nterms := by
                by_cases hio : iq₂.getD 1 0 < s.q.nterms
                · obtain ⟨h2, _⟩ :=
                    hminv.hstall hgate 1 (le_refl 1) (by omega) hflagf hio
                  omega
                · have := hminv.hiqle 1
                  omega
              refine ⟨_, rfl, Or.inr ⟨_, rfl, ?_⟩⟩
              refine ⟨hq2l, hq2w, hq2z, hq2desc, hrl, hrw, hrz, hrdesc,
                hqnv, hrnv, ?_,
                insertDivPair_sorted hsort, insertDivPair_entries hcne, hkle,
                ?_, ?_, ?_⟩
              all_goals dsimp only
              · refine ⟨?_, hminv.hiq, ?_, ?_, ?_, ?_, ?_, ?_⟩
                · rw [List.length_set]
                  exact hminv.hdmh
                · intro g
                  have := hminv.hiqle g
                  rw [hq2nt]
                  omega
                · intro x hx
                  rcases mem_allPairs_insertDivPair hx with h | h
                  · obtain ⟨h1, h2, h3, h4⟩ := hwfup x h
                    refine ⟨h1, h2, h3, h4, ?_⟩
                    intro hf
                    obtain ⟨hb1, hb2⟩ := (hminv.hwf x h).2.2.2.2 hf
                    exact ⟨hb1, by rw [hq2nt]; omega⟩
                  · rw [h]
                    dsimp only [divPairWf]
                    refine ⟨by rw [hq2nt]; omega, le_refl 1, by omega,
                      by rw [hq2getD], ?_⟩
                    intro _
                    exact ⟨hiq1.symm, by rw [hq2nt]; omega⟩
                · intro g hg
                  rw [countP_insertDivPair_colP]
                  by_cases hgg : g = 1
                  · subst hgg
                    rw [hminv.hcount 1 (le_refl 1), hflagf,
                      getD_set_self dmh₂ 1 true false h1len]
                    simp
                  · have hne1 : ((!false && (1 : Nat) == g)) = false := by
                      have hgn : (1 : Nat) ≠ g := fun h => hgg h.symm
                      simp [hgn]
                    rw [hne1, hminv.hcount g hg,
                      getD_set_ne dmh₂ 1 g true false (fun h => hgg h.symm)]
                    simp
                · intro _ g hg1 hgd hdm3 hlt2
                  rw [hq2nt] at hlt2
                  by_cases hgg : g = 1
                  · subst hgg
                    rw [getD_set_self dmh₂ 1 true false h1len] at hdm3
                    exact Bool.noConfusion hdm3
                  · rw [getD_set_ne dmh₂ 1 g true false
                      (fun h => hgg h.symm)] at hdm3
                    by_cases hio : iq₂.getD g 0 < s.q.nterms
                    · exact hminv.hstall hgate g hg1 hgd hdm3 hio
                    · have hgeq : iq₂.getD g 0 = s.q.nterms := by
                        have := hminv.hiqle g
                        omega
                      have hg2 : 2 ≤ g := by omega
                      refine ⟨hg2, ?_⟩
                      have hmo := hminv.hmono hgate g hg2 hgd
                      have hle := hminv.hiqle (g - 1)
                      omega
                · intro _ g hg2 hgd
                  exact hminv.hmono hgate g hg2 hgd
                · intro hmode2
                  rw [hq2nt] at hmode2
                  exact absurd hmode2 (by omega)
              · intro m₂
                have h := hsum m₂
                show pulledA a k' m₂ + cacheFut div q₂
                    (insertDivPair cache₂ (add_exponents qe₂ (div.backRow 1))
                      (s.q.nterms, 1, false)) m₂ + colFut div q₂ iq₂ m₂ =
                  qLead div q₂ m₂ + qTail div q₂ m₂ + s.r.coeffOf m₂
                rw [cacheFut_insertDivPair]
                have hpf0 : pairFut div q₂ (s.q.nterms, 1, false) m₂ = 0 := by
                  simp [pairFut]
                have hcol : colFut div q₂ iq₂ m₂ = colFut div s.q iq₂ m₂ +
                    (Finset.Ico 1 div.nterms).sum
                      (fun g => qgProd div q₂ s.q.nterms g m₂) := by
                  rw [hq2def]
                  exact colFut_push_on hgate hminv.hiqle hql m₂
                rw [hpf0, hcpush m₂, hcol, hqlead m₂, hqtail m₂]
                linear_combination h
              · intro h0
                refine ⟨?_, ?_⟩
                · intro key hkey
                  show cmp_exponents key (add_exponents
                    (q₂.exponents.getD (q₂.nterms - 1) []) (div.backRow 0)) = .lt
                  rw [hB2]
                  rcases insertDivPair_keys cache₂ _ _ key hkey with h | h
                  · exact hbound key h
                  · rw [h]
                    exact hkeylt
                · intro hk2
                  show cmp_exponents (a.backRow k') (add_exponents
                    (q₂.exponents.getD (q₂.nterms - 1) []) (div.backRow 0)) = .lt
                  rw [hB2]
                  exact hunread hk2
              · intro h0
                refine ⟨?_, ?_⟩
                · intro key hkey
                  rcases insertDivPair_keys cache₂ _ _ key hkey with h | h
                  · exact cmp_exponents_lt_trans (hbound key h) (hrf h0)
                  · rw [h]
                    exact cmp_exponents_lt_trans hkeylt (hrf h0)
                · intro hk2
                  exact cmp_exponents_lt_trans (hunread hk2) (hrf h0)
          · rw [if_neg hB]
            have hsw : s.q.nterms + 1 = div.nterms := by omega
            have hmodeA := hminv.hmode (by omega)
            have hnofalse : ∀ x ∈ allPairs cache₂, x.2.2.2 = true := by
              intro x hx
              cases hxb : x.2.2.2 with
              | true => rfl
              | false =>
                have hcnt := hminv.hcount x.2.2.1 (hminv.hwf x hx).2.1
                rw [(hmodeA x.2.2.1).2] at hcnt
                simp only [Bool.false_eq_true, if_false] at hcnt
                have hcp : colP x.2.2.1 x = true := by
                  unfold colP
                  rw [hxb]
                  simp
                exact absurd hcp (List.countP_eq_zero.mp hcnt x hx)
            refine ⟨_, rfl, Or.inr ⟨_, rfl, ?_⟩⟩
            refine ⟨hq2l, hq2w, hq2z, hq2desc, hrl, hrw, hrz, hrdesc,
              hqnv, hrnv, ?_,
              insertDivPair_sorted hsort, insertDivPair_entries hcne, hkle,
              ?_, ?_, ?_⟩
            all_goals dsimp only
            · refine ⟨?_, ?_, ?_, ?_, ?_, ?_, ?_, ?_⟩
              · rw [List.length_set]
                exact hminv.hdmh
              · rw [List.length_map]
                exact hminv.hiq
              · intro g
                rw [getD_map_const]
                by_cases hgl : g < iq₂.length
                · rw [if_pos hgl, hq2nt]
                  omega
                · rw [if_neg hgl]
                  omega
              · intro x hx
                rcases mem_allPairs_insertDivPair hx with h | h
                · obtain ⟨h1, h2, h3, h4⟩ := hwfup x h
                  refine ⟨h1, h2, h3, h4, ?_⟩
                  intro hf
                  rw [hnofalse x h] at hf
                  exact Bool.noConfusion hf
                · rw [h]
                  dsimp only [divPairWf]
                  refine ⟨by rw [hq2nt]; omega, le_refl 1, by omega,
                    by rw [hq2getD], ?_⟩
                  intro _
                  refine ⟨?_, by rw [hq2nt]; omega⟩
                  rw [getD_map_const, if_pos (by rw [hminv.hiq]; omega)]
              · intro g hg
                rw [countP_insertDivPair_colP]
                by_cases hgg : g = 1
                · subst hgg
                  rw [hminv.hcount 1 (le_refl 1), (hmodeA 1).2,
                    getD_set_self dmh₂ 1 true false h1len]
                  simp
                · have hne1 : ((!false && (1 : Nat) == g)) = false := by
                    have hgn : (1 : Nat) ≠ g := fun h => hgg h.symm
                    simp [hgn]
                  rw [hne1, hminv.hcount g hg, (hmodeA g).2,
                    getD_set_ne dmh₂ 1 g true false (fun h => hgg h.symm),
                    (hmodeA g).2]
                  simp
              · intro _ g hg1 hgd hdm3 hlt2
                by_cases hgg : g = 1
                · subst hgg
                  rw [getD_set_self dmh₂ 1 true false h1len] at hdm3
                  exact Bool.noConfusion hdm3
                · have hg2 : 2 ≤ g := by omega
                  refine ⟨hg2, ?_⟩
                  rw [getD_map_const, getD_map_const,
                    if_pos (by rw [hminv.hiq]; omega),
                    if_pos (by rw [hminv.hiq]; omega)]
              · intro _ g hg2 hgd
                rw [getD_map_const, getD_map_const,
                  if_pos (by rw [hminv.hiq]; omega),
                  if_pos (by rw [hminv.hiq]; omega)]
              · intro hmode2
                rw [hq2nt] at hmode2
                exact absurd hmode2 (by omega)
            · intro m₂
              have h := hsum m₂
              rw [colFut_off (show s.q.nterms < div.nterms by omega) m₂] at h
              show pulledA a k' m₂ + cacheFut div q₂
                  (insertDivPair cache₂ (add_exponents qe₂ (div.backRow 1))
                    (s.q.nterms, 1, false)) m₂ +
                  colFut div q₂ (iq₂.map (fun _ => s.q.nterms)) m₂ =
                qLead div q₂ m₂ + qTail div q₂ m₂ + s.r.coeffOf m₂
              rw [cacheFut_insertDivPair]
              have hpf0 : pairFut div q₂ (s.q.nterms, 1, false) m₂ = 0 := by
                simp [pairFut]
              have hcsw : colFut div q₂ (iq₂.map (fun _ => s.q.nterms)) m₂ =
                  (Finset.Ico 1 div.nterms).sum
                    (fun g => qgProd div q₂ s.q.nterms g m₂) := by
                have hfeq : iq₂.map (fun _ => s.q.nterms) =
                    iq₂.map (fun _ => q₂.nterms - 1) := by
                  rw [hq2nt]
                  simp
                rw [hfeq, hq2def]
                exact colFut_switch (by omega) hminv.hiq m₂
              rw [hpf0, hcpush m₂, hcsw, hqlead m₂, hqtail m₂]
              linear_combination h
            · intro h0
              refine ⟨?_, ?_⟩
              · intro key hkey
                show cmp_exponents key (add_exponents
                  (q₂.exponents.getD (q₂.nterms - 1) []) (div.backRow 0)) = .lt
                rw [hB2]
                rcases insertDivPair_keys cache₂ _ _ key hkey with h | h
                · exact hbound key h
                · rw [h]
                  exact hkeylt
              · intro hk2
                show cmp_exponents (a.backRow k') (add_exponents
                  (q₂.exponents.getD (q₂.nterms - 1) []) (div.backRow 0)) = .lt
                rw [hB2]
                exact hunread hk2
            · intro h0
              refine ⟨?_, ?_⟩
              · intro key hkey
                rcases insertDivPair_keys cache₂ _ _ key hkey with h | h
                · exact cmp_exponents_lt_trans (hbound key h) (hrf h0)
                · rw [h]
                  exact cmp_exponents_lt_trans hkeylt (hrf h0)
              · intro hk2
                exact cmp_exponents_lt_trans (hunread hk2) (hrf h0)

theorem heap_division_step_spec {a div : MultivariatePolynomial α} {E : EuclOps α}
    (hca : a.canonical) (hcd : div.canonical) (hnva : div.nvars = a.nvars)
    (hdn : 2 ≤ div.nterms) {s : DivState α} {t : DivState α ⊕ Unit}
    (hinv : DivLoopInv a div s)
    (hstep : heap_division_step E a div s = some t) :
    t = Sum.inr () ∨ ∃ s₂, t = Sum.inl s₂ ∧ DivLoopInv a div s₂ := by
  obtain ⟨⟨hal, haw⟩, haz, hachain⟩ := hca
  have hdl : div.coefficients.length = div.exponents.length := hcd.1.1
  have hdchain : div.exponents.Chain' (fun r s => cmp_exponents r s = .lt) :=
    hcd.2.2
  have hdw : ∀ r ∈ div.exponents, r.length = a.nvars := by
    intro r hr
    rw [← hnva]
    exact hcd.1.2 r hr
  rcases hcc : s.cache with _ | ⟨⟨top, prs⟩, rest⟩
  · -- empty cache: the dividend must be pulled
    by_cases hk1 : s.k < a.nterms
    · have hke := exponents_back_eq hal hk1
      have hkc := coefficient_back_eq hk1
      simp only [heap_division_step, hcc, hke, hkc, Option.bind_eq_bind,
        Option.some_bind, Option.pure_def] at hstep
      have hheap := hinv.heap
      rw [hcc] at hheap
      have hsum₂ : ∀ m₂, pulledA a (s.k + 1) m₂ +
          cacheFut div s.q ([] : DivCache) m₂ + colFut div s.q s.iq m₂ =
          qLead div s.q m₂ + qTail div s.q m₂ + s.r.coeffOf m₂ +
          (if a.backRow s.k = m₂ then a.backCoeff s.k else 0) := by
        intro m₂
        have h1 := hinv.hmaster m₂
        rw [hcc] at h1
        have h2 := pulledA_succ a s.k m₂
        linear_combination h1 + h2
      obtain ⟨t₂, hemit, hconc⟩ := heap_division_emit_spec hcd hnva hdn
        hinv.hql hinv.hqw hinv.hqz hinv.hqdesc hinv.hrl hinv.hrw hinv.hrz
        hinv.hrdesc hinv.hqnv hinv.hrnv hheap
        (by intro key hkey; simp at hkey)
        (by simp) (by intro e he; simp at he) (by omega)
        (fun h2 => backRow_lt hal hachain (Nat.lt_succ_self s.k) h2)
        (backRow_width hal haw hk1)
        (fun h0 => (hinv.hqfront h0).2 hk1)
        (fun h0 => (hinv.hrfront h0).2 hk1) hsum₂
      rw [hemit] at hstep
      have ht : t₂ = t := by injection hstep
      rw [← ht]
      exact hconc
    · simp only [heap_division_step, hcc, Option.bind_eq_bind,
        Option.some_bind, Option.pure_def] at hstep
      unfold exponents_back at hstep
      rw [if_neg hk1] at hstep
      simp only [Option.none_bind] at hstep
      exact absurd hstep (by simp)
  · -- non-empty cache
    have htopmem : top ∈ s.cache.map Prod.fst := by
      rw [hcc]
      exact List.mem_map_of_mem Prod.fst (List.mem_cons_self _ _)
    obtain ⟨pr₀, hpr₀⟩ := exists_pair_of_mem_keys hinv.hne htopmem
    have htopw : top.length = a.nvars :=
      cache_key_width hinv.hql hinv.hqw hdl hdw (hinv.heap.hwf _ hpr₀)
    have hheap₀ := hinv.heap
    rw [hcc, allPairs_cons] at hheap₀
    have hbrest : ∀ key ∈ rest.map Prod.fst, cmp_exponents key top = .lt := by
      have hs := hinv.hsort
      rw [hcc, List.map_cons] at hs
      exact chain_desc_all hs
    have hsrest : (rest.map Prod.fst).Chain' (fun x y => cmp_exponents y x = .lt) := by
      have hs := hinv.hsort
      rw [hcc, List.map_cons] at hs
      exact hs.tail
    have hnerest : ∀ e ∈ rest, e.2 ≠ [] := by
      intro e he
      exact hinv.hne e (by rw [hcc]; exact List.mem_cons_of_mem _ he)
    have hqftop : 0 < s.q.nterms → cmp_exponents top
        (add_exponents (s.q.exponents.getD (s.q.nterms - 1) [])
          (div.backRow 0)) = .lt :=
      fun h0 => (hinv.hqfront h0).1 top htopmem
    have hrftop : 0 < s.r.nterms →
        cmp_exponents top (s.r.exponents.getD (s.r.nterms - 1) []) = .lt :=
      fun h0 => (hinv.hrfront h0).1 top htopmem
    have hmc : ∀ m₂, cacheFut div s.q s.cache m₂ =
        (prs.map (fun pr => pairFut div s.q pr m₂)).sum +
          cacheFut div s.q rest m₂ := by
      intro m₂
      rw [hcc]
      exact cacheFut_cons div s.q top prs rest m₂
    by_cases hk1 : s.k < a.nterms
    · have hke := exponents_back_eq hal hk1
      by_cases hcm : cmp_exponents (a.backRow s.k) top = .lt
      · -- heap top first, no dividend pull
        have hkc := coefficient_back_eq hk1
        simp only [heap_division_step, hcc, hke, hkc, hcm, hk1, ne_eq,
          not_true_eq_false, if_false, eq_self_iff_true, if_true,
          Option.bind_eq_bind, Option.some_bind, Option.pure_def] at hstep
        obtain ⟨out, hout, hinv₂, hbound₂, hsort₂, hne₂, hdsum⟩ :=
          heap_division_drain_spec hdl hdchain hdw hinv.hql hinv.hqw
            hinv.hqdesc top prs rest s.dmh s.iq 0 hheap₀ hbrest hsrest hnerest
        rw [hout] at hstep
        simp only [Option.some_bind] at hstep
        have hsum₂ : ∀ m₂, pulledA a s.k m₂ +
            cacheFut div s.q out.2.1 m₂ + colFut div s.q out.2.2.2 m₂ =
            qLead div s.q m₂ + qTail div s.q m₂ + s.r.coeffOf m₂ +
            (if top = m₂ then out.1 else 0) := by
          intro m₂
          have h1 := hinv.hmaster m₂
          rw [hmc m₂] at h1
          have h2 := hdsum m₂
          rw [ite_self] at h2
          linear_combination h1 + h2
        obtain ⟨t₂, hemit, hconc⟩ := heap_division_emit_spec hcd hnva hdn
          hinv.hql hinv.hqw hinv.hqz hinv.hqdesc hinv.hrl hinv.hrw hinv.hrz
          hinv.hrdesc hinv.hqnv hinv.hrnv hinv₂ hbound₂ hsort₂ hne₂ hinv.hk
          (fun _ => hcm) htopw hqftop hrftop hsum₂
        rw [hemit] at hstep
        have ht : t₂ = t := by injection hstep
        rw [← ht]
        exact hconc
      · -- dividend pull (the next monomial is at least the heap top)
        have hkc := coefficient_back_eq hk1
        by_cases hmt : a.backRow s.k = top
        · -- equal: pull and drain the same monomial
          simp only [heap_division_step, hcc, hke, hkc, hcm, hk1, ne_eq,
            not_false_eq_true, hmt, eq_self_iff_true, if_true,
            Option.bind_eq_bind, Option.some_bind, Option.pure_def] at hstep
          obtain ⟨out, hout, hinv₂, hbound₂, hsort₂, hne₂, hdsum⟩ :=
            heap_division_drain_spec hdl hdchain hdw hinv.hql hinv.hqw
              hinv.hqdesc top prs rest s.dmh s.iq (a.backCoeff s.k) hheap₀
              hbrest hsrest hnerest
          rw [hout] at hstep
          simp only [Option.some_bind] at hstep
          have hsum₂ : ∀ m₂, pulledA a (s.k + 1) m₂ +
              cacheFut div s.q out.2.1 m₂ + colFut div s.q out.2.2.2 m₂ =
              qLead div s.q m₂ + qTail div s.q m₂ + s.r.coeffOf m₂ +
              (if top = m₂ then out.1 else 0) := by
            intro m₂
            have h1 := hinv.hmaster m₂
            rw [hmc m₂] at h1
            have h2 := hdsum m₂
            have h3 := pulledA_succ a s.k m₂
            rw [hmt] at h3
            linear_combination h1 + h2 + h3
          obtain ⟨t₂, hemit, hconc⟩ := heap_division_emit_spec hcd hnva hdn
            hinv.hql hinv.hqw hinv.hqz hinv.hqdesc hinv.hrl hinv.hrw hinv.hrz
            hinv.hrdesc hinv.hqnv hinv.hrnv hinv₂ hbound₂ hsort₂ hne₂ (by omega)
            (fun h2 => by
              rw [← hmt]
              exact backRow_lt hal hachain (Nat.lt_succ_self s.k) h2)
            htopw hqftop hrftop hsum₂
          rw [hemit] at hstep
          have hnl : ¬cmp_exponents top top = Ordering.lt := by
            rw [cmp_exponents_refl]
            simp
          rw [if_pos hnl] at hstep
          have ht : t₂ = t := by injection hstep
          rw [← ht]
          exact hconc
        · -- strictly larger: pull without draining
          have hgt : cmp_exponents top (a.backRow s.k) = .lt := by
            rcases hcm2 : cmp_exponents (a.backRow s.k) top with _ | _ | _
            · exact absurd hcm2 hcm
            · exact absurd (cmp_exponents_eq_iff.mp hcm2) hmt
            · rw [cmp_exponents_swap, hcm2]
              rfl
          simp only [heap_division_step, hcc, hke, hkc, hcm, hk1, ne_eq,
            not_false_eq_true, if_true, hmt, if_false, Option.bind_eq_bind,
            Option.some_bind, Option.pure_def] at hstep
          have hheap₁ := hinv.heap
          rw [hcc] at hheap₁
          have hsum₂ : ∀ m₂, pulledA a (s.k + 1) m₂ +
              cacheFut div s.q ((top, prs) :: rest) m₂ +
              colFut div s.q s.iq m₂ =
              qLead div s.q m₂ + qTail div s.q m₂ + s.r.coeffOf m₂ +
              (if a.backRow s.k = m₂ then a.backCoeff s.k else 0) := by
            intro m₂
            have h1 := hinv.hmaster m₂
            rw [hcc] at h1
            have h2 := pulledA_succ a s.k m₂
            linear_combination h1 + h2
          obtain ⟨t₂, hemit, hconc⟩ := heap_division_emit_spec hcd hnva hdn
            hinv.hql hinv.hqw hinv.hqz hinv.hqdesc hinv.hrl hinv.hrw hinv.hrz
            hinv.hrdesc hinv.hqnv hinv.hrnv hheap₁
            (by
              intro key hkey
              rw [List.map_cons] at hkey
              rcases List.mem_cons.mp hkey with rfl | hkey₂
              · exact hgt
              · exact cmp_exponents_lt_trans (hbrest key hkey₂) hgt)
            (by rw [← hcc]; exact hinv.hsort) (by rw [← hcc]; exact hinv.hne)
            (by omega)
            (fun h2 => backRow_lt hal hachain (Nat.lt_succ_self s.k) h2)
            (backRow_width hal haw hk1)
            (fun h0 => (hinv.hqfront h0).2 hk1)
            (fun h0 => (hinv.hrfront h0).2 hk1) hsum₂
          rw [hemit] at hstep
          have ht : t₂ = t := by injection hstep
          rw [← ht]
          exact hconc
    · -- dividend exhausted: drain the heap top
      simp only [heap_division_step, hcc, hk1, if_false, eq_self_iff_true,
        if_true, Option.bind_eq_bind, Option.some_bind, Option.pure_def] at hstep
      obtain ⟨out, hout, hinv₂, hbound₂, hsort₂, hne₂, hdsum⟩ :=
        heap_division_drain_spec hdl hdchain hdw hinv.hql hinv.hqw
          hinv.hqdesc top prs rest s.dmh s.iq 0 hheap₀ hbrest hsrest hnerest
      rw [hout] at hstep
      simp only [Option.some_bind] at hstep
      have hsum₂ : ∀ m₂, pulledA a s.k m₂ +
          cacheFut div s.q out.2.1 m₂ + colFut div s.q out.2.2.2 m₂ =
          qLead div s.q m₂ + qTail div s.q m₂ + s.r.coeffOf m₂ +
          (if top = m₂ then out.1 else 0) := by
        intro m₂
        have h1 := hinv.hmaster m₂
        rw [hmc m₂] at h1
        have h2 := hdsum m₂
        rw [ite_self] at h2
        linear_combination h1 + h2
      obtain ⟨t₂, hemit, hconc⟩ := heap_division_emit_spec hcd hnva hdn
        hinv.hql hinv.hqw hinv.hqz hinv.hqdesc hinv.hrl hinv.hrw hinv.hrz
        hinv.hrdesc hinv.hqnv hinv.hrnv hinv₂ hbound₂ hsort₂ hne₂ hinv.hk
        (fun h2 => absurd h2 hk1) htopw hqftop hrftop hsum₂
      rw [hemit] at hstep
      have ht : t₂ = t := by injection hstep
      rw [← ht]
      exact hconc

theorem heap_division_loop_spec {a div : MultivariatePolynomial α} {E : EuclOps α}
    (hca : a.canonical) (hcd : div.canonical) (hnva : div.nvars = a.nvars)
    (hdn : 2 ≤ div.nterms) :
    ∀ (fuel : Nat) (s : DivState α)
      (res : MultivariatePolynomial α × MultivariatePolynomial α),
      DivLoopInv a div s →
      heap_division_loop E a div fuel s = some (Sum.inl res) →
      ∃ s₂, DivLoopInv a div s₂ ∧ s₂.cache = [] ∧ a.nterms ≤ s₂.k ∧
        res = (s₂.q.reverse, s₂.r.reverse) := by
  intro fuel
  induction fuel with
  | zero =>
    intro s res hinv hloop
    by_cases hexit : s.cache = [] ∧ a.nterms ≤ s.k
    · rw [heap_division_loop, if_pos hexit] at hloop
      refine ⟨s, hinv, hexit.1, hexit.2, ?_⟩
      have h2 : Sum.inl (β := Unit) (s.q.reverse, s.r.reverse) = Sum.inl res := by
        injection hloop
      injection h2 with h3
      exact h3.symm
    · rw [heap_division_loop, if_neg hexit] at hloop
      exact Option.noConfusion hloop
  | succ n ih =>
    intro s res hinv hloop
    by_cases hexit : s.cache = [] ∧ a.nterms ≤ s.k
    · rw [heap_division_loop, if_pos hexit] at hloop
      refine ⟨s, hinv, hexit.1, hexit.2, ?_⟩
      have h2 : Sum.inl (β := Unit) (s.q.reverse, s.r.reverse) = Sum.inl res := by
        injection hloop
      injection h2 with h3
      exact h3.symm
    · rw [heap_division_loop, if_neg hexit] at hloop
      rcases hst : heap_division_step E a div s with _ | t
      · rw [hst] at hloop
        exact Option.noConfusion hloop
      · rw [hst] at hloop
        simp only [Option.bind_eq_bind, Option.some_bind] at hloop
        rcases heap_division_step_spec hca hcd hnva hdn hinv hst with
          h | ⟨s₂, ht, hinv₂⟩
        · rw [h] at hloop
          simp at hloop
        · rw [ht] at hloop
          exact ih s₂ res hinv₂ hloop

theorem getD_replicate {β : Type} (n : Nat) (c : β) (g : Nat) :
    (List.replicate n c).getD g c = c := by
  induction n generalizing g with
  | zero => simp [List.replicate]
  | succ k ih =>
    cases g with
    | zero => rfl
    | succ j => exact ih j

theorem heap_division_init_inv {a div : MultivariatePolynomial α}
    (hdn : 2 ≤ div.nterms) :
    DivLoopInv a div
      { k := 0, q := a.new_from, r := a.new_from,
        dmh := List.replicate div.nterms false,
        iq := List.replicate div.nterms 0, cache := [] } := by
  have hz : (a.new_from).nterms = 0 := rfl
  refine ⟨rfl, ?_, ?_, ?_, rfl, ?_, ?_, ?_, rfl, rfl, ?_, ?_, ?_, ?_, ?_, ?_, ?_⟩
  · intro r hr
    simp [new_from, new] at hr
  · intro c hc
    simp [new_from, new] at hc
  · simp [new_from, new]
  · intro r hr
    simp [new_from, new] at hr
  · intro c hc
    simp [new_from, new] at hc
  · simp [new_from, new]
  · refine ⟨by simp, by simp, ?_, ?_, ?_, ?_, ?_, ?_⟩
    · intro g
      rw [getD_replicate]
      exact Nat.zero_le _
    · intro x hx
      simp [allPairs] at hx
    · intro g hg
      rw [getD_replicate]
      simp [allPairs]
    · intro hgate
      rw [hz] at hgate
      exact absurd hgate (by omega)
    · intro hgate
      rw [hz] at hgate
      exact absurd hgate (by omega)
    · intro _ g
      exact ⟨getD_replicate _ _ _, getD_replicate _ _ _⟩
  · simp
  · intro e he
    simp at he
  · exact Nat.zero_le _
  · intro m
    dsimp only
    have h1 : pulledA a 0 m = 0 := by simp [pulledA]
    have h3 : colFut div (a.new_from) (List.replicate div.nterms 0) m = 0 := by
      unfold colFut
      rw [if_neg (by rw [hz]; omega)]
    have h4 : qLead div (a.new_from) m = 0 := by simp [qLead, hz]
    have h5 : qTail div (a.new_from) m = 0 := by simp [qTail, hz]
    have h6 : (a.new_from).coeffOf m = 0 := coeffOf_new a.nvars m
    rw [h1, h3, h4, h5, h6]
    show 0 + cacheFut div a.new_from [] m + 0 = 0 + 0 + 0
    norm_num
    rfl
  · intro h0
    rw [hz] at h0
    exact absurd h0 (by omega)
  · intro h0
    rw [hz] at h0
    exact absurd h0 (by omega)

end MultivariatePolynomial

theorem getD_map {β γ : Type} (f : β → γ) (l : List β) (i : Nat) (d : β)
    (d₂ : γ) (h : i < l.length) : (l.map f).getD i d₂ = f (l.getD i d) := by
  rw [List.getD_eq_getElem?_getD,
    List.getElem?_eq_getElem (by simpa using h), List.getElem_map,
    List.getD_eq_getElem?_getD, List.getElem?_eq_getElem h]
  rfl

theorem getD_reverse {β : Type} (l : List β) (i : Nat) (d : β)
    (h : i < l.length) : l.reverse.getD i d = l.getD (l.length - 1 - i) d := by
  rw [List.getD_eq_getElem?_getD,
    List.getElem?_eq_getElem (by simpa using h), List.getElem_reverse,
    List.getD_eq_getElem?_getD, List.getElem?_eq_getElem (by omega)]

theorem tCoeff_eq_sum_getD :
    ∀ (L : List (α × Row)) (m : Row),
      tCoeff L m = (Finset.range L.length).sum
        (fun i => if (L.getD i ((0 : α), ([] : Row))).2 = m
          then (L.getD i ((0 : α), ([] : Row))).1 else 0) := by
  intro L
  induction L with
  | nil => intro m; simp [tCoeff]
  | cons t l ih =>
    intro m
    rw [tCoeff_cons, List.length_cons, Finset.sum_range_succ']
    simp only [List.getD_cons_succ, List.getD_cons_zero]
    rw [← ih m]
    by_cases hm : t.2 = m
    · rw [if_pos hm, if_pos hm]
      ring
    · rw [if_neg hm, if_neg hm]
      ring

namespace MultivariatePolynomial

theorem conv_fold_eq_sum (d : MultivariatePolynomial α)
    (hdl2 : d.coefficients.length = d.exponents.length) (m : Row) :
    ∀ (L : List (α × Row)),
      L.foldr (fun t acc => acc + tCoeff (d.terms.map
        (fun s => (t.1 * s.1, add_exponents t.2 s.2))) m) 0 =
      (Finset.range L.length).sum (fun i =>
        (Finset.range d.nterms).sum (fun j =>
          if add_exponents ((L.getD i ((0 : α), ([] : Row))).2)
              (d.exponents.getD j []) = m
          then (L.getD i ((0 : α), ([] : Row))).1 *
            d.coefficients.getD j 0 else 0)) := by
  intro L
  induction L with
  | nil => simp
  | cons t l ih =>
    simp only [List.foldr_cons, List.length_cons]
    rw [Finset.sum_range_succ', ih]
    simp only [List.getD_cons_succ, List.getD_cons_zero]
    have hinner : tCoeff (d.terms.map
        (fun s => (t.1 * s.1, add_exponents t.2 s.2))) m =
        (Finset.range d.nterms).sum (fun j =>
          if add_exponents t.2 (d.exponents.getD j []) = m
          then t.1 * d.coefficients.getD j 0 else 0) := by
      rw [tCoeff_eq_sum_getD, List.length_map, terms_length hdl2]
      refine Finset.sum_congr rfl (fun j hj => ?_)
      have hj2 : j < d.terms.length := by
        rw [terms_length hdl2]
        exact Finset.mem_range.mp hj
      rw [getD_map _ _ _ ((0 : α), ([] : Row)) _ hj2,
        terms_getD hdl2 (by rw [← terms_length hdl2]; exact hj2)]
    rw [hinner]

theorem convCoeff_eq_sum {p d : MultivariatePolynomial α}
    (hpl : p.coefficients.length = p.exponents.length)
    (hdl2 : d.coefficients.length = d.exponents.length) (m : Row) :
    convCoeff p d m = (Finset.range p.nterms).sum (fun i =>
      (Finset.range d.nterms).sum (fun j =>
        if add_exponents (p.exponents.getD i []) (d.exponents.getD j []) = m
        then p.coefficients.getD i 0 * d.coefficients.getD j 0 else 0)) := by
  unfold convCoeff
  rw [conv_fold_eq_sum d hdl2 m p.terms, terms_length hpl]
  refine Finset.sum_congr rfl (fun i hi => ?_)
  rw [terms_getD hpl (Finset.mem_range.mp hi)]

theorem coeffOf_eq_sum {p : MultivariatePolynomial α}
    (hpl : p.coefficients.length = p.exponents.length) (m : Row) :
    p.coeffOf m = (Finset.range p.nterms).sum (fun i =>
      if p.exponents.getD i [] = m then p.coefficients.getD i 0 else 0) := by
  unfold coeffOf
  rw [tCoeff_eq_sum_getD, terms_length hpl]
  refine Finset.sum_congr rfl (fun i hi => ?_)
  rw [terms_getD hpl (Finset.mem_range.mp hi)]

theorem pulledA_full {a : MultivariatePolynomial α}
    (hal : a.coefficients.length = a.exponents.length) (m : Row) :
    pulledA a a.nterms m = a.coeffOf m := by
  rw [coeffOf_eq_sum hal m]
  unfold pulledA backRow backCoeff
  exact Finset.sum_range_reflect
    (fun i => if a.exponents.getD i [] = m then a.coefficients.getD i 0 else 0)
    a.nterms

theorem colFut_exit {a div : MultivariatePolynomial α} {s : DivState α}
    (hinv : DivLoopInv a div s) (hcc : s.cache = []) (m : Row) :
    colFut div s.q s.iq m = 0 := by
  have hdmh : ∀ g, 1 ≤ g → s.dmh.getD g false = false := by
    intro g hg
    have hc := hinv.heap.hcount g hg
    rw [hcc] at hc
    simp only [allPairs, List.flatMap_nil, List.countP_nil] at hc
    cases hb : s.dmh.getD g false
    · rfl
    · rw [hb] at hc
      simp at hc
  by_cases hgate : div.nterms ≤ s.q.nterms
  · have hiq : ∀ g, 1 ≤ g → g < div.nterms → s.q.nterms ≤ s.iq.getD g 0 := by
      intro g
      induction g with
      | zero => intro h; exact absurd h (by omega)
      | succ n ihn =>
        intro _ hlt
        by_contra hno
        push_neg at hno
        obtain ⟨h2, heq⟩ := hinv.heap.hstall hgate (n + 1) (by omega) hlt
          (hdmh (n + 1) (by omega)) hno
        have hn1 : 1 ≤ n := by omega
        have hih := ihn hn1 (by omega)
        rw [show n + 1 - 1 = n by omega] at heq
        omega
    unfold colFut
    rw [if_pos hgate]
    refine Finset.sum_eq_zero (fun g hg => ?_)
    obtain ⟨hg1, hg2⟩ := Finset.mem_Ico.mp hg
    rw [Finset.Ico_eq_empty (by have := hiq g hg1 hg2; omega), Finset.sum_empty]
  · exact colFut_off (by omega) m

theorem qsum_eq_convCoeff {div q : MultivariatePolynomial α}
    (hql : q.coefficients.length = q.exponents.length)
    (hdl2 : div.coefficients.length = div.exponents.length)
    (hdpos : 0 < div.nterms) (m : Row) :
    qLead div q m + qTail div q m = convCoeff q.reverse div m := by
  have hrl : (q.reverse).coefficients.length = (q.reverse).exponents.length := by
    simp [reverse, hql]
  rw [convCoeff_eq_sum hrl hdl2 m]
  have hrn : (q.reverse).nterms = q.nterms := by simp [reverse, nterms]
  rw [hrn]
  have hL : qLead div q m + qTail div q m =
      (Finset.range q.nterms).sum (fun qi =>
        (Finset.range div.nterms).sum (fun g => qgProd div q qi g m)) := by
    unfold qLead qTail
    rw [← Finset.sum_add_distrib]
    refine Finset.sum_congr rfl (fun qi _ => ?_)
    rw [Finset.range_eq_Ico, Finset.sum_eq_sum_Ico_succ_bot hdpos]
  rw [hL]
  have hB : ∀ qi, (Finset.range div.nterms).sum (fun g => qgProd div q qi g m) =
      (Finset.range div.nterms).sum (fun j =>
        if add_exponents (q.exponents.getD qi []) (div.exponents.getD j []) = m
        then q.coefficients.getD qi 0 * div.coefficients.getD j 0 else 0) := by
    intro qi
    rw [← Finset.sum_range_reflect (fun j =>
      if add_exponents (q.exponents.getD qi []) (div.exponents.getD j []) = m
      then q.coefficients.getD qi 0 * div.coefficients.getD j 0 else 0)
      div.nterms]
    refine Finset.sum_congr rfl (fun g hg => ?_)
    unfold qgProd backRow backCoeff
    rfl
  rw [Finset.sum_congr rfl (fun qi _ => hB qi)]
  rw [← Finset.sum_range_reflect (fun i =>
    (Finset.range div.nterms).sum (fun j =>
      if add_exponents (q.exponents.getD i []) (div.exponents.getD j []) = m
      then q.coefficients.getD i 0 * div.coefficients.getD j 0 else 0))
    q.nterms]
  refine Finset.sum_congr rfl (fun i hi => ?_)
  have hi2 : i < q.nterms := Finset.mem_range.mp hi
  have hrow : (q.reverse).exponents.getD i [] =
      q.exponents.getD (q.nterms - 1 - i) [] := by
    show q.exponents.reverse.getD i [] = _
    rw [getD_reverse q.exponents i [] (by rw [← hql]; exact hi2)]
    congr 1
    unfold nterms
    omega
  have hcoe : (q.reverse).coefficients.getD i 0 =
      q.coefficients.getD (q.nterms - 1 - i) 0 := by
    show q.coefficients.reverse.getD i 0 = _
    rw [getD_reverse q.coefficients i 0 hi2]
    rfl
  rw [hrow, hcoe]

theorem coeffOf_reverse {p : MultivariatePolynomial α}
    (hpl : p.coefficients.length = p.exponents.length) (m : Row) :
    p.reverse.coeffOf m = p.coeffOf m := by
  have hrl : (p.reverse).coefficients.length = (p.reverse).exponents.length := by
    simp [reverse, hpl]
  rw [coeffOf_eq_sum hrl m, coeffOf_eq_sum hpl m]
  have hrn : (p.reverse).nterms = p.nterms := by simp [reverse, nterms]
  rw [hrn]
  rw [← Finset.sum_range_reflect (fun i =>
    if p.exponents.getD i [] = m then p.coefficients.getD i 0 else 0) p.nterms]
  refine Finset.sum_congr rfl (fun i hi => ?_)
  have hi2 : i < p.nterms := Finset.mem_range.mp hi
  have hrow : (p.reverse).exponents.getD i [] =
      p.exponents.getD (p.nterms - 1 - i) [] := by
    show p.exponents.reverse.getD i [] = _
    rw [getD_reverse p.exponents i [] (by rw [← hpl]; exact hi2)]
    congr 1
    unfold nterms
    omega
  have hcoe : (p.reverse).coefficients.getD i 0 =
      p.coefficients.getD (p.nterms - 1 - i) 0 := by
    show p.coefficients.reverse.getD i 0 = _
    rw [getD_reverse p.coefficients i 0 hi2]
    rfl
  rw [hrow, hcoe]

theorem reverse_canonical {p : MultivariatePolynomial α} {n : Nat}
    (hl : p.coefficients.length = p.exponents.length)
    (hw : ∀ r ∈ p.exponents, r.length = n)
    (hz : ∀ c ∈ p.coefficients, c ≠ 0)
    (hdesc : p.exponents.Chain' (fun x y => cmp_exponents y x = .lt))
    (hnv : p.nvars = n) : p.reverse.canonical := by
  refine ⟨⟨by simp [reverse, hl], ?_⟩, ?_, ?_⟩
  · intro r hr
    show r.length = p.nvars
    rw [hnv]
    exact hw r (List.mem_reverse.mp hr)
  · intro c hc
    exact hz c (List.mem_reverse.mp hc)
  · show p.exponents.reverse.Chain' (fun r s => cmp_exponents r s = .lt)
    rw [List.chain'_reverse]
    exact hdesc

theorem heap_division_spec {a div : MultivariatePolynomial α} {E : EuclOps α}
    (hca : a.canonical) (hcd : div.canonical) (hnva : div.nvars = a.nvars)
    (hdn : 2 ≤ div.nterms) {fuel : Nat}
    {qq rr : MultivariatePolynomial α}
    (h : heap_division E a div fuel = some (qq, rr)) :
    qq.canonical ∧ rr.canonical ∧ qq.nvars = a.nvars ∧ rr.nvars = a.nvars ∧
      ∀ m, convCoeff qq div m + rr.coeffOf m = a.coeffOf m := by
  unfold heap_division at h
  rcases hl : heap_division_loop E a div fuel
      { k := 0, q := a.new_from, r := a.new_from,
        dmh := List.replicate div.nterms false,
        iq := List.replicate div.nterms 0, cache := [] } with _ | t
  · rw [hl] at h
    exact Option.noConfusion h
  · rw [hl] at h
    rcases t with res | u
    · have h2 : (some res : Option (MultivariatePolynomial α ×
          MultivariatePolynomial α)) = some (qq, rr) := h
      have hres : res = (qq, rr) := by injection h2
      obtain ⟨s₂, hinv₂, hcc₂, hk₂, hres₂⟩ :=
        heap_division_loop_spec hca hcd hnva hdn fuel _ res
          (heap_division_init_inv hdn) hl
      rw [hres] at hres₂
      have hqq : qq = s₂.q.reverse := congrArg Prod.fst hres₂
      have hrr : rr = s₂.r.reverse := congrArg Prod.snd hres₂
      have hkeq : s₂.k = a.nterms := le_antisymm hinv₂.hk hk₂
      obtain ⟨⟨hal, haw⟩, haz, hachain⟩ := hca
      refine ⟨?_, ?_, ?_, ?_, ?_⟩
      · rw [hqq]
        exact reverse_canonical hinv₂.hql hinv₂.hqw hinv₂.hqz hinv₂.hqdesc
          hinv₂.hqnv
      · rw [hrr]
        exact reverse_canonical hinv₂.hrl hinv₂.hrw hinv₂.hrz hinv₂.hrdesc
          hinv₂.hrnv
      · rw [hqq]
        exact hinv₂.hqnv
      · rw [hrr]
        exact hinv₂.hrnv
      · intro m
        have hm := hinv₂.hmaster m
        rw [hcc₂] at hm
        rw [show cacheFut div s₂.q ([] : DivCache) m = 0 from rfl] at hm
        rw [colFut_exit hinv₂ hcc₂ m, hkeq, pulledA_full hal m] at hm
        rw [hqq, hrr, coeffOf_reverse hinv₂.hrl m]
        rw [← qsum_eq_convCoeff hinv₂.hql hcd.1.1 (by omega) m]
        linear_combination -hm
    · rcases u with ⟨⟩
      have h2 : (some (a.new_from, a) : Option (MultivariatePolynomial α ×
          MultivariatePolynomial α)) = some (qq, rr) := h
      have h3 : (a.new_from, a) = (qq, rr) := by injection h2
      have hq : qq = a.new_from := (congrArg Prod.fst h3).symm
      have hr : rr = a := (congrArg Prod.snd h3).symm
      rw [hq, hr]
      refine ⟨canonical_new a.nvars, hca, rfl, rfl, ?_⟩
      intro m
      show convCoeff a.new_from div m + a.coeffOf m = a.coeffOf m
      rw [show convCoeff a.new_from div m = 0 from rfl, zero_add]

end MultivariatePolynomial

theorem add_zero_row : ∀ {x z : Row}, (∀ v ∈ z, v = 0) → z.length = x.length →
    add_exponents x z = x := by
  intro x
  induction x with
  | nil =>
    intro z _ hl
    have : z = [] := List.length_eq_zero.mp (by simpa using hl)
    subst this
    rfl
  | cons v xs ih =>
    intro z hz hl
    cases z with
    | nil => simp at hl
    | cons w ws =>
      have hw : w = 0 := hz w (List.mem_cons_self _ _)
      simp only [add_exponents, List.zipWith_cons_cons, hw, Nat.add_zero]
      refine List.cons_eq_cons.mpr ⟨rfl, ?_⟩
      exact ih (fun v hv => hz v (List.mem_cons_of_mem _ hv)) (by simpa using hl)

namespace MultivariatePolynomial

theorem chain_sub_map {de : Row} {n : Nat} (hde : de.length = n) :
    ∀ (es : List Row), (∀ e ∈ es, dominates e de = true) →
      (∀ e ∈ es, e.length = n) →
      es.Chain' (fun r s => cmp_exponents r s = .lt) →
      (es.map (fun e => sub_exponents e de)).Chain'
        (fun r s => cmp_exponents r s = .lt) := by
  intro es
  induction es with
  | nil =>
    intro _ _ _
    exact List.chain'_nil
  | cons e₁ tl ih =>
    intro hdom hw hch
    cases tl with
    | nil => simp
    | cons e₂ tl₂ =>
      rw [List.map_cons, List.map_cons, List.chain'_cons]
      rw [List.chain'_cons] at hch
      constructor
      · rw [cmp_exponents_sub (hdom e₁ (List.mem_cons_self _ _))
          (hdom e₂ (List.mem_cons_of_mem _ (List.mem_cons_self _ _)))
          (by rw [hde, hw e₁ (List.mem_cons_self _ _)])
          (by rw [hde, hw e₂ (List.mem_cons_of_mem _ (List.mem_cons_self _ _))])]
        exact hch.1
      · have h2 := ih (fun e he => hdom e (List.mem_cons_of_mem _ he))
          (fun e he => hw e (List.mem_cons_of_mem _ he)) hch.2
        rw [List.map_cons] at h2
        exact h2

theorem quot_rem_monomial_terms_spec {E : EuclOps α} {dc : α} {de : Row} :
    ∀ (cs : List α) (es : List Row) (t : List α × List Row),
      quot_rem_monomial_terms E dc de cs es = some t →
      cs.length = es.length →
      t.1 = cs.map (fun c => (E.quotRem c dc).1) ∧
      t.2 = es.map (fun e => sub_exponents e de) ∧
      (∀ c ∈ cs, (E.quotRem c dc).2 = 0) ∧
      (∀ e ∈ es, dominates e de = true) := by
  intro cs
  induction cs with
  | nil =>
    intro es t h hlen
    have hes : es = [] := List.length_eq_zero.mp (by simpa using hlen.symm)
    subst hes
    simp only [quot_rem_monomial_terms, Option.some.injEq] at h
    subst h
    refine ⟨by simp, by simp, ?_, ?_⟩
    · intro c hc
      simp at hc
    · intro e he
      simp at he
  | cons c cs ih =>
    intro es t h hlen
    cases es with
    | nil => simp at hlen
    | cons e es =>
      simp only [quot_rem_monomial_terms] at h
      by_cases hcond : (E.quotRem c dc).2 ≠ 0 ∨ ¬(dominates e de = true)
      · rw [if_pos hcond] at h
        exact Option.noConfusion h
      · rw [if_neg hcond] at h
        push_neg at hcond
        obtain ⟨hrem, hdome⟩ := hcond
        rcases hrec : quot_rem_monomial_terms E dc de cs es with _ | t₂
        · rw [hrec] at h
          exact Option.noConfusion h
        · rw [hrec] at h
          simp only [Option.bind_eq_bind, Option.some_bind,
            Option.some.injEq] at h
          obtain ⟨ih1, ih2, ih3, ih4⟩ := ih es t₂ hrec (by simpa using hlen)
          refine ⟨?_, ?_, ?_, ?_⟩
          · rw [← h, List.map_cons, ← ih1]
          · rw [← h, List.map_cons, ← ih2]
          · intro c₂ hc₂
            rcases List.mem_cons.mp hc₂ with rfl | hc₃
            · exact hrem
            · exact ih3 c₂ hc₃
          · intro e₂ he₂
            rcases List.mem_cons.mp he₂ with rfl | he₃
            · exact hdome
            · exact ih4 e₂ he₃

theorem quot_rem_spec {a div : MultivariatePolynomial α} {E : EuclOps α}
    (hca : a.canonical) (hcd : div.canonical) (hnva : div.nvars = a.nvars)
    {fuel : Nat} {q r : MultivariatePolynomial α}
    (h : quot_rem E a div fuel = some (q, r)) :
    q.canonical ∧ r.canonical ∧ q.nvars = a.nvars ∧ r.nvars = a.nvars ∧
      ∀ m, convCoeff q div m + r.coeffOf m = a.coeffOf m := by
  obtain ⟨⟨hal, haw⟩, haz, hachain⟩ := hca
  have hdl : div.coefficients.length = div.exponents.length := hcd.1.1
  unfold quot_rem at h
  by_cases hdz : div.is_zero = true
  · rw [if_pos hdz] at h
    exact Option.noConfusion h
  · rw [if_neg hdz] at h
    have hdnt : div.nterms ≠ 0 := by
      simpa [is_zero] using hdz
    by_cases haz2 : a.is_zero = true
    · rw [if_pos haz2] at h
      have h2 : (a, a) = (q, r) := by injection h
      have hq : a = q := congrArg Prod.fst h2
      have hr : a = r := congrArg Prod.snd h2
      subst hq
      subst hr
      have hacz : a.coefficients = [] := by
        have : a.nterms = 0 := by simpa [is_zero] using haz2
        exact List.length_eq_zero.mp this
      refine ⟨⟨⟨hal, haw⟩, haz, hachain⟩, ⟨⟨hal, haw⟩, haz, hachain⟩, rfl, rfl, ?_⟩
      intro m
      have hc0 : convCoeff a div m = 0 := by
        unfold convCoeff terms
        rw [hacz]
        rfl
      rw [hc0, zero_add]
    · rw [if_neg haz2] at h
      by_cases hone : div.is_one = true
      · rw [if_pos hone] at h
        have h2 : (a, a.new_from) = (q, r) := by injection h
        have hq : a = q := congrArg Prod.fst h2
        have hr : a.new_from = r := congrArg Prod.snd h2
        subst hq
        subst hr
        simp only [is_one, Bool.and_eq_true, beq_iff_eq, decide_eq_true_eq,
          List.all_eq_true] at hone
        obtain ⟨⟨hd1, hdh⟩, hdrows⟩ := hone
        have hrow0 : ∀ v ∈ div.exponents.getD 0 [], v = 0 := by
          intro v hv
          have hmem : div.exponents.getD 0 [] ∈ div.exponents :=
            getD_mem [] (by unfold nterms at hd1; omega)
          have := hdrows _ hmem v hv
          simpa using this
        have hrow0w : (div.exponents.getD 0 []).length = a.nvars := by
          rw [← hnva]
          exact hcd.1.2 _ (getD_mem [] (by unfold nterms at hd1; omega))
        have hdc1 : div.coefficients.getD 0 0 = 1 := by
          rcases hcl : div.coefficients with _ | ⟨c₀, cs⟩
          · exfalso
            have h0 : div.nterms = 0 := by
              unfold nterms
              rw [hcl]
              rfl
            omega
          · rw [hcl] at hdh
            simpa using hdh
        refine ⟨⟨⟨hal, haw⟩, haz, hachain⟩, canonical_new a.nvars, rfl, rfl, ?_⟩
        intro m
        rw [show (a.new_from).coeffOf m = 0 from coeffOf_new a.nvars m, add_zero]
        rw [convCoeff_eq_sum hal hdl m, hd1, coeffOf_eq_sum hal m]
        refine Finset.sum_congr rfl (fun i hi => ?_)
        rw [Finset.sum_range_one, hdc1, mul_one,
          add_zero_row hrow0 (by
            rw [hrow0w, rowD_width hal haw (Finset.mem_range.mp hi)])]
      · rw [if_neg hone] at h
        by_cases hm1 : div.nterms = 1
        · rw [if_pos hm1] at h
          have hc0 : div.coefficients[0]? = some (div.coefficients.getD 0 0) :=
            getElem?_eq_some_getD 0 (by unfold nterms at hm1; omega)
          have he0 : div.exponents[0]? = some (div.exponents.getD 0 []) :=
            getElem?_eq_some_getD [] (by unfold nterms at hm1; omega)
          have hdc0 : div.coefficients.getD 0 0 ≠ 0 :=
            hcd.2.1 _ (getD_mem 0 (by unfold nterms at hm1; omega))
          have hde0w : (div.exponents.getD 0 []).length = a.nvars := by
            rw [← hnva]
            exact hcd.1.2 _ (getD_mem [] (by unfold nterms at hm1; omega))
          rcases hqt : quot_rem_monomial_terms E (div.coefficients.getD 0 0)
              (div.exponents.getD 0 []) a.coefficients a.exponents with _ | t
          · simp only [hc0, he0, hqt] at h
            have h2 : (a.new_from, a) = (q, r) := by injection h
            have hq : a.new_from = q := congrArg Prod.fst h2
            have hr : a = r := congrArg Prod.snd h2
            subst hq
            subst hr
            refine ⟨canonical_new a.nvars, ⟨⟨hal, haw⟩, haz, hachain⟩, rfl, rfl, ?_⟩
            intro m
            rw [show convCoeff a.new_from div m = 0 from rfl, zero_add]
          · simp only [hc0, he0, hqt] at h
            have h2 : (({ coefficients := t.1, exponents := t.2, nvars := a.nvars } : MultivariatePolynomial α), a.new_from) = (q, r) := by
              injection h
            have hq : ({ coefficients := t.1, exponents := t.2, nvars := a.nvars } : MultivariatePolynomial α) = q := congrArg Prod.fst h2
            have hr : a.new_from = r := congrArg Prod.snd h2
            subst hq
            subst hr
            obtain ⟨ht1, ht2, ht3, ht4⟩ :=
              quot_rem_monomial_terms_spec a.coefficients a.exponents t hqt hal
            have hq1l : t.1.length = a.coefficients.length := by
              rw [ht1, List.length_map]
            have hq2l : t.2.length = a.exponents.length := by
              rw [ht2, List.length_map]
            have hqcan : ({ coefficients := t.1, exponents := t.2, nvars := a.nvars } : MultivariatePolynomial α).canonical := by
              refine ⟨⟨by rw [hq1l, hq2l, hal], ?_⟩, ?_, ?_⟩
              · intro x hx
                rw [ht2] at hx
                rcases List.mem_map.mp hx with ⟨e, he, rfl⟩
                show (sub_exponents e (div.exponents.getD 0 [])).length = a.nvars
                rw [sub_exponents_length, haw e he, hde0w]
                simp
              · intro x hx
                rw [ht1] at hx
                rcases List.mem_map.mp hx with ⟨c, hcmem, rfl⟩
                intro hx0
                have hmul := E.quot_mul_add c (div.coefficients.getD 0 0) hdc0
                rw [ht3 c hcmem, add_zero, hx0, zero_mul] at hmul
                exact haz c hcmem hmul.symm
              · show t.2.Chain' (fun x y => cmp_exponents x y = .lt)
                rw [ht2]
                exact chain_sub_map hde0w a.exponents ht4 haw hachain
            refine ⟨hqcan, canonical_new a.nvars, rfl, rfl, ?_⟩
            intro m
            rw [show (a.new_from).coeffOf m = 0 from coeffOf_new a.nvars m,
              add_zero]
            have hql2 : ({ coefficients := t.1, exponents := t.2, nvars := a.nvars } : MultivariatePolynomial α).coefficients.length = ({ coefficients := t.1, exponents := t.2, nvars := a.nvars } : MultivariatePolynomial α).exponents.length := by
              show t.1.length = t.2.length
              rw [hq1l, hq2l, hal]
            rw [convCoeff_eq_sum hql2 hdl m, hm1, coeffOf_eq_sum hal m]
            have hntq : ({ coefficients := t.1, exponents := t.2, nvars := a.nvars } : MultivariatePolynomial α).nterms = a.nterms := by
              show t.1.length = a.coefficients.length
              exact hq1l
            rw [hntq]
            refine Finset.sum_congr rfl (fun i hi => ?_)
            have hi2 : i < a.nterms := Finset.mem_range.mp hi
            have hie : i < a.exponents.length := by
              unfold nterms at hi2
              omega
            rw [Finset.sum_range_one]
            have hrowi : ({ coefficients := t.1, exponents := t.2, nvars := a.nvars } : MultivariatePolynomial α).exponents.getD i [] = sub_exponents (a.exponents.getD i []) (div.exponents.getD 0 []) := by
              show t.2.getD i [] = _
              rw [ht2]
              exact getD_map _ _ _ [] _ hie
            have hci : ({ coefficients := t.1, exponents := t.2, nvars := a.nvars } : MultivariatePolynomial α).coefficients.getD i 0 = (E.quotRem (a.coefficients.getD i 0) (div.coefficients.getD 0 0)).1 := by
              show t.1.getD i 0 = _
              rw [ht1]
              exact getD_map _ _ _ 0 _ hi2
            have hdomi : dominates (a.exponents.getD i [])
                (div.exponents.getD 0 []) = true :=
              ht4 _ (getD_mem [] hie)
            have haddsub : add_exponents (sub_exponents (a.exponents.getD i [])
                (div.exponents.getD 0 [])) (div.exponents.getD 0 []) =
                a.exponents.getD i [] :=
              add_sub_of_dominates hdomi
                (by rw [hde0w, rowD_width hal haw hi2])
            have hmuli : (E.quotRem (a.coefficients.getD i 0)
                (div.coefficients.getD 0 0)).1 * div.coefficients.getD 0 0 =
                a.coefficients.getD i 0 := by
              have hmul := E.quot_mul_add (a.coefficients.getD i 0)
                (div.coefficients.getD 0 0) hdc0
              rw [ht3 _ (getD_mem 0 hi2), add_zero] at hmul
              exact hmul
            rw [hrowi, hci, haddsub, hmuli]
        · rw [if_neg hm1] at h
          exact heap_division_spec ⟨⟨hal, haw⟩, haz, hachain⟩ hcd hnva
            (by omega) h

end MultivariatePolynomial

/-! ## The claims -/

namespace MultivariatePolynomial

/-- C1: for every canonical polynomial `a` and canonical (hence non-zero
whenever `quot_rem` succeeds) divisor `div` of matching `nvars` over a
Euclidean coefficient domain, the pair `(q, r)` returned by `quot_rem`
satisfies the round-trip identity `q·div + r = a`, stated coefficientwise
at every monomial. -/
theorem C1_quot_rem_round_trip {a div : MultivariatePolynomial α}
    {E : EuclOps α} (hca : a.canonical) (hcd : div.canonical)
    (hnva : div.nvars = a.nvars) {fuel : Nat}
    {q r : MultivariatePolynomial α}
    (h : quot_rem E a div fuel = some (q, r)) :
    ∀ m, convCoeff q div m + r.coeffOf m = a.coeffOf m :=
  (quot_rem_spec hca hcd hnva h).2.2.2.2

/-- C1 at a concrete input: (x + 1) ÷ (x + 1) over ℤ runs the heap
division loop, gives q = 1, r = 0, and the round-trip identity holds. -/
theorem C1_quot_rem_round_trip_witness :
    ({ coefficients := [1, 1], exponents := [[0], [1]], nvars := 1 } : MultivariatePolynomial Int).canonical ∧
    quot_rem intEuclOps ({ coefficients := [1, 1], exponents := [[0], [1]], nvars := 1 } : MultivariatePolynomial Int) { coefficients := [1, 1], exponents := [[0], [1]], nvars := 1 } 8 = some ({ coefficients := [1], exponents := [[0]], nvars := 1 }, { coefficients := [], exponents := [], nvars := 1 }) ∧
    ∀ m, convCoeff ({ coefficients := [1], exponents := [[0]], nvars := 1 } : MultivariatePolynomial Int) { coefficients := [1, 1], exponents := [[0], [1]], nvars := 1 } m + ({ coefficients := [], exponents := [], nvars := 1 } : MultivariatePolynomial Int).coeffOf m = ({ coefficients := [1, 1], exponents := [[0], [1]], nvars := 1 } : MultivariatePolynomial Int).coeffOf m :=
  ⟨by decide, by decide,
    @C1_quot_rem_round_trip Int _ _
      { coefficients := [1, 1], exponents := [[0], [1]], nvars := 1 }
      { coefficients := [1, 1], exponents := [[0], [1]], nvars := 1 }
      intEuclOps (by decide) (by decide) rfl 8
      { coefficients := [1], exponents := [[0]], nvars := 1 }
      { coefficients := [], exponents := [], nvars := 1 }
      (by decide)⟩

/-- C2: heap multiplication returns exactly the polynomial produced by the
quadratic reference multiplier (all pairwise monomial products, equal
exponents merged) on every pair of canonical non-zero operands of
matching `nvars`. -/
theorem C2_heap_mul_matches_reference {a b : MultivariatePolynomial α}
    (hca : a.canonical) (hcb : b.canonical) (hnv : a.nvars = b.nvars)
    (ha : a.nterms ≠ 0) (hb : b.nterms ≠ 0) :
    heap_mul a b = some (quad_mul a b) :=
  heap_mul_eq_quad hca hcb hnv ha hb

/-- C2 at a concrete input: (1 + x)·(2 + 3x) over ℤ. -/
theorem C2_heap_mul_matches_reference_witness :
    ({ coefficients := [1, 1], exponents := [[0], [1]], nvars := 1 } : MultivariatePolynomial Int).canonical ∧
    ({ coefficients := [2, 3], exponents := [[0], [1]], nvars := 1 } : MultivariatePolynomial Int).canonical ∧
    heap_mul ({ coefficients := [1, 1], exponents := [[0], [1]], nvars := 1 } : MultivariatePolynomial Int) { coefficients := [2, 3], exponents := [[0], [1]], nvars := 1 } = some (quad_mul ({ coefficients := [1, 1], exponents := [[0], [1]], nvars := 1 } : MultivariatePolynomial Int) { coefficients := [2, 3], exponents := [[0], [1]], nvars := 1 }) :=
  ⟨by decide, by decide,
    C2_heap_mul_matches_reference (by decide) (by decide) rfl (by decide)
      (by decide)⟩

/-- C3: the public operations — addition, negation, heap multiplication,
division (every path of `quot_rem`) and monomial append — keep their
results in canonical form: strictly increasing exponent rows under the
lexicographic order, no zero coefficient, and matching row/coefficient
counts of width `nvars`. -/
theorem C3_public_operations_canonical :
    (∀ p q c : MultivariatePolynomial α, p.canonical → q.canonical →
      p.add q = some c → c.canonical) ∧
    (∀ p : MultivariatePolynomial α, p.canonical → p.neg.canonical) ∧
    (∀ a b pr : MultivariatePolynomial α, a.canonical → b.canonical →
      a.nvars = b.nvars → heap_mul a b = some pr → pr.canonical) ∧
    (∀ (E : EuclOps α) (a div q r : MultivariatePolynomial α) (fuel : Nat),
      a.canonical → div.canonical → div.nvars = a.nvars →
      quot_rem E a div fuel = some (q, r) → q.canonical ∧ r.canonical) ∧
    (∀ (p q : MultivariatePolynomial α) (c : α) (e : Row), p.canonical →
      p.append_monomial c e = some q → q.canonical) := by
  refine ⟨?_, ?_, ?_, ?_, ?_⟩
  · intro p q c hp hq h
    exact add_canonical hp hq h
  · intro p hp
    exact neg_canonical hp
  · intro a b pr hca hcb hnv h
    by_cases hz : a.nterms = 0 ∨ b.nterms = 0
    · unfold heap_mul at h
      rw [if_pos hz] at h
      exact Option.noConfusion h
    · push_neg at hz
      rw [heap_mul_eq_quad hca hcb hnv hz.1 hz.2] at h
      have h2 : quad_mul a b = pr := by injection h
      rw [← h2]
      exact (quad_mul_spec hca.1 hcb.1 hnv).1
  · intro E a div q r fuel hca hcd hnva h
    exact ⟨(quot_rem_spec hca hcd hnva h).1,
      (quot_rem_spec hca hcd hnva h).2.1⟩
  · intro p q c e hp h
    exact (append_monomial_spec hp h).1

/-- C4: when the ring-level `quot_rem` of an accumulated coefficient by
the divisor's leading coefficient leaves a non-zero remainder the
emission step aborts with the clean-division failure signal, the division
loop then returns the sentinel `(empty quotient, original dividend)`, and
in particular x ÷ 2 over the integers returns q = 0, r = x. -/
theorem C4_clean_division_sentinel :
    (∀ (E : EuclOps α) (div : MultivariatePolynomial α) (s : DivState α)
      (m : Row) (c : α) (k' : Nat) (cache : DivCache) (dmh : List Bool)
      (iq : List Nat), div.canonical → 0 < div.nterms → c ≠ 0 →
      dominates m (div.backRow 0) = true →
      (E.quotRem c div.lcoeff).2 ≠ 0 →
      heap_division_emit E div s m c k' cache dmh iq = some (Sum.inr ())) ∧
    (∀ (E : EuclOps α) (a div : MultivariatePolynomial α) (fuel : Nat),
      heap_division_loop E a div fuel
        { k := 0, q := a.new_from, r := a.new_from,
          dmh := List.replicate div.nterms false,
          iq := List.replicate div.nterms 0, cache := [] } =
        some (Sum.inr ()) →
      heap_division E a div fuel = some (a.new_from, a)) ∧
    quot_rem intEuclOps { coefficients := [1], exponents := [[1]], nvars := 1 } { coefficients := [2], exponents := [[0]], nvars := 1 } 8 = some ({ coefficients := [], exponents := [], nvars := 1 }, { coefficients := [1], exponents := [[1]], nvars := 1 }) := by
  refine ⟨?_, ?_, by decide⟩
  · intro E div s m c k' cache dmh iq hcd hdpos hc hdom hrem
    unfold heap_division_emit
    rw [last_exponents_eq hcd.1.1 hdpos]
    simp only [Option.bind_eq_bind, Option.some_bind, Option.pure_def]
    rw [if_pos hc, if_pos hdom, if_pos hrem]
  · intro E a div fuel h
    unfold heap_division
    rw [h]

/-- C5: counterexample to the claimed `fast_divmod` identity.  On
a = b = 2x + 1 over GF(5) the divisor is restored to its original value,
but the returned pair fails q·b + r = a at the monomial x: the quotient is
scaled back by the original leading coefficient `o` where the algebra
requires its inverse.  The field inversion handle is passed as
`fun x => x ^ 3`, which the first conjunct certifies to be the inverse on
every non-zero element of GF(5). -/
theorem C5_fast_divmod_identity_fails :
    (∀ x : ZMod 5, x ≠ 0 → x * x ^ 3 = 1) ∧
    ∃ q r dfin : MultivariatePolynomial (ZMod 5),
      fast_divmod (zmodEuclOps 5) (fun x => x ^ 3)
        { coefficients := [1, 2], exponents := [[0], [1]], nvars := 1 }
        { coefficients := [1, 2], exponents := [[0], [1]], nvars := 1 } =
        some (q, r, dfin) ∧
      dfin = { coefficients := [1, 2], exponents := [[0], [1]], nvars := 1 } ∧
      convCoeff q ({ coefficients := [1, 2], exponents := [[0], [1]], nvars := 1 } : MultivariatePolynomial (ZMod 5)) [1] + r.coeffOf [1] ≠ ({ coefficients := [1, 2], exponents := [[0], [1]], nvars := 1 } : MultivariatePolynomial (ZMod 5)).coeffOf [1] := by
  refine ⟨by decide,
    { coefficients := [4], exponents := [[0]], nvars := 1 },
    { coefficients := [], exponents := [], nvars := 1 },
    { coefficients := [1, 2], exponents := [[0], [1]], nvars := 1 },
    by decide, rfl, by decide⟩

/-- C6: `quot_rem` is fatal (`none`, the divide-by-zero panic) when the
divisor is the zero polynomial; when the dividend is zero it returns the
zero pair `(a, a)`; and when the divisor is the constant one it returns
`(a, 0)`. -/
theorem C6_quot_rem_special_cases :
    (∀ (E : EuclOps α) (a div : MultivariatePolynomial α) (fuel : Nat),
      div.is_zero = true → quot_rem E a div fuel = none) ∧
    (∀ (E : EuclOps α) (a div : MultivariatePolynomial α) (fuel : Nat),
      div.is_zero = false → a.is_zero = true →
      quot_rem E a div fuel = some (a, a)) ∧
    (∀ (E : EuclOps α) (a div : MultivariatePolynomial α) (fuel : Nat),
      div.is_one = true → a.is_zero = false →
      quot_rem E a div fuel = some (a, a.new_from)) := by
  refine ⟨?_, ?_, ?_⟩
  · intro E a div fuel h
    unfold quot_rem
    rw [if_pos h]
  · intro E a div fuel hdz haz
    unfold quot_rem
    rw [if_neg (by simp [hdz]), if_pos haz]
  · intro E a div fuel hone haz
    have hdz : div.is_zero = false := by
      simp only [is_one, Bool.and_eq_true, beq_iff_eq] at hone
      simp [is_zero, hone.1.1]
    unfold quot_rem
    rw [if_neg (by simp [hdz]), if_neg (by simp [haz]), if_pos hone]

end MultivariatePolynomial

/-- C7: corrected — `sample_unit` merely orders the two raw signed 64-bit
draws (numerator = the smaller, denominator = the larger) and performs no
reduction; the built fraction need not be in lowest terms nor lie in
[0, 1]. -/
theorem C7_sample_unit_orders_draws :
    ∀ rng1 rng2 : Int, (sample_unit rng1 rng2).1 = min rng1 rng2 ∧
      (sample_unit rng1 rng2).2 = max rng1 rng2 := by
  intro rng1 rng2
  unfold sample_unit
  by_cases h : rng1 > rng2
  · rw [if_pos h]
    constructor
    · show rng2 = min rng1 rng2
      omega
    · show rng1 = max rng1 rng2
      omega
  · rw [if_neg h]
    constructor
    · show rng1 = min rng1 rng2
      omega
    · show rng2 = max rng1 rng2
      omega

/-- C7 counterexample to the spec's reading: the draws 2 and 4 produce the
unreduced fraction 2/4, and the draws -3 and 5 produce -3/5, which lies
outside [0, 1]. -/
theorem C7_sample_unit_not_reduced_unit :
    sample_unit 2 4 = (2, 4) ∧ Int.gcd 2 4 ≠ 1 ∧
      sample_unit (-3) 5 = (-3, 5) ∧ ((-3 : ℚ) / 5 < 0) :=
  ⟨by decide, by decide, by decide, by norm_num⟩

/-- C8: every hyperbolic function on the 2-lane and 4-lane SIMD doubles
fails with the descriptive error message and never returns a value. -/
theorem C8_simd_hyperbolics_error :
    (∀ x : f64x2, x.sinh = Except.error simdHyperbolicMessage ∧
      x.cosh = Except.error simdHyperbolicMessage ∧
      x.tanh = Except.error simdHyperbolicMessage ∧
      x.asinh = Except.error simdHyperbolicMessage ∧
      x.acosh = Except.error simdHyperbolicMessage ∧
      x.atanh = Except.error simdHyperbolicMessage) ∧
    (∀ x : f64x4, x.sinh = Except.error simdHyperbolicMessage ∧
      x.cosh = Except.error simdHyperbolicMessage ∧
      x.tanh = Except.error simdHyperbolicMessage ∧
      x.asinh = Except.error simdHyperbolicMessage ∧
      x.acosh = Except.error simdHyperbolicMessage ∧
      x.atanh = Except.error simdHyperbolicMessage) :=
  ⟨fun _ => ⟨rfl, rfl, rfl, rfl, rfl, rfl⟩,
    fun _ => ⟨rfl, rfl, rfl, rfl, rfl, rfl⟩⟩

namespace MultivariatePolynomial

/-- C9: `heap_mul` (and the `*` operator, which delegates to it) aborts
with an out-of-bounds access (`none`) whenever either operand has zero
terms, and succeeds on canonical operands of matching `nvars` that both
have at least one term. -/
theorem C9_heap_mul_zero_operand :
    (∀ a b : MultivariatePolynomial α, a.nterms = 0 ∨ b.nterms = 0 →
      heap_mul a b = none) ∧
    (∀ a b : MultivariatePolynomial α, a.canonical → b.canonical →
      a.nvars = b.nvars → a.nterms ≠ 0 → b.nterms ≠ 0 →
      ∃ p, heap_mul a b = some p) ∧
    (∀ a b : MultivariatePolynomial α, mul a b = heap_mul a b) := by
  refine ⟨?_, ?_, ?_⟩
  · intro a b h
    unfold heap_mul
    rw [if_pos h]
  · intro a b hca hcb hnv ha hb
    exact ⟨quad_mul a b, heap_mul_eq_quad hca hcb hnv ha hb⟩
  · intro a b
    rfl

/-- C10: the `PartialEq` comparison — for mismatching `nvars` it answers
true when both polynomials are zero, false when exactly one is zero, and
panics (`none`) when both are non-zero; for matching `nvars` it answers
true exactly when the term counts, exponent matrices and coefficient
sequences agree componentwise. -/
theorem C10_poly_eq_semantics :
    (∀ a b : MultivariatePolynomial α, a.nvars ≠ b.nvars →
      a.is_zero = true → b.is_zero = true → poly_eq a b = some true) ∧
    (∀ a b : MultivariatePolynomial α, a.nvars ≠ b.nvars →
      a.is_zero ≠ b.is_zero → poly_eq a b = some false) ∧
    (∀ a b : MultivariatePolynomial α, a.nvars ≠ b.nvars →
      a.is_zero = false → b.is_zero = false → poly_eq a b = none) ∧
    (∀ a b : MultivariatePolynomial α, a.nvars = b.nvars →
      (poly_eq a b = some true ↔ a.nterms = b.nterms ∧
        a.exponents = b.exponents ∧ a.coefficients = b.coefficients)) := by
  refine ⟨?_, ?_, ?_, ?_⟩
  · intro a b hnv ha hb
    unfold poly_eq
    rw [if_pos hnv, if_pos (by rw [ha, hb]; rfl)]
  · intro a b hnv hne
    unfold poly_eq
    rw [if_pos hnv]
    have h1 : (a.is_zero && b.is_zero) = false := by
      cases hza : a.is_zero <;> cases hzb : b.is_zero <;> simp_all
    have h2 : (a.is_zero || b.is_zero) = true := by
      cases hza : a.is_zero <;> cases hzb : b.is_zero <;> simp_all
    rw [if_neg (by simp [h1]), if_pos h2]
  · intro a b hnv ha hb
    unfold poly_eq
    rw [if_pos hnv, if_neg (by simp [ha, hb]), if_neg (by simp [ha, hb])]
  · intro a b hnv
    unfold poly_eq
    rw [if_neg (by simp [hnv])]
    by_cases hnt : a.nterms = b.nterms
    · rw [if_neg (by simp [hnt])]
      constructor
      · intro h
        have h2 : (decide (a.exponents = b.exponents) &&
            decide (a.coefficients = b.coefficients)) = true := by
          injection h
        simp only [Bool.and_eq_true, decide_eq_true_eq] at h2
        exact ⟨hnt, h2.1, h2.2⟩
      · rintro ⟨h1, h2, h3⟩
        simp [h2, h3]
    · rw [if_pos hnt]
      constructor
      · intro h
        have h2 : (false : Bool) = true := by injection h
        exact Bool.noConfusion h2
      · rintro ⟨h1, _, _⟩
        exact absurd h1 hnt

end MultivariatePolynomial

end Symbolica
